import Mathlib

/-!
# NDVI scenario simulation: a verification development

A shallow embedding of `src/simulate_ndvi.c` (table reader, year sort, analytic
logistic step, series simulation) and theorems about it.

Conventions of the embedding.

* C `double` values are modelled twice.  In the exact reading they are
  elements of a linearly ordered field `F`; the theorems take `F = ℝ`, the C
  library's `exp` is a parameter of the definitions that call it, instantiated
  with `Real.exp`, and division is the field's total division.  This reading
  carries the statements about exact values and about the structure of the
  computation.  In the `binary64` reading (last part of the definitions) they
  are IEEE 754 binary64 values with NaN, infinities, signed zeros and correctly
  rounded operations; this reading carries the statements about the values
  that the program computes: ranges, NaN, overflow and rounding.
* A C string is a `List Char` without the terminating NUL.
* An input file is `Option (List Char)`: `none` when `fopen` fails, otherwise
  the characters of the file.
* The C library's `strtol` (followed by the cast to `int`) and `strtod` are
  parameters of `read_csv`.
-/

namespace simulate_ndvi

variable {F : Type} [LinearOrderedField F]

/-! ## Data model -/

/-- The row limit `#define MAX_ROWS 512`. -/
def MAX_ROWS : Nat := 512

/-- The line buffer size `#define MAX_LINE 2048`. -/
def MAX_LINE : Nat := 2048

/-- The record `Row` of the source: one year of one scenario. -/
structure Row (F : Type) where
  year : Int
  P : F
  r0 : F
  K : F
  B0 : F
deriving DecidableEq, Repr

/-- The record `Table` of the source; `rows` holds the first `n` entries of the
array, so that the field `n` of the source is the length of the list. -/
structure Table (F : Type) where
  rows : List (Row F)
deriving DecidableEq, Repr

/-- The field `n` of the source's `Table`. -/
def Table.n (t : Table F) : Nat := t.rows.length

/-! ## Strings and lines -/

/-- The characters removed by `rtrim`: space, tab, carriage return, newline. -/
def is_trim_char (c : Char) : Bool :=
  c = ' ' || c = '\t' || c = '\r' || c = '\n'

/-- The source's `rtrim`: the loop deletes characters from the end of the
string while the last one is a space, tab, CR or LF. -/
def rtrim (s : List Char) : List Char :=
  s.rdropWhile is_trim_char

/-- The C string held in a buffer: the characters before the first NUL. -/
def cstr (buf : List Char) : List Char :=
  buf.takeWhile (fun c => c != Char.ofNat 0)

/-- Reads at most `k` characters of the stream, stopping after a newline:
the characters read and the rest of the stream. -/
def fgets_chars : Nat → List Char → List Char × List Char
  | 0, s => ([], s)
  | _ + 1, [] => ([], [])
  | k + 1, c :: s =>
    if c = '\n' then ([c], s)
    else ((fgets_chars k s).1.cons c, (fgets_chars k s).2)

/-- The C library's `fgets(buf, size, f)`: `none` (NULL) at end of file,
otherwise the at most `size - 1` characters stored and the rest of the stream. -/
def fgets (size : Nat) (stream : List Char) : Option (List Char × List Char) :=
  match stream with
  | [] => none
  | _ :: _ => some (fgets_chars (size - 1) stream)

/-- One call of `strtok` with the delimiter set `","` on the text that remains:
leading commas are skipped; `none` (NULL) when nothing is left, otherwise the
token up to the next comma and the text after that comma. -/
def strtok (s : List Char) : Option (List Char × List Char) :=
  match s.dropWhile (fun c => c == ',') with
  | [] => none
  | c :: s1 =>
    some ((c :: s1).takeWhile (fun c => c != ','),
          ((c :: s1).dropWhile (fun c => c != ',')).drop 1)

/-- The tokenising loop `p = strtok(s, ","); while (p && n < cap) { v[n++] = p;
p = strtok(NULL, ","); }`: the first `cap` tokens of `s`. -/
def tokens : Nat → List Char → List (List Char)
  | 0, _ => []
  | cap + 1, s =>
    match strtok s with
    | none => []
    | some (tok, rest) => tok :: tokens cap rest

/-- The loop of the source's `find_col`, started at index `i`. -/
def find_col_from (name : List Char) : List (List Char) → Nat → Int
  | [], _ => -1
  | c :: cols, i => if c = name then (i : Int) else find_col_from name cols (i + 1)

/-- The source's `find_col`: index of the first column equal to `name`, or -1. -/
def find_col (cols : List (List Char)) (name : List Char) : Int :=
  find_col_from name cols 0

/-! ## Sorting by year -/

/-- The inner `while` loop of the insertion sort together with the final
store `rows[j+1] = key`; the first argument is `j + 1` for the source's `j`. -/
def sort_inner (key : Row F) : Nat → List (Row F) → List (Row F)
  | 0, rows => rows.set 0 key
  | j + 1, rows =>
    match rows[j]? with
    | some rj =>
      if rj.year > key.year then sort_inner key j (rows.set (j + 1) rj)
      else rows.set (j + 1) key
    | none => rows

/-- One iteration of the outer `for` loop of the insertion sort. -/
def sort_step (rows : List (Row F)) (i : Nat) : List (Row F) :=
  match rows[i]? with
  | some key => sort_inner key i rows
  | none => rows

/-- The insertion sort at the end of `read_csv`: `for (i = 1; i < n; ++i)`. -/
def sort_rows (rows : List (Row F)) : List (Row F) :=
  (List.range' 1 (rows.length - 1)).foldl sort_step rows

/-! ## Functional description of the sort -/

/-- What one pass of the inner loop of the insertion sort computes on the
sorted prefix `pre`: the rows at the end of `pre` whose year is greater than
the key's are moved one place up and the key is stored below them. -/
def insert_by_year (key : Row F) (pre : List (Row F)) : List (Row F) :=
  pre.rdropWhile (fun r => decide (r.year > key.year)) ++
    key :: pre.rtakeWhile (fun r => decide (r.year > key.year))

/-- Insertion of the rows one after the other, in file order. -/
def insertion_sort (rows : List (Row F)) : List (Row F) :=
  rows.foldl (fun pre key => insert_by_year key pre) []

/-! ## Reading a table -/

/-- The column positions found in the header. -/
structure Cols where
  ncols : Nat
  idxYear : Nat
  idxP : Nat
  idxr0 : Nat
  idxK : Nat
  idxB0 : Nat
deriving DecidableEq, Repr

/-- The row built from the fields of one data line. -/
def make_row (strtol : List Char → Int) (strtod : List Char → F) (c : Cols)
    (vals : List (List Char)) : Row F :=
  { year := strtol (vals.getD c.idxYear [])
    P := strtod (vals.getD c.idxP [])
    r0 := strtod (vals.getD c.idxr0 [])
    K := strtod (vals.getD c.idxK [])
    B0 := strtod (vals.getD c.idxB0 []) }

/-- The loop `while (fgets(line, sizeof(line), f))` of `read_csv`: the return
code decided so far (1 when the loop ends at end of file, 0 when the row limit
is hit) and the rows stored.  The first argument bounds the number of
iterations; the length of the stream is enough (`read_rows_fuel`). -/
def read_rows (strtol : List Char → Int) (strtod : List Char → F) (c : Cols) :
    Nat → List Char → List (Row F) → Int × List (Row F)
  | 0, _, acc => (1, acc)
  | fuel + 1, stream, acc =>
    match fgets MAX_LINE stream with
    | none => (1, acc)
    | some (buf, rest) =>
      let line := rtrim (cstr buf)
      if line = [] then read_rows strtol strtod c fuel rest acc
      else
        let vals := tokens 64 line
        if c.ncols > vals.length then read_rows strtol strtod c fuel rest acc
        else if acc.length ≥ MAX_ROWS then (0, acc)
        else read_rows strtol strtod c fuel rest (acc ++ [make_row strtol strtod c vals])

/-- The header fields as `read_csv` compares them: the first line is trimmed,
cut at commas into at most 64 non-empty tokens, and each token is trimmed. -/
def header_cols (buf : List Char) : List (List Char) :=
  (tokens 64 (rtrim (cstr buf))).map rtrim

/-- The five column names `read_csv` looks for: `Year`, `P`, `r0`, `K`, `B0`. -/
def required_names : List (List Char) :=
  [['Y', 'e', 'a', 'r'], ['P'], ['r', '0'], ['K'], ['B', '0']]

/-- The part of the source's `read_csv` that comes before the sort: the return
code decided so far (0 when the file cannot be opened, is empty, lacks a
column or exceeds the row limit; 1 otherwise) and the rows stored in `*t`, in
file order. -/
def read_unsorted (strtol : List Char → Int) (strtod : List Char → F)
    (file : Option (List Char)) : Int × List (Row F) :=
  match file with
  | none => (0, [])
  | some stream =>
    match fgets MAX_LINE stream with
    | none => (0, [])
    | some (buf, rest) =>
      let cols := header_cols buf
      let idxYear := find_col cols ['Y', 'e', 'a', 'r']
      let idxP := find_col cols ['P']
      let idxr0 := find_col cols ['r', '0']
      let idxK := find_col cols ['K']
      let idxB0 := find_col cols ['B', '0']
      if idxYear < 0 ∨ idxP < 0 ∨ idxr0 < 0 ∨ idxK < 0 ∨ idxB0 < 0 then (0, [])
      else
        read_rows strtol strtod
          ⟨cols.length, idxYear.toNat, idxP.toNat, idxr0.toNat, idxK.toNat, idxB0.toNat⟩
          rest.length rest []

/-- The source's `read_csv`: the return code (1 success, 0 failure) and the
table `*t` as it stands on return; the rows are sorted only on the path that
returns 1. -/
def read_csv (strtol : List Char → Int) (strtod : List Char → F)
    (file : Option (List Char)) : Int × Table F :=
  if (read_unsorted strtol strtod file).1 = 1 then
    (1, ⟨sort_rows (read_unsorted strtol strtod file).2⟩)
  else (0, ⟨(read_unsorted strtol strtod file).2⟩)

/-- The header fields described with the library's `splitOn`: the trimmed
first line is split at commas, empty pieces are left out, the first 64 pieces
are kept and each is trimmed at its end. -/
def header_fields (buf : List Char) : List (List Char) :=
  ((((rtrim (cstr buf)).splitOn ',').filter (fun f => f ≠ [])).take 64).map rtrim

/-! ## The analytic logistic step and the series -/

/-- The source's `logistic_step` (analytic one-year step, `r(P) = r0 * exp(P)`)
in the exact reading; `binary64.logistic_step` is the same function on
doubles. -/
def logistic_step (exp : F → F) (B r0 P K : F) : F :=
  let eps : F := 1e-12
  if K ≤ eps then min 1 (max 0 B)
  else
    let r := r0 * exp P
    let Bsafe := if B < eps then eps else B
    let factor := exp (-r * 1)
    let nextB := K / (1 + (K / Bsafe - 1) * factor)
    let nextB := if nextB < 0 then 0 else nextB
    let nextB := if nextB > 1 then 1 else nextB
    nextB

/-- The `for` loop of `simulate_series`: the values written to `ndvi_out`,
in index order, starting from state `B`. -/
def simulate_loop (exp : F → F) : F → List (Row F) → List F
  | _, [] => []
  | B, r :: rs =>
    (logistic_step exp B r.r0 r.P r.K) ::
      simulate_loop exp (logistic_step exp B r.r0 r.P r.K) rs

/-- The source's `simulate_series`: the list of values it writes to
`ndvi_out[0 .. n-1]` (nothing is written when `n <= 0`). -/
def simulate_series (exp : F → F) (tab : Table F) : List F :=
  match tab.rows with
  | [] => []
  | r :: _ =>
    let B := r.B0
    let B := if B < 0 then 0 else B
    let B := if B > 1 then 1 else B
    simulate_loop exp B tab.rows

/-! ## Concrete library functions used in the examples -/

/-- The C library's `isspace` in the "C" locale. -/
def isspace (c : Char) : Bool :=
  c = ' ' || c = '\t' || c = '\n' || c = Char.ofNat 11 || c = Char.ofNat 12 || c = '\r'

/-- The value of the leading decimal digits of a string, continuing from `acc`. -/
def digits_value : Nat → List Char → Nat
  | acc, [] => acc
  | acc, c :: s => if c.isDigit then digits_value (acc * 10 + (c.toNat - 48)) s else acc

/-- The expression `(int)strtol(s, NULL, 10)` on an LP64 platform: leading
white space, an optional sign, decimal digits; the `long` result saturates and
the cast to `int` keeps the low 32 bits. -/
def strtol_int (s : List Char) : Int :=
  let v : Int :=
    match s.dropWhile isspace with
    | '-' :: t => max (-(2 ^ 63)) (-(digits_value 0 t : Int))
    | '+' :: t => min (2 ^ 63 - 1) (digits_value 0 t : Int)
    | t => min (2 ^ 63 - 1) (digits_value 0 t : Int)
  (v + 2 ^ 31) % 2 ^ 32 - 2 ^ 31

/-! ## Example inputs -/

/-- A file whose data rows have the years 2021, 2019, 2020, in this order. -/
def file_three_years : List Char :=
  "Year,P,r0,K,B0\n2021,1,2,3,4\n2019,5,6,7,8\n2020,9,1,2,3\n".toList

/-- A file with two data rows of the same year 2020. -/
def file_same_year : List Char :=
  "Year,P,r0,K,B0\n2020,1,1,1,1\n2020,2,2,2,2\n".toList

/-- A file whose header lacks the column `B0`. -/
def file_no_B0 : List Char :=
  "Year,P,r0,K\n2020,1,2,3\n".toList

/-- A header line of 69 columns: 64 columns named `x`, then `Year`, `P`, `r0`,
`K`, `B0`. -/
def header_69 : List Char :=
  [','].intercalate (List.replicate 64 ['x'] ++ required_names)

/-- A file with the header `header_69` and one full data row. -/
def file_69_columns : List Char :=
  header_69 ++ ['\n'] ++ [','].intercalate (List.replicate 69 ['1']) ++ ['\n']

/-- A stand-in for `strtod` in the examples, which have numeric fields of one
character only: on a field of one character it agrees with the C library's
`strtod` (the digit's value, 0 for any other character); on other fields it
is 0. -/
def strtod_mark (s : List Char) : ℚ :=
  match s with
  | [c] => if c.isDigit then ((c.toNat - 48 : Nat) : ℚ) else 0
  | _ => 0

/-! ## Merging the three scenarios -/

/-- The loop of the source's `index_of_year`, started at index `i`. -/
def index_of_year_from (year : Int) : List (Row F) → Nat → Int
  | [], _ => -1
  | r :: rows, i =>
    if r.year = year then (i : Int) else index_of_year_from year rows (i + 1)

/-- The source's `index_of_year`: index of the first row of the year, or -1. -/
def index_of_year (t : Table F) (year : Int) : Int :=
  index_of_year_from year t.rows 0

/-- One line of the merged output written by `main`. -/
structure Merged (F : Type) where
  year : Int
  P_up : F
  ndvi_up : F
  P_down : F
  ndvi_down : F
  P_cst : F
  ndvi_cst : F
deriving DecidableEq, Repr

/-- The value `t->rows[i].P` read by `main`. -/
def row_P (t : Table F) (i : Nat) : F :=
  match t.rows[i]? with
  | some r => r.P
  | none => 0

/-- The merge loop of `main`, `for (i = 0; i < T_up.n; ++i)`, from index `i` on
over the rows of `T_up` that remain: the lines written.  The series are the
arrays filled by `simulate_series` (allocated by `calloc`, hence 0 where
nothing was written). -/
def merge_from (T_down T_cst : Table F) (N_up N_down N_cst : List F) :
    List (Row F) → Nat → List (Merged F)
  | [], _ => []
  | r :: rest, i =>
    if index_of_year T_down r.year < 0 ∨ index_of_year T_cst r.year < 0 then
      merge_from T_down T_cst N_up N_down N_cst rest (i + 1)
    else
      { year := r.year
        P_up := r.P
        ndvi_up := N_up.getD i 0
        P_down := row_P T_down (index_of_year T_down r.year).toNat
        ndvi_down := N_down.getD (index_of_year T_down r.year).toNat 0
        P_cst := row_P T_cst (index_of_year T_cst r.year).toNat
        ndvi_cst := N_cst.getD (index_of_year T_cst r.year).toNat 0 } ::
        merge_from T_down T_cst N_up N_down N_cst rest (i + 1)

/-- The merge loop of `main` over the three tables and their series. -/
def merge_loop (T_up T_down T_cst : Table F) (N_up N_down N_cst : List F) :
    List (Merged F) :=
  merge_from T_down T_cst N_up N_down N_cst T_up.rows 0

/-- The source's `main`, given the contents of the three input files: the exit
status and the lines written to the output (the allocation of the series and
the opening of the output file are taken to succeed). -/
def main (strtol : List Char → Int) (strtod : List Char → F) (exp : F → F)
    (file_up file_down file_cst : Option (List Char)) : Int × List (Merged F) :=
  if (read_csv strtol strtod file_up).1 = 0 then (1, [])
  else if (read_csv strtol strtod file_down).1 = 0 then (1, [])
  else if (read_csv strtol strtod file_cst).1 = 0 then (1, [])
  else
    (0, merge_loop (read_csv strtol strtod file_up).2 (read_csv strtol strtod file_down).2
      (read_csv strtol strtod file_cst).2
      (simulate_series exp (read_csv strtol strtod file_up).2)
      (simulate_series exp (read_csv strtol strtod file_down).2)
      (simulate_series exp (read_csv strtol strtod file_cst).2))

/-! ## Descriptions of the input used in the statements -/

/-- The column positions `read_csv` computes from the header line `buf`. -/
def header_positions (buf : List Char) : Cols :=
  ⟨(header_cols buf).length,
    (find_col (header_cols buf) ['Y', 'e', 'a', 'r']).toNat,
    (find_col (header_cols buf) ['P']).toNat,
    (find_col (header_cols buf) ['r', '0']).toNat,
    (find_col (header_cols buf) ['K']).toNat,
    (find_col (header_cols buf) ['B', '0']).toNat⟩

/-- The rows of the data lines that `read_csv` accepts, in file order: the
loop of `read_rows` without the test of the row limit.  Empty lines and lines
with fewer fields than the header has columns give no row. -/
def accepted_rows (strtol : List Char → Int) (strtod : List Char → F) (c : Cols) :
    Nat → List Char → List (Row F)
  | 0, _ => []
  | fuel + 1, stream =>
    match fgets MAX_LINE stream with
    | none => []
    | some (buf, rest) =>
      if rtrim (cstr buf) = [] then accepted_rows strtol strtod c fuel rest
      else if c.ncols > (tokens 64 (rtrim (cstr buf))).length then
        accepted_rows strtol strtod c fuel rest
      else
        make_row strtol strtod c (tokens 64 (rtrim (cstr buf))) ::
          accepted_rows strtol strtod c fuel rest

/-- A complete line of text that `fgets` reads in one piece: it ends with a
newline, has no other newline, and fits the line buffer. -/
def is_line (l : List Char) : Bool :=
  l.getLast? = some '\n' && !(l.dropLast.contains '\n') && l.length < MAX_LINE

/-- The first 64 non-empty comma-separated pieces of the header line, before
each piece is trimmed. -/
def header_pieces (buf : List Char) : List (List Char) :=
  (((rtrim (cstr buf)).splitOn ',').filter (fun f => f ≠ [])).take 64

/-- A file whose header has a blank after each comma. -/
def file_blank_header : List Char :=
  "Year, P, r0, K, B0\n2020,1,1,1,1\n".toList

/-- A file whose header fields end with blanks and tabs. -/
def file_trailing_header : List Char :=
  "Year ,P\t,r0  ,K ,B0 \r\n2020,1,1,1,1\n".toList

/-- A file with a short line and an empty line between two full data lines. -/
def file_short_line : List Char :=
  "Year,P,r0,K,B0\n2021,1,2,3,4\n2019,5\n\n2020,9,1,2,3\n".toList

/-- The text of one line of a comma-separated file, without its newline: the
fields joined by commas, followed by `pad`, the blanks, tabs and carriage
returns that stand before the newline (`['\r']` in a file with CRLF line
ends, `[]` in a file with LF line ends). -/
def csv_line (fields : List (List Char)) (pad : List Char) : List Char :=
  [','].intercalate fields ++ pad

/-- The text of a file with the given lines: a newline stands after every
line but the last, and after the last line when `final_newline` holds. -/
def join_lines (final_newline : Bool) : List (List Char) → List Char
  | [] => []
  | [l] => if final_newline then l ++ ['\n'] else l
  | l :: l2 :: ls => l ++ '\n' :: join_lines final_newline (l2 :: ls)

/-- The text of a comma-separated file: the header line and the data lines,
each given by its fields and by the white space at its end, and whether a
newline stands after the last line. -/
def csv_file (header : List (List Char) × List Char)
    (rows : List (List (List Char) × List Char)) (final_newline : Bool) : List Char :=
  join_lines final_newline ((header :: rows).map (fun l => csv_line l.1 l.2))

/-- The fields of a line with the first `σ.length` column positions
rearranged: the new column `j` is the old column `σ[j]`; the fields after
these columns stay where they are. -/
def permute_cols (σ : List Nat) (fields : List (List Char)) : List (List Char) :=
  σ.map (fun i => fields.getD i []) ++ fields.drop σ.length

/-- A field that is not empty, has no comma, newline or NUL character, and
does not end with a blank, tab or carriage return. -/
def clean_field (f : List Char) : Bool :=
  decide (f ≠ [] ∧ ',' ∉ f ∧ '\n' ∉ f ∧ Char.ofNat 0 ∉ f ∧ rtrim f = f)

/-- White space at the end of a line: blanks, tabs and carriage returns. -/
def is_pad (pad : List Char) : Bool :=
  pad.all (fun c => c = ' ' || c = '\t' || c = '\r')

/-- A header with two columns named `P`. -/
def header_two_P : List (List Char) :=
  ["Year".toList, "P".toList, "P".toList, "r0".toList, "K".toList, "B0".toList]

/-- A data row for the header `header_two_P`. -/
def row_two_P : List (List Char) :=
  ["2020".toList, "1".toList, "2".toList, "3".toList, "4".toList, "5".toList]

/-- A file with the five-column header and `n` full data lines. -/
def file_rows (n : Nat) : List Char :=
  "Year,P,r0,K,B0\n".toList ++ (List.replicate n "2020,1,1,1,1\n".toList).flatten

/-- An up table with the years 2020, 2021, 2022. -/
def table_up : Table ℚ :=
  ⟨[⟨2020, 1, 0, 1, 1⟩, ⟨2021, 2, 0, 1, 1⟩, ⟨2022, 3, 0, 1, 1⟩]⟩

/-- A down table with the years 2019, 2020, 2021. -/
def table_down : Table ℚ :=
  ⟨[⟨2019, 4, 0, 1, 1⟩, ⟨2020, 5, 0, 1, 1⟩, ⟨2021, 6, 0, 1, 1⟩]⟩

/-- A cst table with the years 2019, 2020, 2021. -/
def table_cst : Table ℚ :=
  ⟨[⟨2019, 7, 0, 1, 1⟩, ⟨2020, 8, 0, 1, 1⟩, ⟨2021, 9, 0, 1, 1⟩]⟩

end simulate_ndvi

namespace growth_sim

variable {F : Type} [LinearOrderedField F]

/-! ## The sub-stepped strategy (`src/growth_sim.c`) -/

/-- The constant `#define STEPS_PER_YEAR 100`. -/
def STEPS_PER_YEAR : Nat := 100

/-- The constant `#define DT (1.0 / STEPS_PER_YEAR)`. -/
def DT : F := 1 / (STEPS_PER_YEAR : F)

/-- The source's `update_biomass`: one forward Euler sub-step, in the exact
reading; `binary64.update_biomass` is the same function on doubles. -/
def update_biomass (exp : F → F) (B P r0 alpha K : F) : F :=
  let r := r0 * exp (-alpha * P)
  let dBdt := r * B * (1 - B / K)
  B + DT * dBdt

/-- The loop `for (step = 0; step < n; step++) B = update_biomass(B, P, r0,
alpha, K);` of `main`. -/
def substeps (exp : F → F) (P r0 alpha K : F) : Nat → F → F
  | 0, B => B
  | n + 1, B => substeps exp P r0 alpha K n (update_biomass exp B P r0 alpha K)

/-- The value `main` prints for one input line: `STEPS_PER_YEAR` sub-steps
from `B0`. -/
def simulate_year (exp : F → F) (B0 P r0 alpha K : F) : F :=
  substeps exp P r0 alpha K STEPS_PER_YEAR B0

end growth_sim

namespace growth_sim_30years

variable {F : Type} [LinearOrderedField F]

/-! ## The region-batched simulation (`src/growth_sim_30years.c`)

A line of the input is taken as the eight values `sscanf` stores from it (all
eight conversions succeed); a region label fits `current_region` and a region
has at most `MAX_YEARS` lines. -/

/-- The constant `#define STEPS_PER_YEAR 100`. -/
def STEPS_PER_YEAR : Nat := 100

/-- The constant `#define DT (1.0 / STEPS_PER_YEAR)`. -/
def DT : F := 1 / (STEPS_PER_YEAR : F)

/-- The source's `update_biomass`: one forward Euler sub-step. -/
def update_biomass (exp : F → F) (B P r0 alpha K : F) : F :=
  let r := r0 * exp (-alpha * P)
  let dBdt := r * B * (1 - B / K)
  B + DT * dBdt

/-- The loop `for (step = 0; step < n; step++) B = update_biomass(B, P, r0,
alpha, K);`. -/
def substeps (exp : F → F) (P r0 alpha K : F) : Nat → F → F
  | 0, B => B
  | n + 1, B => substeps exp P r0 alpha K n (update_biomass exp B P r0 alpha K)

/-- The values `sscanf` stores from one data line:
`Region,Year,NO2,r_estimated,K_estimated,B0_estimated,r0_global,alpha_global`. -/
structure Line (F : Type) where
  region : List Char
  year : Int
  P : F
  r_est : F
  K : F
  B0 : F
  r0 : F
  alpha : F

/-- One line `Region,Year,B_predicted` of the output. -/
structure Out (F : Type) where
  region : List Char
  year : Int
  B : F

/-- The loop `for (y = 0; y < count; y++)` that simulates one region: the
lines written for the stored forcing values and years, from the state `B`. -/
def simulate_region (exp : F → F) (region : List Char) (r0 alpha K : F) :
    F → List F → List Int → List (Out F)
  | B, P :: Ps, y :: ys =>
    ⟨region, y, substeps exp P r0 alpha K STEPS_PER_YEAR B⟩ ::
      simulate_region exp region r0 alpha K (substeps exp P r0 alpha K STEPS_PER_YEAR B) Ps ys
  | _, _, _ => []

/-- The variables of `simulate_growth` that live across the lines, and the
output written so far; `P_values` and `years` hold their first `count`
entries. -/
structure State (F : Type) where
  current_region : List Char
  P_values : List F
  years : List Int
  B0 : F
  r0 : F
  alpha : F
  K : F
  out : List (Out F)

/-- The body of the loop `while (fgets(line, MAXLINE, fp))` for one line:
`sscanf` stores the line's `K`, `B0`, `r0`, `alpha` in the variables declared
before the loop; then, on a new region label with `count > 0`, the stored
region is simulated with the values of these variables and `count` is reset;
then the line's label, forcing value and year are stored. -/
def step (exp : F → F) (s : State F) (l : Line F) : State F :=
  if s.current_region ≠ l.region ∧ s.P_values.length > 0 then
    { current_region := l.region
      P_values := [l.P]
      years := [l.year]
      B0 := l.B0
      r0 := l.r0
      alpha := l.alpha
      K := l.K
      out := s.out ++
        simulate_region exp s.current_region l.r0 l.alpha l.K l.B0 s.P_values s.years }
  else
    { current_region := l.region
      P_values := s.P_values ++ [l.P]
      years := s.years ++ [l.year]
      B0 := l.B0
      r0 := l.r0
      alpha := l.alpha
      K := l.K
      out := s.out }

/-- The source's `simulate_growth` on the data lines of the input: the lines
written to the output. -/
def simulate_growth (exp : F → F) (lines : List (Line F)) : List (Out F) :=
  let s := lines.foldl (step exp) ⟨[], [], [], 0, 0, 0, 0, []⟩
  if s.P_values.length > 0 then
    s.out ++ simulate_region exp s.current_region s.r0 s.alpha s.K s.B0 s.P_values s.years
  else s.out

end growth_sim_30years

namespace binary64

/-! ## Binary64 arithmetic

The programs compute with the C type `double`.  The definitions of this part
are the IEEE 754 binary64 values and the correctly rounded operations on them
(round to nearest, ties to even), and the functions of the programs evaluated
with these operations. -/

/-- A value of the C type `double`: NaN, the two infinities, the negative zero,
or a finite number `num q`; `num 0` is the positive zero.  The finite doubles
are the `num q` that rounding leaves as they are (`is_double`). -/
inductive Dbl where
  | nan : Dbl
  | pinf : Dbl
  | ninf : Dbl
  | nzero : Dbl
  | num (q : ℚ) : Dbl
deriving DecidableEq

/-- The binary exponent of a number: `2 ^ binade q ≤ |q| < 2 ^ (binade q + 1)`
for `q ≠ 0`. -/
def binade (q : ℚ) : ℤ := Int.log 2 |q|

/-- The exponent of the unit in the last place of the doubles near `q`: 52
binary places below the leading one, and `-1074` in the subnormal range. -/
def ulp_exp (q : ℚ) : ℤ := max (binade q) (-1022) - 52

/-- The integer nearest to `x`, the even one of two that are equally near. -/
def round_even (x : ℚ) : ℤ :=
  if x - ⌊x⌋ < 1 / 2 then ⌊x⌋
  else if 1 / 2 < x - ⌊x⌋ then ⌊x⌋ + 1
  else if ⌊x⌋ % 2 = 0 then ⌊x⌋ else ⌊x⌋ + 1

/-- The magnitude `a ≥ 0` rounded to the nearest multiple of its unit in the
last place. -/
def round_mag (a : ℚ) : ℚ := round_even (a / 2 ^ ulp_exp a) * 2 ^ ulp_exp a

/-- The double nearest to the number `q` (round to nearest, ties to even):
magnitudes that round to `2 ^ 1024` or more overflow to an infinity, and a
non-zero number that rounds to zero keeps its sign. -/
def round64 (q : ℚ) : Dbl :=
  if q = 0 then Dbl.num 0
  else if 2 ^ 1024 ≤ round_mag |q| then (if 0 < q then Dbl.pinf else Dbl.ninf)
  else if round_mag |q| = 0 then (if 0 < q then Dbl.num 0 else Dbl.nzero)
  else Dbl.num (if 0 < q then round_mag |q| else -round_mag |q|)

/-- The multiples of the unit in the last place. -/
def on_grid (g : ℚ) : Prop := ∃ m : ℤ, g = m * 2 ^ ulp_exp g

/-- A double: one of the special values, or a finite number that rounding
leaves as it is. -/
def is_double : Dbl → Prop
  | Dbl.num q => round64 q = Dbl.num q
  | _ => True

/-- The test `isnan`. -/
def is_nan : Dbl → Bool
  | Dbl.nan => true
  | _ => false

/-- The test `isinf`. -/
def is_inf : Dbl → Bool
  | Dbl.pinf => true
  | Dbl.ninf => true
  | _ => false

/-- The zeros and the finite numbers. -/
def is_finite : Dbl → Bool
  | Dbl.nzero => true
  | Dbl.num _ => true
  | _ => false

/-- The number a finite double stands for (0 for the other values). -/
def toRat : Dbl → ℚ
  | Dbl.num q => q
  | _ => 0

/-- The sign bit (false for NaN, whose sign plays no part here). -/
def sign_bit : Dbl → Bool
  | Dbl.ninf => true
  | Dbl.nzero => true
  | Dbl.num q => decide (q < 0)
  | _ => false

/-- The zero with the given sign bit. -/
def zero_of (s : Bool) : Dbl := if s then Dbl.nzero else Dbl.num 0

/-- The infinity with the given sign bit. -/
def inf_of (s : Bool) : Dbl := if s then Dbl.ninf else Dbl.pinf

/-- Unary minus. -/
def neg : Dbl → Dbl
  | Dbl.nan => Dbl.nan
  | Dbl.pinf => Dbl.ninf
  | Dbl.ninf => Dbl.pinf
  | Dbl.nzero => Dbl.num 0
  | Dbl.num q => if q = 0 then Dbl.nzero else Dbl.num (-q)

/-- The sum `x + y`: `∞ + (-∞)` is NaN, a sum of two zeros is `-0` only when
both are, and an exact sum of zero is `+0`. -/
def add (x y : Dbl) : Dbl :=
  if is_nan x || is_nan y then Dbl.nan
  else if is_inf x then (if is_inf y && (sign_bit x != sign_bit y) then Dbl.nan else x)
  else if is_inf y then y
  else if toRat x = 0 ∧ toRat y = 0 then zero_of (sign_bit x && sign_bit y)
  else round64 (toRat x + toRat y)

/-- The difference `x - y`. -/
def sub (x y : Dbl) : Dbl := add x (neg y)

/-- The product `x * y`: `∞ * 0` is NaN, and the sign of a zero or infinite
product is the exclusive or of the signs. -/
def mul (x y : Dbl) : Dbl :=
  if is_nan x || is_nan y then Dbl.nan
  else if is_inf x || is_inf y then
    (if (is_finite x && decide (toRat x = 0)) || (is_finite y && decide (toRat y = 0))
      then Dbl.nan
    else inf_of (xor (sign_bit x) (sign_bit y)))
  else if toRat x * toRat y = 0 then zero_of (xor (sign_bit x) (sign_bit y))
  else round64 (toRat x * toRat y)

/-- The quotient `x / y`: `∞ / ∞` and `0 / 0` are NaN, a non-zero number
divided by a zero is an infinity. -/
def div (x y : Dbl) : Dbl :=
  if is_nan x || is_nan y then Dbl.nan
  else if is_inf x then (if is_inf y then Dbl.nan else inf_of (xor (sign_bit x) (sign_bit y)))
  else if is_inf y then zero_of (xor (sign_bit x) (sign_bit y))
  else if toRat y = 0 then
    (if toRat x = 0 then Dbl.nan else inf_of (xor (sign_bit x) (sign_bit y)))
  else if toRat x = 0 then zero_of (xor (sign_bit x) (sign_bit y))
  else round64 (toRat x / toRat y)

/-- The comparison `x < y`, false when an operand is NaN; the two zeros are
equal. -/
def lt : Dbl → Dbl → Bool
  | Dbl.nan, _ => false
  | _, Dbl.nan => false
  | Dbl.pinf, _ => false
  | _, Dbl.ninf => false
  | Dbl.ninf, _ => true
  | _, Dbl.pinf => true
  | x, y => decide (toRat x < toRat y)

/-- The comparison `x <= y`, false when an operand is NaN. -/
def le : Dbl → Dbl → Bool
  | Dbl.nan, _ => false
  | _, Dbl.nan => false
  | Dbl.ninf, _ => true
  | _, Dbl.pinf => true
  | Dbl.pinf, _ => false
  | _, Dbl.ninf => false
  | x, y => decide (toRat x ≤ toRat y)

/-- The C library's `fmax`: the other argument when one is NaN, otherwise the
greater one.  For two zeros of different sign the C standard leaves the sign
of the result open; the first argument is taken here. -/
def fmax (x y : Dbl) : Dbl :=
  if is_nan x then y else if is_nan y then x else if lt x y then y else x

/-- The C library's `fmin`, with the same conventions as `fmax`. -/
def fmin (x y : Dbl) : Dbl :=
  if is_nan x then y else if is_nan y then x else if lt y x then y else x

/-- The C library's `exp` on a double.  The values at NaN, the zeros and the
infinities are those of Annex F of the C standard; arguments from 710 on
overflow (`e ^ 710 > 2 ^ 1024`) and arguments up to -746 underflow to zero
(`e ^ (-746) < 2 ^ (-1075)`).  On the other arguments the library returns an
approximation that the standard does not fix: the parameter `ordinary` gives
these results. -/
def exp64 (ordinary : ℚ → Dbl) : Dbl → Dbl
  | Dbl.nan => Dbl.nan
  | Dbl.pinf => Dbl.pinf
  | Dbl.ninf => Dbl.num 0
  | Dbl.nzero => Dbl.num 1
  | Dbl.num q =>
    if q = 0 then Dbl.num 1
    else if 710 ≤ q then Dbl.pinf
    else if q ≤ -746 then Dbl.num 0
    else ordinary q

/-- Results for `exp64` on ordinary arguments that follow the power series of
the exponential to 30 terms; the statements at concrete inputs below use only
arguments on which `exp64` does not consult it. -/
def exp_series (q : ℚ) : Dbl :=
  round64 ((List.range 30).foldl (fun s k => s + q ^ k / (Nat.factorial k : ℚ)) 0)

/-- The comparison `x == y`: false when an operand is NaN; the two zeros are
equal. -/
def eq (x y : Dbl) : Bool := le x y && le y x

/-- The constant `eps = 1e-12` of `logistic_step`: the double nearest to
`10 ^ (-12)`. -/
def eps : Dbl := round64 (1 / 10 ^ 12)

/-- The source's `logistic_step` of `simulate_ndvi.c`, computed on doubles
with the operations of the source in their order; `exp` is the C library's
function. -/
def logistic_step (exp : Dbl → Dbl) (B r0 P K : Dbl) : Dbl :=
  if le K eps then fmin (Dbl.num 1) (fmax (Dbl.num 0) B)
  else
    let r := mul r0 (exp P)
    let Bsafe := if lt B eps then eps else B
    let factor := exp (mul (neg r) (Dbl.num 1))
    let nextB := div K (add (Dbl.num 1) (mul (sub (div K Bsafe) (Dbl.num 1)) factor))
    let nextB := if lt nextB (Dbl.num 0) then Dbl.num 0 else nextB
    let nextB := if lt (Dbl.num 1) nextB then Dbl.num 1 else nextB
    nextB

/-- The two `if` statements at the end of `logistic_step`:
`if (x < 0.0) x = 0.0; if (x > 1.0) x = 1.0;`. -/
def clamp_ifs (x : Dbl) : Dbl :=
  if lt (Dbl.num 1) (if lt x (Dbl.num 0) then Dbl.num 0 else x) then Dbl.num 1
  else (if lt x (Dbl.num 0) then Dbl.num 0 else x)

/-- The clamp of a double into `[0, 1]` as the source writes it in the guard
of `logistic_step`: `fmin(1.0, fmax(0.0, x))`. -/
def clamp01 (x : Dbl) : Dbl := fmin (Dbl.num 1) (fmax (Dbl.num 0) x)

/-- Modelled from the spec: the closed form of the analytic step before the
clamp, `K / (1 + (K / max(B, eps) - 1) * exp(-(r0 * exp(P))))`, computed on
doubles. -/
def logistic_closed_form (exp : Dbl → Dbl) (B r0 P K : Dbl) : Dbl :=
  div K (add (Dbl.num 1)
    (mul (sub (div K (fmax B eps)) (Dbl.num 1)) (exp (neg (mul r0 (exp P))))))

/-- The macro `DT` of `growth_sim.c`, `1.0 / STEPS_PER_YEAR` with
`STEPS_PER_YEAR = 100`: the double nearest to one hundredth. -/
def DT : Dbl := div (Dbl.num 1) (Dbl.num 100)

/-- The source's `update_biomass` of `growth_sim.c` (and, with the same body,
of `growth_sim_30years.c`), computed on doubles with the operations of the
source in their order. -/
def update_biomass (exp : Dbl → Dbl) (B P r0 alpha K : Dbl) : Dbl :=
  let r := mul r0 (exp (mul (neg alpha) P))
  let dBdt := mul (mul r B) (sub (Dbl.num 1) (div B K))
  add B (mul DT dBdt)

end binary64

namespace simulate_ndvi

variable {F : Type} [LinearOrderedField F]

/-! ## The analytic step in the exact reading -/

/-- The final two `if`s of `logistic_step` bring any value into `[0, 1]`. -/
theorem clamp_ifs_eq (x : ℝ) :
    (if (if x < 0 then 0 else x) > 1 then 1 else (if x < 0 then 0 else x))
      = min 1 (max 0 x) := by
  by_cases h0 : x < 0
  · have h1 : ¬ ((0 : ℝ) > 1) := by norm_num
    rw [if_pos h0, if_neg h1, max_eq_left h0.le]
    exact (min_eq_right zero_le_one).symm
  · rw [if_neg h0, max_eq_right (not_lt.mp h0)]
    by_cases h1 : x > 1
    · rw [if_pos h1, min_eq_left h1.le]
    · rw [if_neg h1, min_eq_right (not_lt.mp h1)]

/-- The safeguarded state `Bsafe` of `logistic_step` is `max B eps`. -/
theorem bsafe_eq_max (B : ℝ) :
    (if B < 1e-12 then (1e-12 : ℝ) else B) = max B 1e-12 := by
  by_cases h : B < 1e-12
  · rw [if_pos h, max_eq_right h.le]
  · rw [if_neg h, max_eq_left (not_lt.mp h)]

/-- `logistic_step` above the capacity guard, written with `min` and `max`. -/
theorem logistic_step_of_gt (B r0 P K : ℝ) (hK : 1e-12 < K) :
    logistic_step Real.exp B r0 P K
      = min 1 (max 0 (K / (1 + (K / max B 1e-12 - 1) * Real.exp (-(r0 * Real.exp P))))) := by
  unfold logistic_step
  simp only [if_neg (not_le.mpr hK)]
  rw [clamp_ifs_eq, bsafe_eq_max]
  simp only [mul_one, neg_mul]

/-- C4: degenerate-capacity guard: for every `K ≤ 1e-12` and every `B`, `r0`,
`P`, `logistic_step` returns `min 1 (max 0 B)`, whatever `r0` and `P` are. -/
theorem logistic_step_degenerate (B r0 P K : ℝ) (hK : K ≤ 1e-12) :
    logistic_step Real.exp B r0 P K = min 1 (max 0 B) := by
  unfold logistic_step
  simp only [if_pos hK]

/-- Instance of C4 at `K = 0`, `B = 2`: the result is `1`. -/
theorem logistic_step_degenerate_witness :
    logistic_step Real.exp 2 5 7 0 = min 1 (max 0 2) :=
  logistic_step_degenerate 2 5 7 0 (by norm_num)

/-! ## The series simulation -/

/-- C6: for the single-row table `Year=2020, P=0.5, r0=0.1, K=1.0, B0=0.3`,
`simulate_series` produces exactly one value, equal to
`1 / (1 + (1/0.3 - 1) * exp (-0.1 * exp 0.5))`, and that value lies in `[0,1]`. -/
theorem simulate_series_single_row :
    simulate_series Real.exp ⟨[⟨2020, 0.5, 0.1, 1.0, 0.3⟩]⟩
      = [1 / (1 + (1 / 0.3 - 1) * Real.exp (-0.1 * Real.exp 0.5))] ∧
    0 ≤ 1 / (1 + (1 / 0.3 - 1) * Real.exp (-0.1 * Real.exp 0.5)) ∧
    1 / (1 + (1 / 0.3 - 1) * Real.exp (-0.1 * Real.exp 0.5)) ≤ (1 : ℝ) := by
  have he : 0 < Real.exp (-0.1 * Real.exp 0.5) := Real.exp_pos _
  have hc : (0 : ℝ) < 1 / 0.3 - 1 := by norm_num
  have hd : (1 : ℝ) ≤ 1 + (1 / 0.3 - 1) * Real.exp (-0.1 * Real.exp 0.5) :=
    le_add_of_nonneg_right (mul_pos hc he).le
  have h0 : 0 ≤ 1 / (1 + (1 / 0.3 - 1) * Real.exp (-0.1 * Real.exp 0.5)) :=
    div_nonneg zero_le_one (le_trans zero_le_one hd)
  have h1 : 1 / (1 + (1 / 0.3 - 1) * Real.exp (-0.1 * Real.exp 0.5)) ≤ (1 : ℝ) :=
    (div_le_one (lt_of_lt_of_le zero_lt_one hd)).mpr hd
  refine ⟨?_, h0, h1⟩
  have hB : min (1 : ℝ) (max 0 0.3) = 0.3 := by norm_num
  have hm : max (0.3 : ℝ) 1e-12 = 0.3 := by norm_num
  simp only [simulate_series, clamp_ifs_eq, simulate_loop, hB]
  have h10 : (1.0 : ℝ) = 1 := by norm_num
  rw [logistic_step_of_gt _ _ _ _ (by norm_num), hm, h10, ← neg_mul,
    max_eq_right h0, min_eq_right h1]

/-! ## The insertion sort of `read_csv` -/

section sorting

variable {F : Type}

theorem insert_by_year_nil (key : Row F) : insert_by_year key [] = [key] := by
  simp [insert_by_year]

theorem insert_by_year_concat (key x : Row F) (a : List (Row F)) :
    insert_by_year key (a ++ [x])
      = if x.year > key.year then insert_by_year key a ++ [x] else a ++ [x] ++ [key] := by
  unfold insert_by_year
  by_cases h : x.year > key.year
  · rw [if_pos h, List.rdropWhile_concat_pos _ _ _ (by simpa using h),
      List.rtakeWhile_concat_pos _ _ _ (by simpa using h)]
    simp
  · rw [if_neg h, List.rdropWhile_concat_neg _ _ _ (by simpa using h),
      List.rtakeWhile_concat_neg _ _ _ (by simpa using h)]

theorem insert_by_year_length (key : Row F) (a : List (Row F)) :
    (insert_by_year key a).length = a.length + 1 := by
  induction a using List.reverseRecOn with
  | nil => simp [insert_by_year_nil]
  | append_singleton a x ih =>
    rw [insert_by_year_concat]
    split_ifs <;> simp [ih]

/-- The inner loop run on `a ++ h :: rest` from index `a.length` computes
`insert_by_year key a` and leaves `rest` alone. -/
theorem sort_inner_eq (key : Row F) (j : Nat) (a : List (Row F)) (h : Row F)
    (rest : List (Row F)) (hj : a.length = j) :
    sort_inner key j (a ++ h :: rest) = insert_by_year key a ++ rest := by
  induction j generalizing a h rest with
  | zero =>
    have ha : a = [] := List.length_eq_zero.mp hj
    subst ha
    simp [sort_inner, insert_by_year_nil]
  | succ j ih =>
    obtain ⟨a1, x, rfl⟩ : ∃ a1 x, a = a1 ++ [x] := by
      rcases List.eq_nil_or_concat a with h0 | ⟨a1, x, h1⟩
      · subst h0; simp at hj
      · exact ⟨a1, x, by simpa using h1⟩
    have hlen : a1.length = j := by simpa using hj
    have hget : (a1 ++ [x] ++ h :: rest)[j]? = some x := by
      rw [List.append_assoc, List.getElem?_append_right (by omega)]
      simp [hlen]
    have hset : ∀ v : Row F, (a1 ++ [x] ++ h :: rest).set (j + 1) v = a1 ++ [x] ++ v :: rest := by
      intro v
      have hl : (a1 ++ [x]).length = j + 1 := by simp [hlen]
      rw [← hl, List.set_append_right _ _ (le_refl _)]
      simp
    rw [sort_inner, hget]
    simp only [hset, insert_by_year_concat]
    by_cases hgt : x.year > key.year
    · rw [if_pos hgt, if_pos hgt]
      have := ih a1 x (x :: rest) hlen
      rw [List.append_assoc a1 [x] (x :: rest)]
      simpa using this
    · rw [if_neg hgt, if_neg hgt]
      simp

/-- The outer loop from index `pre.length` on inserts the rows of `rest` one
after the other into `pre`. -/
theorem sort_loop_eq (rest pre : List (Row F)) :
    (List.range' pre.length rest.length).foldl sort_step (pre ++ rest)
      = rest.foldl (fun p k => insert_by_year k p) pre := by
  induction rest generalizing pre with
  | nil => simp
  | cons key rest ih =>
    have hget : (pre ++ key :: rest)[pre.length]? = some key := by
      rw [List.getElem?_append_right (le_refl _)]
      simp
    rw [List.length_cons, List.range'_succ, List.foldl_cons, List.foldl_cons]
    have hstep : sort_step (pre ++ key :: rest) pre.length = insert_by_year key pre ++ rest := by
      rw [sort_step, hget]
      exact sort_inner_eq key pre.length pre key rest rfl
    rw [hstep, ← insert_by_year_length key pre]
    exact ih (insert_by_year key pre)

/-- The insertion sort of the source computes `insertion_sort`. -/
theorem sort_rows_eq (rows : List (Row F)) : sort_rows rows = insertion_sort rows := by
  cases rows with
  | nil => simp [sort_rows, insertion_sort]
  | cons x rest =>
    have h := sort_loop_eq rest [x]
    simp only [List.length_singleton, List.singleton_append] at h
    simp only [sort_rows, insertion_sort, List.length_cons, Nat.add_sub_cancel, List.foldl_cons,
      insert_by_year_nil]
    exact h

theorem insert_by_year_perm (key : Row F) (a : List (Row F)) :
    (insert_by_year key a).Perm (a ++ [key]) := by
  induction a using List.reverseRecOn with
  | nil => simp [insert_by_year_nil]
  | append_singleton a x ih =>
    rw [insert_by_year_concat]
    split_ifs
    · calc (insert_by_year key a ++ [x]).Perm ((a ++ [key]) ++ [x]) := ih.append_right [x]
        _ = a ++ ([key] ++ [x]) := by simp
        _ |>.Perm (a ++ ([x] ++ [key])) := (List.perm_append_comm).append_left a
        _ = a ++ [x] ++ [key] := by simp
    · exact List.Perm.refl _

theorem insert_by_year_sorted (key : Row F) (a : List (Row F))
    (ha : a.Pairwise (fun r s => r.year ≤ s.year)) :
    (insert_by_year key a).Pairwise (fun r s => r.year ≤ s.year) := by
  induction a using List.reverseRecOn with
  | nil => simp [insert_by_year_nil]
  | append_singleton a x ih =>
    rw [List.pairwise_append] at ha
    obtain ⟨ha1, -, ha3⟩ := ha
    rw [insert_by_year_concat]
    by_cases hgt : x.year > key.year
    · rw [if_pos hgt, List.pairwise_append]
      refine ⟨ih ha1, by simp, ?_⟩
      intro z hz w hw
      rw [List.mem_singleton] at hw
      subst hw
      have hz2 : z ∈ a ++ [key] := (insert_by_year_perm key a).mem_iff.mp hz
      rcases List.mem_append.mp hz2 with hza | hzk
      · exact ha3 z hza w (List.mem_singleton.mpr rfl)
      · rw [List.mem_singleton] at hzk
        subst hzk
        exact le_of_lt hgt
    · rw [if_neg hgt, List.pairwise_append]
      refine ⟨List.pairwise_append.mpr ⟨ha1, by simp, ha3⟩, by simp, ?_⟩
      intro z hz w hw
      rw [List.mem_singleton] at hw
      subst hw
      have hx : x.year ≤ w.year := not_lt.mp hgt
      rcases List.mem_append.mp hz with hza | hzx
      · exact le_trans (ha3 z hza x (List.mem_singleton.mpr rfl)) hx
      · rw [List.mem_singleton] at hzx
        subst hzx
        exact hx

theorem insert_by_year_filter (key : Row F) (a : List (Row F)) (y : Int) :
    (insert_by_year key a).filter (fun r => decide (r.year = y))
      = (a ++ [key]).filter (fun r => decide (r.year = y)) := by
  induction a using List.reverseRecOn with
  | nil => simp [insert_by_year_nil]
  | append_singleton a x ih =>
    rw [insert_by_year_concat]
    by_cases hgt : x.year > key.year
    · rw [if_pos hgt, List.filter_append, ih]
      simp only [List.filter_append, List.append_assoc]
      congr 1
      by_cases hx : x.year = y
      · have hk : ¬ key.year = y := by omega
        simp [List.filter_cons, hx, hk]
      · simp [List.filter_cons, hx]
    · rw [if_neg hgt]

theorem foldl_insert_perm (rest pre : List (Row F)) :
    (rest.foldl (fun p k => insert_by_year k p) pre).Perm (pre ++ rest) := by
  induction rest generalizing pre with
  | nil => simp
  | cons key rest ih =>
    rw [List.foldl_cons]
    refine (ih (insert_by_year key pre)).trans ?_
    have := (insert_by_year_perm key pre).append_right rest
    simpa using this

theorem foldl_insert_sorted (rest pre : List (Row F))
    (hp : pre.Pairwise (fun r s => r.year ≤ s.year)) :
    (rest.foldl (fun p k => insert_by_year k p) pre).Pairwise (fun r s => r.year ≤ s.year) := by
  induction rest generalizing pre with
  | nil => simpa using hp
  | cons key rest ih =>
    rw [List.foldl_cons]
    exact ih _ (insert_by_year_sorted key pre hp)

theorem foldl_insert_filter (rest pre : List (Row F)) (y : Int) :
    (rest.foldl (fun p k => insert_by_year k p) pre).filter (fun r => decide (r.year = y))
      = (pre ++ rest).filter (fun r => decide (r.year = y)) := by
  induction rest generalizing pre with
  | nil => simp
  | cons key rest ih =>
    rw [List.foldl_cons, ih, List.filter_append, insert_by_year_filter,
      show pre ++ key :: rest = (pre ++ [key]) ++ rest by simp]
    simp only [List.filter_append]

/-- The sorted rows are in non-decreasing order of year. -/
theorem sort_rows_sorted (rows : List (Row F)) :
    (sort_rows rows).Pairwise (fun r s => r.year ≤ s.year) := by
  rw [sort_rows_eq]
  exact foldl_insert_sorted rows [] List.Pairwise.nil

/-- The sorted rows are a permutation of the rows given. -/
theorem sort_rows_perm (rows : List (Row F)) : (sort_rows rows).Perm rows := by
  rw [sort_rows_eq]
  simpa using foldl_insert_perm rows []

/-- The rows of any one year come out of the sort in the order they went in. -/
theorem sort_rows_filter (rows : List (Row F)) (y : Int) :
    (sort_rows rows).filter (fun r => decide (r.year = y))
      = rows.filter (fun r => decide (r.year = y)) := by
  rw [sort_rows_eq]
  simpa using foldl_insert_filter rows [] y

end sorting

/-! ## Lines, tokens and columns -/

section reading

variable {F : Type}

/-- The characters read by `fgets` followed by the rest of the stream are the
stream. -/
theorem fgets_chars_append (k : Nat) (s : List Char) :
    (fgets_chars k s).1 ++ (fgets_chars k s).2 = s := by
  induction k generalizing s with
  | zero => simp [fgets_chars]
  | succ k ih =>
    cases s with
    | nil => simp [fgets_chars]
    | cons c s =>
      by_cases hc : c = '\n'
      · simp [fgets_chars, hc]
      · simp [fgets_chars, hc, ih s]

/-- A successful `fgets` consumes at least one character. -/
theorem fgets_rest_length (stream buf rest : List Char)
    (h : fgets MAX_LINE stream = some (buf, rest)) : rest.length < stream.length := by
  cases stream with
  | nil => simp [fgets] at h
  | cons c s =>
    simp only [fgets, MAX_LINE, Option.some.injEq] at h
    have h2 : fgets_chars 2047 (c :: s) = (buf, rest) := h
    by_cases hc : c = '\n'
    · simp [fgets_chars, hc] at h2
      rw [← h2.2]; simp
    · have happ := fgets_chars_append 2046 s
      simp [fgets_chars, hc] at h2
      rw [← h2.2]
      have : (fgets_chars 2046 s).2.length ≤ s.length := by
        have := congrArg List.length happ
        rw [List.length_append] at this
        omega
      simp only [List.length_cons]
      omega

/-- The loop of `read_csv` does not depend on the iteration bound once the
bound is at least the length of the stream: the loop ends by itself at the end
of the file. -/
theorem read_rows_fuel (strtol : List Char → Int) (strtod : List Char → F) (c : Cols)
    (f1 f2 : Nat) (stream : List Char) (acc : List (Row F))
    (h1 : stream.length ≤ f1) (h2 : stream.length ≤ f2) :
    read_rows strtol strtod c f1 stream acc = read_rows strtol strtod c f2 stream acc := by
  induction f1 generalizing f2 stream acc with
  | zero =>
    have hs : stream = [] := List.length_eq_zero.mp (Nat.le_zero.mp h1)
    subst hs
    cases f2 with
    | zero => rfl
    | succ f2 => simp [read_rows, fgets]
  | succ f1 ih =>
    cases f2 with
    | zero =>
      have hs : stream = [] := List.length_eq_zero.mp (Nat.le_zero.mp h2)
      subst hs
      simp [read_rows, fgets]
    | succ f2 =>
      unfold read_rows
      cases hf : fgets MAX_LINE stream with
      | none => rfl
      | some p =>
        obtain ⟨buf, rest⟩ := p
        have hlt := fgets_rest_length stream buf rest hf
        have e1 : ∀ acc1, read_rows strtol strtod c f1 rest acc1
            = read_rows strtol strtod c f2 rest acc1 :=
          fun acc1 => ih f2 rest acc1 (by omega) (by omega)
        simp only [e1]

/-- The return code of the loop is 0 or 1; the loop never stores more than
`MAX_ROWS` rows, and it returns 0 only with exactly `MAX_ROWS` rows stored. -/
theorem read_rows_code (strtol : List Char → Int) (strtod : List Char → F) (c : Cols)
    (fuel : Nat) (stream : List Char) (acc : List (Row F)) (hacc : acc.length ≤ MAX_ROWS) :
    ((read_rows strtol strtod c fuel stream acc).1 = 1 ∧
        (read_rows strtol strtod c fuel stream acc).2.length ≤ MAX_ROWS) ∨
    ((read_rows strtol strtod c fuel stream acc).1 = 0 ∧
        (read_rows strtol strtod c fuel stream acc).2.length = MAX_ROWS) := by
  induction fuel generalizing stream acc with
  | zero => exact Or.inl ⟨rfl, hacc⟩
  | succ fuel ih =>
    unfold read_rows
    cases hf : fgets MAX_LINE stream with
    | none => exact Or.inl ⟨rfl, hacc⟩
    | some p =>
      obtain ⟨buf, rest⟩ := p
      dsimp only
      split_ifs with h1 h2 h3
      · exact ih rest acc hacc
      · exact ih rest acc hacc
      · exact Or.inr ⟨rfl, le_antisymm hacc h3⟩
      · refine ih rest _ ?_
        rw [List.length_append, List.length_singleton]
        exact Nat.succ_le_of_lt (not_le.mp h3)

/-- The loop of `find_col` returns -1 exactly when no column has the name. -/
theorem find_col_from_neg (name : List Char) (cols : List (List Char)) (i : Nat) :
    find_col_from name cols i < 0 ↔ name ∉ cols := by
  induction cols generalizing i with
  | nil => simp [find_col_from]
  | cons c cols ih =>
    unfold find_col_from
    by_cases hc : c = name
    · subst hc
      simp
    · rw [if_neg hc, ih (i + 1)]
      simp [Ne.symm hc]

/-- The source's `find_col` returns a negative index exactly when no column
has the name. -/
theorem find_col_neg (name : List Char) (cols : List (List Char)) :
    find_col cols name < 0 ↔ name ∉ cols :=
  find_col_from_neg name cols 0

/-- The pieces of a text between commas, empty pieces left out, do not change
when a comma is put in front. -/
theorem splitOn_comma_cons (s : List Char) :
    ((',' :: s).splitOn ',').filter (fun f => f ≠ [])
      = (s.splitOn ',').filter (fun f => f ≠ []) := by
  simp [List.splitOn, List.splitOnP_cons]

theorem splitOn_dropWhile_comma (s : List Char) :
    ((s.dropWhile (fun c => c == ',')).splitOn ',').filter (fun f => f ≠ [])
      = (s.splitOn ',').filter (fun f => f ≠ []) := by
  induction s with
  | nil => rfl
  | cons c s ih =>
    by_cases hc : c = ','
    · subst hc
      rw [List.dropWhile_cons_of_pos (by simp), ih, splitOn_comma_cons]
    · rw [List.dropWhile_cons_of_neg (by simpa using hc)]

/-- A text that starts with a character other than a comma splits into its
first token and the pieces of what follows the token's comma. -/
theorem splitOn_token (s : List Char) :
    (s.splitOn ',')
      = s.takeWhile (fun c => c != ',') ::
          (match s.dropWhile (fun c => c != ',') with
           | [] => []
           | _ :: r => r.splitOn ',') := by
  have htake : ∀ x ∈ s.takeWhile (fun c => c != ','), ¬ ((fun c => c == ',') x) = true := by
    intro x hx
    have := List.mem_takeWhile_imp hx
    simpa using this
  cases hd : s.dropWhile (fun c => c != ',') with
  | nil =>
    have hs : s.takeWhile (fun c => c != ',') = s := by
      have := List.takeWhile_append_dropWhile (fun c => c != ',') s
      rw [hd, List.append_nil] at this
      exact this
    rw [hs] at htake ⊢
    exact List.splitOnP_eq_single _ _ htake
  | cons d r =>
    have hdc : d = ',' := by
      have := List.head_dropWhile_not (fun c => c != ',') s (by rw [hd]; simp)
      simp only [hd, List.head_cons] at this
      simpa using this
    subst hdc
    have hs : s = s.takeWhile (fun c => c != ',') ++ ',' :: r := by
      have := List.takeWhile_append_dropWhile (fun c => c != ',') s
      rw [hd] at this
      exact this.symm
    conv_lhs => rw [hs]
    exact List.splitOnP_first _ _ htake ',' (by simp) r

/-- The tokenising loop with `strtok` yields the first `cap` non-empty pieces
between commas. -/
theorem tokens_eq_splitOn (cap : Nat) (s : List Char) :
    tokens cap s = ((s.splitOn ',').filter (fun f => f ≠ [])).take cap := by
  induction cap generalizing s with
  | zero => simp [tokens]
  | succ cap ih =>
    rw [← splitOn_dropWhile_comma s]
    unfold tokens strtok
    cases hd : s.dropWhile (fun c => c == ',') with
    | nil => simp [List.splitOn, List.splitOnP_nil]
    | cons c s1 =>
      have hc : c ≠ ',' := by
        have := List.head_dropWhile_not (fun c => c == ',') s (by rw [hd]; simp)
        simp only [hd, List.head_cons] at this
        simpa using this
      have hne : (c :: s1).takeWhile (fun c => c != ',') ≠ [] := by
        rw [List.takeWhile_cons_of_pos (by simpa using hc)]
        simp
      dsimp only
      rw [ih, splitOn_token (c :: s1), List.filter_cons_of_pos (by simpa using hne),
        List.take_succ_cons]
      congr 2
      cases (c :: s1).dropWhile (fun c => c != ',') with
      | nil => simp [List.splitOn, List.splitOnP_nil]
      | cons d r => simp

/-- The columns `read_csv` compares are the header fields. -/
theorem header_cols_eq (buf : List Char) : header_cols buf = header_fields buf := by
  unfold header_cols header_fields
  rw [tokens_eq_splitOn]

end reading

/-! ## The table returned by `read_csv` -/

section table

variable {F : Type}

/-- On the path that returns 1, `read_csv` stores the sorted accepted rows. -/
theorem read_csv_success (strtol : List Char → Int) (strtod : List Char → F)
    (file : Option (List Char)) (t : Table F) (h : read_csv strtol strtod file = (1, t)) :
    (read_unsorted strtol strtod file).1 = 1 ∧
      t.rows = sort_rows (read_unsorted strtol strtod file).2 := by
  unfold read_csv at h
  by_cases h1 : (read_unsorted strtol strtod file).1 = 1
  · rw [if_pos h1] at h
    refine ⟨h1, ?_⟩
    have := congrArg Prod.snd h
    simp only at this
    rw [← this]
  · rw [if_neg h1] at h
    have := congrArg Prod.fst h
    simp at this

/-- C7: after a successful `read_csv` the rows of the table are in
non-decreasing order of year; rows read with the years 2021, 2019, 2020 are
stored with the years 2019, 2020, 2021. -/
theorem read_csv_sorted (strtol : List Char → Int) (strtod : List Char → F)
    (file : Option (List Char)) :
    (∀ t, read_csv strtol strtod file = (1, t) →
      (t.rows.map Row.year).Sorted (fun a b => a ≤ b)) ∧
    (∀ rows : List (Row F), rows.map Row.year = [2021, 2019, 2020] →
      (sort_rows rows).map Row.year = [2019, 2020, 2021]) := by
  have hsorted : ∀ rows : List (Row F),
      ((sort_rows rows).map Row.year).Sorted (fun a b => a ≤ b) := by
    intro rows
    exact List.pairwise_map.mpr (sort_rows_sorted rows)
  refine ⟨fun t h => ?_, fun rows hrows => ?_⟩
  · rw [(read_csv_success strtol strtod file t h).2]
    exact hsorted _
  · have hperm : ((sort_rows rows).map Row.year).Perm [2019, 2020, 2021] := by
      refine ((sort_rows_perm rows).map Row.year).trans ?_
      rw [hrows]
      decide
    exact List.eq_of_perm_of_sorted hperm (hsorted rows) (by decide)

/-- Instance of C7: the file `file_three_years`, whose rows have the years
2021, 2019, 2020, is read into a table with the years 2019, 2020, 2021. -/
theorem read_csv_sorted_witness :
    (read_csv strtol_int strtod_mark (some file_three_years)).1 = 1 ∧
    (read_csv strtol_int strtod_mark (some file_three_years)).2.rows.map Row.year
      = [2019, 2020, 2021] ∧
    ((read_csv strtol_int strtod_mark (some file_three_years)).2.rows.map Row.year).Sorted
      (fun a b => a ≤ b) :=
  ⟨by decide, by decide,
    (read_csv_sorted strtol_int strtod_mark (some file_three_years)).1 _ (by decide)⟩

/-- C8: the sort of `read_csv` is a stable permutation: the sorted rows are a
permutation of the rows given, and for every year the rows of that year keep
their relative order; on success the table holds the accepted rows so sorted. -/
theorem sort_rows_stable_perm (strtol : List Char → Int) (strtod : List Char → F)
    (file : Option (List Char)) :
    (∀ rows : List (Row F), (sort_rows rows).Perm rows ∧
      ∀ y : Int, (sort_rows rows).filter (fun r => decide (r.year = y))
        = rows.filter (fun r => decide (r.year = y))) ∧
    (∀ t, read_csv strtol strtod file = (1, t) →
      t.rows.Perm (read_unsorted strtol strtod file).2 ∧
      ∀ y : Int, t.rows.filter (fun r => decide (r.year = y))
        = (read_unsorted strtol strtod file).2.filter (fun r => decide (r.year = y))) := by
  refine ⟨fun rows => ⟨sort_rows_perm rows, sort_rows_filter rows⟩, fun t h => ?_⟩
  rw [(read_csv_success strtol strtod file t h).2]
  exact ⟨sort_rows_perm _, sort_rows_filter _⟩

/-- Instance of C8: in `file_same_year` both rows have the year 2020; the row
with `P = 1`, first in the file, stays before the row with `P = 2`. -/
theorem sort_rows_stable_perm_witness :
    (read_csv strtol_int strtod_mark (some file_same_year)).2.rows.map Row.P = [1, 2] ∧
    (read_csv strtol_int strtod_mark (some file_same_year)).2.rows.Perm
      (read_unsorted strtol_int strtod_mark (some file_same_year)).2 ∧
    (read_csv strtol_int strtod_mark (some file_same_year)).2.rows.filter
        (fun r => decide (r.year = 2020))
      = (read_unsorted strtol_int strtod_mark (some file_same_year)).2.filter
        (fun r => decide (r.year = 2020)) :=
  ⟨by decide,
    ((sort_rows_stable_perm strtol_int strtod_mark (some file_same_year)).2 _ (by decide)).1,
    ((sort_rows_stable_perm strtol_int strtod_mark (some file_same_year)).2 _ (by decide)).2
      2020⟩

/-- C9, as stated, fails: `read_csv` accepts `file_same_year` and the table it
returns has the year 2020 twice. -/
theorem read_csv_years_counterexample :
    (read_csv strtol_int strtod_mark (some file_same_year)).1 = 1 ∧
    (read_csv strtol_int strtod_mark (some file_same_year)).2.rows.map Row.year
      = [2020, 2020] ∧
    ¬ ((read_csv strtol_int strtod_mark (some file_same_year)).2.rows.map Row.year).Nodup := by
  decide

/-- C9 (amended): for every input that `read_csv` accepts, the years of the
table are the years of the accepted rows up to order, so they are pairwise
distinct exactly when the years of the accepted rows are. -/
theorem read_csv_years_nodup_iff (strtol : List Char → Int) (strtod : List Char → F)
    (file : Option (List Char)) (t : Table F) (h : read_csv strtol strtod file = (1, t)) :
    (t.rows.map Row.year).Perm ((read_unsorted strtol strtod file).2.map Row.year) ∧
    ((t.rows.map Row.year).Nodup ↔
      ((read_unsorted strtol strtod file).2.map Row.year).Nodup) := by
  have hp : (t.rows.map Row.year).Perm ((read_unsorted strtol strtod file).2.map Row.year) := by
    rw [(read_csv_success strtol strtod file t h).2]
    exact (sort_rows_perm _).map Row.year
  exact ⟨hp, hp.nodup_iff⟩

/-- Instance of the amended C9 on `file_three_years`, whose years are distinct. -/
theorem read_csv_years_nodup_iff_witness :
    ((read_csv strtol_int strtod_mark (some file_three_years)).2.rows.map Row.year).Perm
      ((read_unsorted strtol_int strtod_mark (some file_three_years)).2.map Row.year) ∧
    (((read_csv strtol_int strtod_mark (some file_three_years)).2.rows.map Row.year).Nodup ↔
      ((read_unsorted strtol_int strtod_mark (some file_three_years)).2.map Row.year).Nodup) :=
  read_csv_years_nodup_iff strtol_int strtod_mark (some file_three_years) _ (by decide)

set_option maxRecDepth 4000 in
/-- C10, as stated, fails: every one of the five names is a field of the
header `header_69`, yet `read_csv` returns 0 with no rows on a file with this
header, because only the first 64 fields of a header are kept. -/
theorem read_csv_header_counterexample :
    (∀ name ∈ required_names, name ∈ header_69.splitOn ',') ∧
    fgets MAX_LINE file_69_columns
      = some (header_69 ++ ['\n'], [','].intercalate (List.replicate 69 ['1']) ++ ['\n']) ∧
    find_col (header_cols (header_69 ++ ['\n'])) ['Y', 'e', 'a', 'r'] = -1 ∧
    read_csv strtol_int strtod_mark (some file_69_columns) = (0, ⟨[]⟩) :=
  ⟨by decide, by decide, by decide, by decide⟩

/-- C10 (amended): `read_csv` returns 0 with no rows whenever one of the five
names `Year`, `P`, `r0`, `K`, `B0` is not among the header fields it keeps
(the first 64 non-empty comma-separated pieces of the header line as read,
trimmed at the end); when all five are among them, whatever the other fields,
it does not fail for this reason: it returns 1, or it returns 0 with the table
filled to `MAX_ROWS` rows. -/
theorem read_csv_header (strtol : List Char → Int) (strtod : List Char → F)
    (stream buf rest : List Char) (h : fgets MAX_LINE stream = some (buf, rest)) :
    ((∃ name ∈ required_names, name ∉ header_fields buf) →
      read_csv strtol strtod (some stream) = (0, ⟨[]⟩)) ∧
    ((∀ name ∈ required_names, name ∈ header_fields buf) →
      (read_csv strtol strtod (some stream)).1 = 1 ∨
      ((read_csv strtol strtod (some stream)).1 = 0 ∧
        (read_csv strtol strtod (some stream)).2.n = MAX_ROWS)) := by
  constructor
  · rintro ⟨name, hname, hnot⟩
    have hcond : find_col (header_cols buf) ['Y', 'e', 'a', 'r'] < 0 ∨
        find_col (header_cols buf) ['P'] < 0 ∨ find_col (header_cols buf) ['r', '0'] < 0 ∨
        find_col (header_cols buf) ['K'] < 0 ∨ find_col (header_cols buf) ['B', '0'] < 0 := by
      simp only [find_col_neg, header_cols_eq]
      simp only [required_names, List.mem_cons, List.mem_singleton, List.not_mem_nil,
        or_false] at hname
      rcases hname with h1 | h1 | h1 | h1 | h1 <;> subst h1 <;> tauto
    have hu : read_unsorted strtol strtod (some stream) = (0, []) := by
      simp only [read_unsorted, h]
      rw [if_pos hcond]
    simp [read_csv, hu]
  · intro hall
    have hcond : ¬ (find_col (header_cols buf) ['Y', 'e', 'a', 'r'] < 0 ∨
        find_col (header_cols buf) ['P'] < 0 ∨ find_col (header_cols buf) ['r', '0'] < 0 ∨
        find_col (header_cols buf) ['K'] < 0 ∨ find_col (header_cols buf) ['B', '0'] < 0) := by
      simp only [find_col_neg, header_cols_eq]
      have h1 := hall ['Y', 'e', 'a', 'r'] (by simp [required_names])
      have h2 := hall ['P'] (by simp [required_names])
      have h3 := hall ['r', '0'] (by simp [required_names])
      have h4 := hall ['K'] (by simp [required_names])
      have h5 := hall ['B', '0'] (by simp [required_names])
      tauto
    obtain ⟨c, hu⟩ : ∃ c : Cols, read_unsorted strtol strtod (some stream)
        = read_rows strtol strtod c rest.length rest [] := by
      refine ⟨⟨(header_cols buf).length,
        (find_col (header_cols buf) ['Y', 'e', 'a', 'r']).toNat,
        (find_col (header_cols buf) ['P']).toNat, (find_col (header_cols buf) ['r', '0']).toNat,
        (find_col (header_cols buf) ['K']).toNat,
        (find_col (header_cols buf) ['B', '0']).toNat⟩, ?_⟩
      simp only [read_unsorted, h]
      rw [if_neg hcond]
    have hcode := read_rows_code strtol strtod c rest.length rest [] (Nat.zero_le _)
    rw [← hu] at hcode
    rcases hcode with ⟨h1, -⟩ | ⟨h0, hlen⟩
    · left
      simp [read_csv, h1]
    · right
      have hne : ¬ (read_unsorted strtol strtod (some stream)).1 = 1 := by
        rw [h0]; decide
      simp only [read_csv, if_neg hne, Table.n]
      exact ⟨trivial, hlen⟩

/-- Instance of the amended C10: the header `Year,P,r0,K` of `file_no_B0`
lacks `B0` and the file is rejected with no rows; the header of
`file_three_years` has all five names and the file is read. -/
theorem read_csv_header_witness :
    read_csv strtol_int strtod_mark (some file_no_B0) = (0, ⟨[]⟩) ∧
    ((read_csv strtol_int strtod_mark (some file_three_years)).1 = 1 ∨
      ((read_csv strtol_int strtod_mark (some file_three_years)).1 = 0 ∧
        (read_csv strtol_int strtod_mark (some file_three_years)).2.n = MAX_ROWS)) :=
  ⟨(read_csv_header strtol_int strtod_mark file_no_B0
      "Year,P,r0,K\n".toList "2020,1,2,3\n".toList (by decide)).1
      ⟨['B', '0'], by decide, by decide⟩,
   (read_csv_header strtol_int strtod_mark file_three_years
      "Year,P,r0,K,B0\n".toList "2021,1,2,3,4\n2019,5,6,7,8\n2020,9,1,2,3\n".toList
      (by decide)).2 (by decide)⟩

end table

end simulate_ndvi

namespace simulate_ndvi

/-! ## The merge loop of `main` -/

section merging

variable {F : Type}

/-- The loop of `index_of_year` returns -1 when no row has the year, and
otherwise the offset index of the first row of that year. -/
theorem index_of_year_from_spec (year : Int) (rows : List (Row F)) (i : Nat) :
    (year ∉ rows.map Row.year → index_of_year_from year rows i = -1) ∧
    (year ∈ rows.map Row.year →
      ∃ k r, index_of_year_from year rows i = ((i + k : Nat) : Int) ∧ rows[k]? = some r ∧
        r.year = year ∧ ∀ k2 r2, k2 < k → rows[k2]? = some r2 → r2.year ≠ year) := by
  induction rows generalizing i with
  | nil => simp [index_of_year_from]
  | cons x rows ih =>
    by_cases hx : x.year = year
    · refine ⟨fun h => absurd (by simp [hx]) h, fun _ => ⟨0, x, ?_, by simp, hx, ?_⟩⟩
      · simp [index_of_year_from, hx]
      · intro k2 r2 hk
        omega
    · have hne : ¬ year = x.year := fun h => hx h.symm
      refine ⟨fun h => ?_, fun h => ?_⟩
      · have h2 : year ∉ rows.map Row.year := fun hm => h (by simp [hm])
        simp only [index_of_year_from, if_neg hx]
        exact (ih (i + 1)).1 h2
      · have h2 : year ∈ rows.map Row.year := by
          simp only [List.map_cons, List.mem_cons] at h
          rcases h with h | h
          · exact absurd h hne
          · exact h
        obtain ⟨k, r, hk, hr, hy, hfirst⟩ := (ih (i + 1)).2 h2
        refine ⟨k + 1, r, ?_, by simpa using hr, hy, ?_⟩
        · simp only [index_of_year_from, if_neg hx, hk]
          congr 1
          omega
        · intro k2 r2 hk2 hr2
          cases k2 with
          | zero =>
            simp only [List.getElem?_cons_zero, Option.some.injEq] at hr2
            subst hr2
            exact hx
          | succ k3 =>
            rw [List.getElem?_cons_succ] at hr2
            exact hfirst k3 r2 (by omega) hr2

/-- The source's `index_of_year` is negative exactly when no row has the year. -/
theorem index_of_year_neg (t : Table F) (year : Int) :
    index_of_year t year < 0 ↔ year ∉ t.rows.map Row.year := by
  constructor
  · intro h hm
    obtain ⟨k, r, hk, -⟩ := (index_of_year_from_spec year t.rows 0).2 hm
    unfold index_of_year at h
    rw [hk] at h
    omega
  · intro h
    unfold index_of_year
    rw [(index_of_year_from_spec year t.rows 0).1 h]
    decide

/-- The years written by the merge loop are the years of the rows of `T_up`
that remain, restricted to the years present in both other tables. -/
theorem merge_from_years [LinearOrderedField F] (T_down T_cst : Table F)
    (N_up N_down N_cst : List F) (rows : List (Row F)) (i : Nat) :
    (merge_from T_down T_cst N_up N_down N_cst rows i).map Merged.year
      = (rows.map Row.year).filter
          (fun y => decide (y ∈ T_down.rows.map Row.year ∧ y ∈ T_cst.rows.map Row.year)) := by
  induction rows generalizing i with
  | nil => rfl
  | cons r rest ih =>
    unfold merge_from
    by_cases h : index_of_year T_down r.year < 0 ∨ index_of_year T_cst r.year < 0
    · rw [if_pos h, ih]
      have h2 : ¬ (r.year ∈ T_down.rows.map Row.year ∧ r.year ∈ T_cst.rows.map Row.year) := by
        rw [index_of_year_neg, index_of_year_neg] at h
        tauto
      rw [List.map_cons, List.filter_cons_of_neg (by simpa using h2)]
    · rw [if_neg h, List.map_cons, ih]
      have h2 : r.year ∈ T_down.rows.map Row.year ∧ r.year ∈ T_cst.rows.map Row.year := by
        rw [index_of_year_neg, index_of_year_neg] at h
        tauto
      rw [List.map_cons, List.filter_cons_of_pos (by simpa using h2)]

/-- C14: the merge is an inner join in primary order: the years written by the
merge loop of `main` are the years of the up table, in the order of that table,
restricted to the years that occur in both the down and the cst table; with up
years 2020, 2021, 2022 and down and cst years 2019, 2020, 2021 the years
written are 2020, 2021. -/
theorem merge_loop_years [LinearOrderedField F] (T_up T_down T_cst : Table F)
    (N_up N_down N_cst : List F) :
    (merge_loop T_up T_down T_cst N_up N_down N_cst).map Merged.year
      = (T_up.rows.map Row.year).filter
          (fun y => decide (y ∈ T_down.rows.map Row.year ∧ y ∈ T_cst.rows.map Row.year)) ∧
    (T_up.rows.map Row.year = [2020, 2021, 2022] →
      T_down.rows.map Row.year = [2019, 2020, 2021] →
      T_cst.rows.map Row.year = [2019, 2020, 2021] →
      (merge_loop T_up T_down T_cst N_up N_down N_cst).map Merged.year = [2020, 2021]) := by
  have h := merge_from_years T_down T_cst N_up N_down N_cst T_up.rows 0
  refine ⟨h, fun h1 h2 h3 => ?_⟩
  unfold merge_loop
  rw [h, h1, h2, h3]
  decide

/-- A line written by the merge loop comes from a row of `T_up` whose year is
found in both other tables, and is built from that row and its index. -/
theorem merge_from_mem [LinearOrderedField F] (T_down T_cst : Table F)
    (N_up N_down N_cst : List F) (rows : List (Row F)) (i : Nat) (m : Merged F)
    (hm : m ∈ merge_from T_down T_cst N_up N_down N_cst rows i) :
    ∃ k r, rows[k]? = some r ∧
      r.year ∈ T_down.rows.map Row.year ∧ r.year ∈ T_cst.rows.map Row.year ∧
      m.year = r.year ∧ m.P_up = r.P ∧ m.ndvi_up = N_up.getD (i + k) 0 ∧
      m.P_down = row_P T_down (index_of_year T_down r.year).toNat ∧
      m.ndvi_down = N_down.getD (index_of_year T_down r.year).toNat 0 ∧
      m.P_cst = row_P T_cst (index_of_year T_cst r.year).toNat ∧
      m.ndvi_cst = N_cst.getD (index_of_year T_cst r.year).toNat 0 := by
  induction rows generalizing i with
  | nil => simp [merge_from] at hm
  | cons r rest ih =>
    unfold merge_from at hm
    by_cases h : index_of_year T_down r.year < 0 ∨ index_of_year T_cst r.year < 0
    · rw [if_pos h] at hm
      obtain ⟨k, r2, hk, hrest⟩ := ih (i + 1) hm
      refine ⟨k + 1, r2, by simpa using hk, ?_⟩
      rw [show i + (k + 1) = i + 1 + k by omega]
      exact hrest
    · rw [if_neg h, List.mem_cons] at hm
      rcases hm with hm | hm
      · have h2 : r.year ∈ T_down.rows.map Row.year ∧ r.year ∈ T_cst.rows.map Row.year := by
          rw [index_of_year_neg, index_of_year_neg] at h
          tauto
        subst hm
        exact ⟨0, r, by simp, h2.1, h2.2, rfl, rfl, rfl, rfl, rfl, rfl, rfl⟩
      · obtain ⟨k, r2, hk, hrest⟩ := ih (i + 1) hm
        refine ⟨k + 1, r2, by simpa using hk, ?_⟩
        rw [show i + (k + 1) = i + 1 + k by omega]
        exact hrest

/-- When a table has a row of the year, `index_of_year` is the index of the
first such row, and `row_P` and the series are read at that index. -/
theorem index_of_year_lookup [LinearOrderedField F] (t : Table F) (N : List F) (year : Int)
    (hN : N.length = t.n) (hy : year ∈ t.rows.map Row.year) :
    ∃ (j : Nat) (r : Row F), index_of_year t year = (j : Int) ∧ t.rows[j]? = some r ∧ r.year = year ∧
      (∀ j2 r2, j2 < j → t.rows[j2]? = some r2 → r2.year ≠ year) ∧
      row_P t (index_of_year t year).toNat = r.P ∧
      N[j]? = some (N.getD (index_of_year t year).toNat 0) := by
  obtain ⟨j, r, hj, hr, hyr, hfirst⟩ := (index_of_year_from_spec year t.rows 0).2 hy
  rw [Nat.zero_add] at hj
  have hidx : index_of_year t year = (j : Int) := hj
  have hlt : j < N.length := by
    rw [hN, Table.n]
    by_contra hge
    rw [List.getElem?_eq_none (by omega)] at hr
    simp at hr
  refine ⟨j, r, hidx, hr, hyr, hfirst, ?_, ?_⟩
  · simp [row_P, hidx, hr]
  · rw [hidx, Int.toNat_ofNat, List.getD_eq_getElem?_getD, List.getElem?_eq_getElem hlt]
    rfl

/-- C15: merged values are aligned by year: every line written by the merge
loop, with year `y`, reports for each of the three scenarios the `P` field and
the series value at an index of that scenario's table whose row has the year
`y`; for the down and cst tables this index is the one `index_of_year` returns,
the first with that year; and `index_of_year` returns -1 exactly when no row
has the year. -/
theorem merge_loop_aligned [LinearOrderedField F] (T_up T_down T_cst : Table F)
    (N_up N_down N_cst : List F) (hup : N_up.length = T_up.n)
    (hdown : N_down.length = T_down.n) (hcst : N_cst.length = T_cst.n) :
    (∀ m ∈ merge_loop T_up T_down T_cst N_up N_down N_cst,
      (∃ (i : Nat) (r : Row F), T_up.rows[i]? = some r ∧ r.year = m.year ∧ m.P_up = r.P ∧
        N_up[i]? = some m.ndvi_up) ∧
      (∃ (j : Nat) (r : Row F), index_of_year T_down m.year = (j : Int) ∧ T_down.rows[j]? = some r ∧
        r.year = m.year ∧ m.P_down = r.P ∧ N_down[j]? = some m.ndvi_down) ∧
      (∃ (k : Nat) (r : Row F), index_of_year T_cst m.year = (k : Int) ∧ T_cst.rows[k]? = some r ∧
        r.year = m.year ∧ m.P_cst = r.P ∧ N_cst[k]? = some m.ndvi_cst)) ∧
    (∀ (t : Table F) (y : Int),
      (index_of_year t y = -1 ↔ y ∉ t.rows.map Row.year) ∧
      (∀ i : Nat, index_of_year t y = (i : Int) →
        (∃ r, t.rows[i]? = some r ∧ r.year = y) ∧
        ∀ i2 r2, i2 < i → t.rows[i2]? = some r2 → r2.year ≠ y)) := by
  constructor
  · intro m hm
    obtain ⟨i, r, hr, hd, hc, hy, hP, hn, hPd, hnd, hPc, hnc⟩ :=
      merge_from_mem T_down T_cst N_up N_down N_cst T_up.rows 0 m hm
    rw [Nat.zero_add] at hn
    refine ⟨⟨i, r, hr, hy.symm, hP, ?_⟩, ?_, ?_⟩
    · have hlt : i < N_up.length := by
        rw [hup, Table.n]
        by_contra hge
        rw [List.getElem?_eq_none (by omega)] at hr
        simp at hr
      rw [hn, List.getD_eq_getElem?_getD, List.getElem?_eq_getElem hlt]
      rfl
    · obtain ⟨j, rd, h1, h2, h3, -, h5, h6⟩ := index_of_year_lookup T_down N_down r.year hdown hd
      exact ⟨j, rd, by rw [hy]; exact h1, h2, by rw [hy]; exact h3, by rw [hPd, h5],
        by rw [hnd]; exact h6⟩
    · obtain ⟨k, rc, h1, h2, h3, -, h5, h6⟩ := index_of_year_lookup T_cst N_cst r.year hcst hc
      exact ⟨k, rc, by rw [hy]; exact h1, h2, by rw [hy]; exact h3, by rw [hPc, h5],
        by rw [hnc]; exact h6⟩
  · intro t y
    constructor
    · constructor
      · intro h
        exact (index_of_year_neg t y).mp (by rw [h]; decide)
      · intro h
        exact (index_of_year_from_spec y t.rows 0).1 h
    · intro i hi
      have hy : y ∈ t.rows.map Row.year := by
        by_contra hn
        have := (index_of_year_neg t y).mpr hn
        rw [hi] at this
        omega
      obtain ⟨j, r, hj, hr, hyr, hfirst⟩ := (index_of_year_from_spec y t.rows 0).2 hy
      rw [Nat.zero_add] at hj
      have hji : j = i := by
        have : (j : Int) = (i : Int) := by rw [← hj, ← hi]; rfl
        exact_mod_cast this
      subst hji
      exact ⟨⟨r, hr, hyr⟩, hfirst⟩

/-- Instance of C14 on tables with up years 2020, 2021, 2022 and down and cst
years 2019, 2020, 2021: the years written are 2020, 2021. -/
theorem merge_loop_years_witness :
    (merge_loop table_up table_down table_cst [1, 1, 1] [1, 1, 1] [1, 1, 1]).map Merged.year
      = [2020, 2021] :=
  (merge_loop_years table_up table_down table_cst [1, 1, 1] [1, 1, 1] [1, 1, 1]).2 rfl rfl rfl

/-- Instance of C15 on the same tables, with series of the length of their
tables: the line of the year 2020 reports the `P` and series values found at
index 0 of the up table and at index 1 of the down and cst tables. -/
theorem merge_loop_aligned_witness :
    (merge_loop table_up table_down table_cst [10, 11, 12] [20, 21, 22] [30, 31, 32]).head?
      = some ⟨2020, 1, 10, 5, 21, 8, 31⟩ ∧
    (∀ m ∈ merge_loop table_up table_down table_cst [10, 11, 12] [20, 21, 22] [30, 31, 32],
      (∃ (i : Nat) (r : Row ℚ), table_up.rows[i]? = some r ∧ r.year = m.year ∧ m.P_up = r.P ∧
        [10, 11, 12][i]? = some m.ndvi_up) ∧
      (∃ (j : Nat) (r : Row ℚ), index_of_year table_down m.year = (j : Int) ∧
        table_down.rows[j]? = some r ∧ r.year = m.year ∧ m.P_down = r.P ∧
        [20, 21, 22][j]? = some m.ndvi_down) ∧
      (∃ (k : Nat) (r : Row ℚ), index_of_year table_cst m.year = (k : Int) ∧
        table_cst.rows[k]? = some r ∧ r.year = m.year ∧ m.P_cst = r.P ∧
        [30, 31, 32][k]? = some m.ndvi_cst)) :=
  ⟨by decide,
    (merge_loop_aligned table_up table_down table_cst [10, 11, 12] [20, 21, 22] [30, 31, 32]
      rfl rfl rfl).1⟩

/-- When `main` exits with status 0, the lines it writes are those of the
merge loop over the three tables read and their series. -/
theorem main_output [LinearOrderedField F] (strtol : List Char → Int)
    (strtod : List Char → F) (exp : F → F) (file_up file_down file_cst : Option (List Char))
    (h : (main strtol strtod exp file_up file_down file_cst).1 = 0) :
    (main strtol strtod exp file_up file_down file_cst).2
      = merge_loop (read_csv strtol strtod file_up).2 (read_csv strtol strtod file_down).2
          (read_csv strtol strtod file_cst).2
          (simulate_series exp (read_csv strtol strtod file_up).2)
          (simulate_series exp (read_csv strtol strtod file_down).2)
          (simulate_series exp (read_csv strtol strtod file_cst).2) := by
  unfold main at h ⊢
  split_ifs at h ⊢ with h1 h2 h3
  · simp at h
  · simp at h
  · simp at h
  · rfl

end merging

/-! ## What the series depends on -/

/-- The loop of `simulate_series` reads only the fields `P`, `r0`, `K`. -/
theorem simulate_loop_congr {F : Type} [LinearOrderedField F] (exp : F → F)
    (rows rows2 : List (Row F)) (B : F)
    (h : rows.map (fun r => (r.P, r.r0, r.K)) = rows2.map (fun r => (r.P, r.r0, r.K))) :
    simulate_loop exp B rows = simulate_loop exp B rows2 := by
  induction rows generalizing rows2 B with
  | nil =>
    cases rows2 with
    | nil => rfl
    | cons y ys => simp at h
  | cons x xs ih =>
    cases rows2 with
    | nil => simp at h
    | cons y ys =>
      simp only [List.map_cons, List.cons.injEq, Prod.mk.injEq] at h
      obtain ⟨⟨hP, hr0, hK⟩, hrest⟩ := h
      simp only [simulate_loop, hP, hr0, hK]
      rw [ih ys _ hrest]

/-- C17: only the seeding record's `B0` matters: two tables whose rows agree
in `P`, `r0` and `K`, row by row, and whose first rows agree in `B0`, have the
same series, whatever the years and the `B0` fields of the other rows are. -/
theorem simulate_series_congr {F : Type} [LinearOrderedField F] (exp : F → F)
    (tab tab2 : Table F)
    (h : tab.rows.map (fun r => (r.P, r.r0, r.K)) = tab2.rows.map (fun r => (r.P, r.r0, r.K)))
    (h0 : tab.rows.head?.map Row.B0 = tab2.rows.head?.map Row.B0) :
    simulate_series exp tab = simulate_series exp tab2 := by
  obtain ⟨rows⟩ := tab
  obtain ⟨rows2⟩ := tab2
  cases rows with
  | nil =>
    cases rows2 with
    | nil => rfl
    | cons y ys => simp at h
  | cons x xs =>
    cases rows2 with
    | nil => simp at h
    | cons y ys =>
      simp only [List.head?_cons, Option.map_some', Option.some.injEq] at h0
      simp only [simulate_series, h0]
      exact simulate_loop_congr exp _ _ _ h

/-- Instance of C17: the second table differs from the first in both years
and in the `B0` of the second row; the series are equal. -/
theorem simulate_series_congr_witness :
    simulate_series Real.exp ⟨[⟨2019, 0, 1, 1, 2⟩, ⟨2020, 1, 1, 1, 0⟩]⟩
      = simulate_series Real.exp ⟨[⟨1999, 0, 1, 1, 2⟩, ⟨1990, 1, 1, 1, 7⟩]⟩ :=
  simulate_series_congr Real.exp _ _ rfl rfl

/-! ## Lines that are skipped and the row limit -/

section lines

variable {F : Type}

/-- Reading from a text that starts with a line without newline of fewer than
`k` characters, followed by a newline, gives that line. -/
theorem fgets_chars_line (k : Nat) (body x : List Char) (hb : '\n' ∉ body)
    (hk : body.length < k) :
    fgets_chars k (body ++ '\n' :: x) = (body ++ ['\n'], x) := by
  induction body generalizing k with
  | nil =>
    obtain ⟨k, rfl⟩ : ∃ k2, k = k2 + 1 := ⟨k - 1, by simp at hk; omega⟩
    simp [fgets_chars]
  | cons c body ih =>
    obtain ⟨k, rfl⟩ : ∃ k2, k = k2 + 1 := ⟨k - 1, by simp at hk; omega⟩
    have hc : c ≠ '\n' := fun h => hb (by simp [h])
    have hb2 : '\n' ∉ body := fun h => hb (by simp [h])
    have hk2 : body.length < k := by simp at hk; omega
    simp [fgets_chars, hc, ih k hb2 hk2]

/-- A complete line is read by `fgets` in one piece. -/
theorem fgets_is_line (l x : List Char) (hl : is_line l = true) :
    fgets MAX_LINE (l ++ x) = some (l, x) := by
  simp only [is_line, Bool.and_eq_true, decide_eq_true_eq, Bool.not_eq_true', MAX_LINE] at hl
  obtain ⟨⟨hlast, hno⟩, hlen⟩ := hl
  have hne : l ≠ [] := by
    intro h
    simp [h] at hlast
  have hl2 : l = l.dropLast ++ ['\n'] := by
    have h1 := List.dropLast_append_getLast? '\n' (by simpa using hlast)
    exact h1.symm
  have hno2 : '\n' ∉ l.dropLast := by
    intro h
    simp [List.contains] at hno
    exact hno h
  have hlen2 : l.dropLast.length < 2047 := by
    rw [List.length_dropLast]
    omega
  have h := fgets_chars_line 2047 l.dropLast x hno2 hlen2
  rw [← hl2] at h
  have hcons : l.dropLast ++ '\n' :: x = l ++ x := by
    conv_rhs => rw [hl2]
    simp
  rw [hcons] at h
  cases hlx : l ++ x with
  | nil => simp [hne] at hlx
  | cons c s =>
    rw [hlx] at h
    simp only [fgets, MAX_LINE]
    rw [h]

/-- The rows accepted do not depend on the iteration bound once the bound is
at least the length of the stream. -/
theorem accepted_rows_fuel (strtol : List Char → Int) (strtod : List Char → F) (c : Cols)
    (f1 f2 : Nat) (stream : List Char) (h1 : stream.length ≤ f1) (h2 : stream.length ≤ f2) :
    accepted_rows strtol strtod c f1 stream = accepted_rows strtol strtod c f2 stream := by
  induction f1 generalizing f2 stream with
  | zero =>
    have hs : stream = [] := List.length_eq_zero.mp (Nat.le_zero.mp h1)
    subst hs
    cases f2 with
    | zero => rfl
    | succ f2 => simp [accepted_rows, fgets]
  | succ f1 ih =>
    cases f2 with
    | zero =>
      have hs : stream = [] := List.length_eq_zero.mp (Nat.le_zero.mp h2)
      subst hs
      simp [accepted_rows, fgets]
    | succ f2 =>
      unfold accepted_rows
      cases hf : fgets MAX_LINE stream with
      | none => rfl
      | some p =>
        obtain ⟨buf, rest⟩ := p
        have hlt := fgets_rest_length stream buf rest hf
        have e1 : accepted_rows strtol strtod c f1 rest
            = accepted_rows strtol strtod c f2 rest :=
          ih f2 rest (by omega) (by omega)
        simp only [e1]

/-- The rows accepted from a stream are the row of its first line, if that
line is accepted, followed by the rows accepted from the rest. -/
theorem accepted_rows_step (strtol : List Char → Int) (strtod : List Char → F) (c : Cols)
    (stream buf rest : List Char) (h : fgets MAX_LINE stream = some (buf, rest)) :
    accepted_rows strtol strtod c stream.length stream
      = (if rtrim (cstr buf) = [] then []
         else if c.ncols > (tokens 64 (rtrim (cstr buf))).length then []
         else [make_row strtol strtod c (tokens 64 (rtrim (cstr buf)))]) ++
        accepted_rows strtol strtod c rest.length rest := by
  have hlt := fgets_rest_length stream buf rest h
  obtain ⟨n, hn⟩ : ∃ n, stream.length = n + 1 := ⟨stream.length - 1, by omega⟩
  have e1 : accepted_rows strtol strtod c n rest
      = accepted_rows strtol strtod c rest.length rest :=
    accepted_rows_fuel strtol strtod c n rest.length rest (by omega) (le_refl _)
  rw [hn]
  conv_lhs => unfold accepted_rows
  simp only [h, e1]
  split_ifs <;> simp

/-- The loop of `read_csv` returns 1 with all accepted rows stored when they
fit the table, and 0 with the table filled to `MAX_ROWS` rows otherwise. -/
theorem read_rows_eq_accepted (strtol : List Char → Int) (strtod : List Char → F) (c : Cols)
    (fuel : Nat) (stream : List Char) (acc : List (Row F)) (hacc : acc.length ≤ MAX_ROWS) :
    read_rows strtol strtod c fuel stream acc
      = if acc.length + (accepted_rows strtol strtod c fuel stream).length ≤ MAX_ROWS then
          (1, acc ++ accepted_rows strtol strtod c fuel stream)
        else (0, (acc ++ accepted_rows strtol strtod c fuel stream).take MAX_ROWS) := by
  induction fuel generalizing stream acc with
  | zero => simp [read_rows, accepted_rows, hacc]
  | succ fuel ih =>
    unfold read_rows accepted_rows
    cases hf : fgets MAX_LINE stream with
    | none => simp [hacc]
    | some p =>
      obtain ⟨buf, rest⟩ := p
      dsimp only
      by_cases h1 : rtrim (cstr buf) = []
      · simp only [if_pos h1]
        exact ih rest acc hacc
      · simp only [if_neg h1]
        by_cases h2 : c.ncols > (tokens 64 (rtrim (cstr buf))).length
        · simp only [if_pos h2]
          exact ih rest acc hacc
        · simp only [if_neg h2]
          by_cases h3 : acc.length ≥ MAX_ROWS
          · have heq : acc.length = MAX_ROWS := le_antisymm hacc h3
            have hnot : ¬ (acc.length + (make_row strtol strtod c (tokens 64 (rtrim (cstr buf))) ::
                accepted_rows strtol strtod c fuel rest).length ≤ MAX_ROWS) := by
              rw [List.length_cons]
              omega
            rw [if_pos h3, if_neg hnot, ← heq, List.take_left']
            rfl
          · have hlen : (acc ++ [make_row strtol strtod c (tokens 64 (rtrim (cstr buf)))]).length
                ≤ MAX_ROWS := by
              rw [List.length_append, List.length_singleton]
              omega
            rw [if_neg h3, ih rest _ hlen]
            have e1 : (acc ++ [make_row strtol strtod c (tokens 64 (rtrim (cstr buf)))]).length
                  + (accepted_rows strtol strtod c fuel rest).length
                = acc.length + (make_row strtol strtod c (tokens 64 (rtrim (cstr buf))) ::
                    accepted_rows strtol strtod c fuel rest).length := by
              simp only [List.length_append, List.length_cons, List.length_nil]
              omega
            have e2 : acc ++ [make_row strtol strtod c (tokens 64 (rtrim (cstr buf)))]
                  ++ accepted_rows strtol strtod c fuel rest
                = acc ++ make_row strtol strtod c (tokens 64 (rtrim (cstr buf))) ::
                    accepted_rows strtol strtod c fuel rest := by
              simp
            rw [e1, e2]

/-- The part of `read_csv` before the sort, in terms of the header and of the
accepted rows. -/
theorem read_unsorted_eq (strtol : List Char → Int) (strtod : List Char → F)
    (stream buf rest : List Char) (h : fgets MAX_LINE stream = some (buf, rest)) :
    read_unsorted strtol strtod (some stream)
      = if ∀ name ∈ required_names, name ∈ header_cols buf then
          (if (accepted_rows strtol strtod (header_positions buf) rest.length rest).length
              ≤ MAX_ROWS then
            (1, accepted_rows strtol strtod (header_positions buf) rest.length rest)
          else
            (0, (accepted_rows strtol strtod (header_positions buf) rest.length rest).take
              MAX_ROWS))
        else (0, []) := by
  have hiff : (find_col (header_cols buf) ['Y', 'e', 'a', 'r'] < 0 ∨
      find_col (header_cols buf) ['P'] < 0 ∨ find_col (header_cols buf) ['r', '0'] < 0 ∨
      find_col (header_cols buf) ['K'] < 0 ∨ find_col (header_cols buf) ['B', '0'] < 0)
      ↔ ¬ ∀ name ∈ required_names, name ∈ header_cols buf := by
    simp only [find_col_neg, required_names, List.mem_cons, List.mem_singleton,
      List.not_mem_nil, or_false, forall_eq_or_imp, forall_eq]
    tauto
  simp only [read_unsorted, h]
  by_cases hall : ∀ name ∈ required_names, name ∈ header_cols buf
  · rw [if_neg (fun hc => hiff.mp hc hall), if_pos hall]
    have := read_rows_eq_accepted strtol strtod (header_positions buf) rest.length rest []
      (Nat.zero_le _)
    simp only [List.length_nil, Nat.zero_add, List.nil_append] at this
    exact this
  · rw [if_pos (hiff.mpr hall), if_neg hall]

/-- C20: the row limit: when the header has the five columns, `read_csv`
succeeds and returns all accepted rows, sorted, if the file has at most
`MAX_ROWS = 512` accepted data rows, in particular exactly 512; with more than
512 accepted rows it returns 0.  Accepted rows are those of `accepted_rows`,
which gives no row for an empty line or a line with too few fields. -/
theorem read_csv_row_limit (strtol : List Char → Int) (strtod : List Char → F)
    (stream buf rest : List Char) (h : fgets MAX_LINE stream = some (buf, rest))
    (hall : ∀ name ∈ required_names, name ∈ header_fields buf) :
    ((accepted_rows strtol strtod (header_positions buf) rest.length rest).length ≤ 512 →
      read_csv strtol strtod (some stream)
        = (1, ⟨sort_rows (accepted_rows strtol strtod (header_positions buf) rest.length
            rest)⟩)) ∧
    ((accepted_rows strtol strtod (header_positions buf) rest.length rest).length = 512 →
      (read_csv strtol strtod (some stream)).1 = 1 ∧
      (read_csv strtol strtod (some stream)).2.n = 512) ∧
    ((accepted_rows strtol strtod (header_positions buf) rest.length rest).length > 512 →
      (read_csv strtol strtod (some stream)).1 = 0) := by
  have hall2 : ∀ name ∈ required_names, name ∈ header_cols buf := by
    rw [header_cols_eq]
    exact hall
  have hu := read_unsorted_eq strtol strtod stream buf rest h
  rw [if_pos hall2] at hu
  have hle : (accepted_rows strtol strtod (header_positions buf) rest.length rest).length ≤ 512 →
      read_csv strtol strtod (some stream)
        = (1, ⟨sort_rows (accepted_rows strtol strtod (header_positions buf) rest.length
            rest)⟩) := by
    intro hlen
    rw [if_pos (by simpa [MAX_ROWS] using hlen)] at hu
    simp [read_csv, hu]
  refine ⟨hle, fun heq => ?_, fun hgt => ?_⟩
  · rw [hle (le_of_eq heq)]
    refine ⟨rfl, ?_⟩
    simp only [Table.n]
    rw [(sort_rows_perm _).length_eq, heq]
  · rw [if_neg (by simpa [MAX_ROWS] using hgt)] at hu
    simp [read_csv, hu]

/-- A text of `n` full data lines gives `n` accepted rows. -/
theorem accepted_rows_replicate (strtol : List Char → Int) (strtod : List Char → F) (n : Nat) :
    (accepted_rows strtol strtod (header_positions "Year,P,r0,K,B0\n".toList)
      ((List.replicate n "2020,1,1,1,1\n".toList).flatten).length
      ((List.replicate n "2020,1,1,1,1\n".toList).flatten)).length = n := by
  induction n with
  | zero => rfl
  | succ n ih =>
    have hx : (List.replicate (n + 1) "2020,1,1,1,1\n".toList).flatten
        = "2020,1,1,1,1\n".toList ++ (List.replicate n "2020,1,1,1,1\n".toList).flatten := by
      rw [List.replicate_succ, List.flatten_cons]
    have h1 : ¬ rtrim (cstr "2020,1,1,1,1\n".toList) = [] := by decide
    have h2 : ¬ (header_positions "Year,P,r0,K,B0\n".toList).ncols
        > (tokens 64 (rtrim (cstr "2020,1,1,1,1\n".toList))).length := by decide
    rw [hx, accepted_rows_step strtol strtod _ _ "2020,1,1,1,1\n".toList _
      (fgets_is_line _ _ (by decide)), if_neg h1, if_neg h2, List.length_append, ih]
    simp only [List.length_singleton]
    omega

/-- Instance of C20: the file of 512 full data lines is read, into a table of
512 rows; the file of 513 full data lines is rejected. -/
theorem read_csv_row_limit_witness :
    ((read_csv strtol_int strtod_mark (some (file_rows 512))).1 = 1 ∧
      (read_csv strtol_int strtod_mark (some (file_rows 512))).2.n = 512) ∧
    (read_csv strtol_int strtod_mark (some (file_rows 513))).1 = 0 :=
  ⟨(read_csv_row_limit strtol_int strtod_mark (file_rows 512) "Year,P,r0,K,B0\n".toList
      (List.replicate 512 "2020,1,1,1,1\n".toList).flatten
      (fgets_is_line _ _ (by decide)) (by decide)).2.1
      (accepted_rows_replicate strtol_int strtod_mark 512),
   (read_csv_row_limit strtol_int strtod_mark (file_rows 513) "Year,P,r0,K,B0\n".toList
      (List.replicate 513 "2020,1,1,1,1\n".toList).flatten
      (fgets_is_line _ _ (by decide)) (by decide)).2.2
      (by rw [accepted_rows_replicate strtol_int strtod_mark 513]; decide)⟩

/-- The rows accepted after a sequence of complete lines depend on what
follows these lines only through the rows accepted from it. -/
theorem accepted_rows_prefix (strtol : List Char → Int) (strtod : List Char → F) (c : Cols)
    (pre : List (List Char)) (x y : List Char) (hpre : ∀ l ∈ pre, is_line l = true)
    (hxy : accepted_rows strtol strtod c x.length x = accepted_rows strtol strtod c y.length y) :
    accepted_rows strtol strtod c (pre.flatten ++ x).length (pre.flatten ++ x)
      = accepted_rows strtol strtod c (pre.flatten ++ y).length (pre.flatten ++ y) := by
  induction pre with
  | nil => simpa using hxy
  | cons l pre ih =>
    have hl : is_line l = true := hpre l (List.mem_cons_self _ _)
    have hrest : ∀ l2 ∈ pre, is_line l2 = true :=
      fun l2 h2 => hpre l2 (List.mem_cons_of_mem _ h2)
    rw [List.flatten_cons, List.append_assoc, List.append_assoc,
      accepted_rows_step strtol strtod c _ l _ (fgets_is_line l _ hl),
      accepted_rows_step strtol strtod c _ l _ (fgets_is_line l _ hl), ih hrest]

/-- C13: a data line that is empty or yields fewer fields than the header has
columns is dropped without failing the parse: `read_csv` returns, code and
table, exactly what it returns for the same file with that line removed.  The
line `L` is any piece that `fgets` reads as one line after a header line and
any number of complete lines. -/
theorem read_csv_skips_line (strtol : List Char → Int) (strtod : List Char → F)
    (hdr : List Char) (pre : List (List Char)) (L post : List Char)
    (hhdr : is_line hdr = true) (hpre : ∀ l ∈ pre, is_line l = true)
    (hL : fgets MAX_LINE (L ++ post) = some (L, post))
    (hshort : rtrim (cstr L) = [] ∨
      (tokens 64 (rtrim (cstr L))).length < (header_cols hdr).length) :
    read_csv strtol strtod (some (hdr ++ (pre.flatten ++ (L ++ post))))
      = read_csv strtol strtod (some (hdr ++ (pre.flatten ++ post))) := by
  have hstep : accepted_rows strtol strtod (header_positions hdr) (L ++ post).length (L ++ post)
      = accepted_rows strtol strtod (header_positions hdr) post.length post := by
    rw [accepted_rows_step strtol strtod _ _ L post hL]
    rcases hshort with h1 | h2
    · rw [if_pos h1, List.nil_append]
    · by_cases h1 : rtrim (cstr L) = []
      · rw [if_pos h1, List.nil_append]
      · rw [if_neg h1, if_pos (by simpa [header_positions] using h2), List.nil_append]
  have hacc := accepted_rows_prefix strtol strtod (header_positions hdr) pre (L ++ post) post
    hpre hstep
  have hu : read_unsorted strtol strtod (some (hdr ++ (pre.flatten ++ (L ++ post))))
      = read_unsorted strtol strtod (some (hdr ++ (pre.flatten ++ post))) := by
    rw [read_unsorted_eq strtol strtod _ hdr _ (fgets_is_line hdr _ hhdr),
      read_unsorted_eq strtol strtod _ hdr _ (fgets_is_line hdr _ hhdr), hacc]
  simp only [read_csv, hu]

/-- Instance of C13 on `file_short_line`: the short line `2019,5` after the
first data line is dropped, and so is the empty line that follows it. -/
theorem read_csv_skips_line_witness :
    read_csv strtol_int strtod_mark (some file_short_line)
      = read_csv strtol_int strtod_mark
          (some "Year,P,r0,K,B0\n2021,1,2,3,4\n\n2020,9,1,2,3\n".toList) ∧
    read_csv strtol_int strtod_mark
        (some "Year,P,r0,K,B0\n2021,1,2,3,4\n\n2020,9,1,2,3\n".toList)
      = read_csv strtol_int strtod_mark
          (some "Year,P,r0,K,B0\n2021,1,2,3,4\n2020,9,1,2,3\n".toList) :=
  ⟨read_csv_skips_line strtol_int strtod_mark "Year,P,r0,K,B0\n".toList
      ["2021,1,2,3,4\n".toList] "2019,5\n".toList "\n2020,9,1,2,3\n".toList
      (by decide) (by decide) (by decide) (Or.inr (by decide)),
   read_csv_skips_line strtol_int strtod_mark "Year,P,r0,K,B0\n".toList
      ["2021,1,2,3,4\n".toList] "\n".toList "2020,9,1,2,3\n".toList
      (by decide) (by decide) (by decide) (Or.inl (by decide))⟩

/-- Trimming removes a tail of blanks, tabs, carriage returns and newlines. -/
theorem rtrim_append_trim_chars (s ws : List Char) (hws : ∀ c ∈ ws, is_trim_char c = true) :
    rtrim (s ++ ws) = rtrim s := by
  induction ws using List.reverseRecOn with
  | nil => simp
  | append_singleton ws c ih =>
    have hc : is_trim_char c = true := hws c (by simp)
    have hrest : ∀ d ∈ ws, is_trim_char d = true := fun d hd => hws d (by simp [hd])
    unfold rtrim at ih ⊢
    rw [← List.append_assoc, List.rdropWhile_concat_pos _ _ _ hc]
    exact ih hrest

/-- C12, as stated, fails: the fields of the header `Year, P, r0, K, B0` equal
the five names up to a leading blank, yet `read_csv` reports missing columns
(it returns 0 with no rows): only the end of a field is trimmed, so the
field ` P` is not equal to `P`. -/
theorem read_csv_leading_blank_counterexample :
    header_cols "Year, P, r0, K, B0\n".toList
      = ["Year".toList, " P".toList, " r0".toList, " K".toList, " B0".toList] ∧
    find_col (header_cols "Year, P, r0, K, B0\n".toList) ['P'] = -1 ∧
    read_csv strtol_int strtod_mark (some file_blank_header) = (0, ⟨[]⟩) := by
  decide

/-- C12 (amended): header fields are compared after removing trailing blanks,
tabs, carriage returns and newlines only: when each of the five names occurs
among the header pieces followed by nothing but such characters, `read_csv`
finds all five columns and does not report missing columns (it returns 1, or
0 with the table filled to `MAX_ROWS` rows). -/
theorem read_csv_trailing_blanks (strtol : List Char → Int) (strtod : List Char → F)
    (stream buf rest : List Char) (h : fgets MAX_LINE stream = some (buf, rest))
    (hnames : ∀ name ∈ required_names, ∃ ws : List Char,
      (∀ c ∈ ws, is_trim_char c = true) ∧ name ++ ws ∈ header_pieces buf) :
    (∀ name ∈ required_names, 0 ≤ find_col (header_cols buf) name) ∧
    ((read_csv strtol strtod (some stream)).1 = 1 ∨
      ((read_csv strtol strtod (some stream)).1 = 0 ∧
        (read_csv strtol strtod (some stream)).2.n = MAX_ROWS)) := by
  have hall : ∀ name ∈ required_names, name ∈ header_cols buf := by
    intro name hname
    obtain ⟨ws, hws, hmem⟩ := hnames name hname
    have hr : rtrim name = name := by
      simp only [required_names, List.mem_cons, List.mem_singleton, List.not_mem_nil,
        or_false] at hname
      rcases hname with h1 | h1 | h1 | h1 | h1 <;> subst h1 <;> decide
    rw [header_cols_eq]
    have : header_fields buf = (header_pieces buf).map rtrim := rfl
    rw [this, List.mem_map]
    exact ⟨name ++ ws, hmem, by rw [rtrim_append_trim_chars name ws hws, hr]⟩
  constructor
  · intro name hname
    by_contra hneg
    exact (find_col_neg name (header_cols buf)).mp (not_le.mp hneg) (hall name hname)
  · have hu := read_unsorted_eq strtol strtod stream buf rest h
    rw [if_pos hall] at hu
    by_cases hlen : (accepted_rows strtol strtod (header_positions buf) rest.length rest).length
        ≤ MAX_ROWS
    · rw [if_pos hlen] at hu
      left
      simp [read_csv, hu]
    · rw [if_neg hlen] at hu
      right
      simp only [read_csv, hu, Table.n]
      refine ⟨by simp, ?_⟩
      simp only [show ¬ ((0 : Int) = 1) by decide, if_false, List.length_take]
      omega

/-- Instance of the amended C12: in `file_trailing_header` the header fields
end with blanks, a tab and a carriage return; all five columns are found. -/
theorem read_csv_trailing_blanks_witness :
    (∀ name ∈ required_names,
      0 ≤ find_col (header_cols "Year ,P\t,r0  ,K ,B0 \r\n".toList) name) ∧
    ((read_csv strtol_int strtod_mark (some file_trailing_header)).1 = 1 ∨
      ((read_csv strtol_int strtod_mark (some file_trailing_header)).1 = 0 ∧
        (read_csv strtol_int strtod_mark (some file_trailing_header)).2.n = MAX_ROWS)) :=
  read_csv_trailing_blanks strtol_int strtod_mark file_trailing_header
    "Year ,P\t,r0  ,K ,B0 \r\n".toList "2020,1,1,1,1\n".toList (by decide)
    (by
      intro name hname
      simp only [required_names, List.mem_cons, List.mem_singleton, List.not_mem_nil,
        or_false] at hname
      rcases hname with h1 | h1 | h1 | h1 | h1 <;> subst h1
      · exact ⟨[' '], by decide, by decide⟩
      · exact ⟨['\t'], by decide, by decide⟩
      · exact ⟨[' ', ' '], by decide, by decide⟩
      · exact ⟨[' '], by decide, by decide⟩
      · exact ⟨[], by decide, by decide⟩)

end lines

/-! ## Files given by their fields, and permutations of the columns -/

section columns

variable {F : Type}

theorem intercalate_single (a : List Char) : [','].intercalate [a] = a := by
  simp [List.intercalate]

theorem intercalate_cons_cons (a b : List Char) (l : List (List Char)) :
    [','].intercalate (a :: b :: l) = a ++ ',' :: [','].intercalate (b :: l) := by
  simp [List.intercalate]

/-- A character of a line is a comma or a character of one of the fields. -/
theorem mem_intercalate (l : List (List Char)) (c : Char) (hc : c ∈ [','].intercalate l) :
    c = ',' ∨ ∃ f ∈ l, c ∈ f := by
  induction l with
  | nil => simp [List.intercalate] at hc
  | cons a l ih =>
    cases l with
    | nil =>
      rw [intercalate_single] at hc
      exact Or.inr ⟨a, by simp, hc⟩
    | cons b l =>
      rw [intercalate_cons_cons, List.mem_append, List.mem_cons] at hc
      rcases hc with h | h | h
      · exact Or.inr ⟨a, by simp, h⟩
      · exact Or.inl h
      · rcases ih h with h2 | ⟨f, hf, hcf⟩
        · exact Or.inl h2
        · exact Or.inr ⟨f, List.mem_cons_of_mem _ hf, hcf⟩

/-- The length of a line in terms of the lengths of its fields. -/
theorem intercalate_length (l : List (List Char)) (hl : l ≠ []) :
    ([','].intercalate l).length + 1 = (l.map List.length).sum + l.length := by
  induction l with
  | nil => exact absurd rfl hl
  | cons a l ih =>
    cases l with
    | nil => simp [intercalate_single]
    | cons b l =>
      have := ih (by simp)
      rw [intercalate_cons_cons]
      simp only [List.length_append, List.length_cons, List.map_cons, List.sum_cons] at this ⊢
      omega

/-- A line of non-empty fields ends with the last character of a field. -/
theorem intercalate_getLast? (l : List (List Char)) (hl : l ≠ []) (hne : ∀ f ∈ l, f ≠ []) :
    ∃ f ∈ l, ([','].intercalate l).getLast? = f.getLast? := by
  induction l with
  | nil => exact absurd rfl hl
  | cons a l ih =>
    cases l with
    | nil => exact ⟨a, by simp, by rw [intercalate_single]⟩
    | cons b l =>
      obtain ⟨f, hf, hlast⟩ := ih (by simp) (fun g hg => hne g (List.mem_cons_of_mem _ hg))
      refine ⟨f, List.mem_cons_of_mem _ hf, ?_⟩
      have hfne : f ≠ [] := hne f (List.mem_cons_of_mem _ hf)
      have hXne : [','].intercalate (b :: l) ≠ [] := by
        intro h0
        rw [h0] at hlast
        cases f with
        | nil => exact hfne rfl
        | cons c f =>
          have := List.getLast?_eq_none_iff.mp hlast.symm
          exact List.cons_ne_nil _ _ this
      rw [intercalate_cons_cons, ← hlast,
        show a ++ ',' :: [','].intercalate (b :: l) = (a ++ [',']) ++ [','].intercalate (b :: l)
          by simp]
      rw [List.getLast?_append_of_ne_nil _ hXne]

/-- A text that ends with a character that is not trimmed is left as it is. -/
theorem rtrim_of_getLast? (s : List Char) (c : Char) (hs : s.getLast? = some c)
    (hc : is_trim_char c = false) : rtrim s = s := by
  rcases List.eq_nil_or_concat s with h0 | ⟨init, d, hd⟩
  · subst h0; simp at hs
  · have hd2 : s = init ++ [d] := by simpa using hd
    subst hd2
    have hs2 : d = c := by simpa using hs
    subst hs2
    unfold rtrim
    exact List.rdropWhile_concat_neg _ _ _ (by simp [hc])

/-- A non-empty text that trimming leaves as it is ends with a character that
is not trimmed. -/
theorem getLast?_of_rtrim (s : List Char) (hs : s ≠ []) (hr : rtrim s = s) :
    ∃ c, s.getLast? = some c ∧ is_trim_char c = false := by
  rcases List.eq_nil_or_concat s with h0 | ⟨init, d, hd⟩
  · exact absurd h0 hs
  · have hd2 : s = init ++ [d] := by simpa using hd
    subst hd2
    refine ⟨d, by simp, ?_⟩
    by_contra hcon
    have hd3 : is_trim_char d = true := by simpa using hcon
    unfold rtrim at hr
    rw [List.rdropWhile_concat_pos _ _ _ hd3] at hr
    have h1 := List.rdropWhile_prefix is_trim_char (l := init)
    rw [hr] at h1
    have := h1.length_le
    simp at this

theorem clean_field_iff (f : List Char) :
    clean_field f = true ↔
      f ≠ [] ∧ ',' ∉ f ∧ '\n' ∉ f ∧ Char.ofNat 0 ∉ f ∧ rtrim f = f := by
  simp [clean_field]

/-- A text without newline that fits the buffer is read by `fgets_chars` to
its end. -/
theorem fgets_chars_all (k : Nat) (s : List Char) (hs : '\n' ∉ s) (hk : s.length ≤ k) :
    fgets_chars k s = (s, []) := by
  induction s generalizing k with
  | nil => cases k <;> rfl
  | cons c s ih =>
    obtain ⟨k, rfl⟩ : ∃ k2, k = k2 + 1 := ⟨k - 1, by simp at hk; omega⟩
    have hc : c ≠ '\n' := fun h => hs (by simp [h])
    have hs2 : '\n' ∉ s := fun h => hs (by simp [h])
    have hk2 : s.length ≤ k := by simp at hk; omega
    simp [fgets_chars, hc, ih k hs2 hk2]

/-- A last line that has no newline after it is read by `fgets` to the end of
the file. -/
theorem fgets_last_line (l : List Char) (hne : l ≠ []) (hno : '\n' ∉ l)
    (hlen : l.length + 1 < MAX_LINE) : fgets MAX_LINE l = some (l, []) := by
  cases l with
  | nil => exact absurd rfl hne
  | cons c l =>
    simp only [fgets]
    rw [fgets_chars_all _ _ hno (by simp only [MAX_LINE] at hlen ⊢; omega)]

/-- A line followed by a newline is read by `fgets` up to that newline. -/
theorem fgets_line (l x : List Char) (hno : '\n' ∉ l) (hlen : l.length + 1 < MAX_LINE) :
    fgets MAX_LINE (l ++ '\n' :: x) = some (l ++ ['\n'], x) := by
  have h := fgets_chars_line (MAX_LINE - 1) l x hno (by simp only [MAX_LINE] at hlen ⊢; omega)
  cases l with
  | nil => simpa [fgets] using h
  | cons c l => simpa [fgets] using h

/-- The white space at the end of a line is trimmed. -/
theorem is_pad_trim (pad : List Char) (hpad : is_pad pad = true) (tail : List Char)
    (htail : tail = [] ∨ tail = ['\n']) :
    ∀ c ∈ pad ++ tail, is_trim_char c = true := by
  intro c hc
  rw [List.mem_append] at hc
  rcases hc with hc | hc
  · have := List.all_eq_true.mp hpad c hc
    simp only [is_trim_char, Bool.or_eq_true, decide_eq_true_eq] at this ⊢
    tauto
  · rcases htail with h | h
    · simp [h] at hc
    · simp only [h, List.mem_singleton] at hc
      rw [hc]
      decide

/-- A character of a line of clean fields is neither a newline nor NUL. -/
theorem intercalate_clean (l : List (List Char)) (hclean : ∀ f ∈ l, clean_field f = true)
    (c : Char) (hc : c ∈ [','].intercalate l) : c ≠ '\n' ∧ c ≠ Char.ofNat 0 := by
  rcases mem_intercalate l c hc with h1 | ⟨f, hf, hcf⟩
  · rw [h1]; decide
  · have h := (clean_field_iff f).mp (hclean f hf)
    exact ⟨fun h0 => h.2.2.1 (h0 ▸ hcf), fun h0 => h.2.2.2.1 (h0 ▸ hcf)⟩

/-- After `fgets`, the NUL cut and the trimming, a line of clean fields, with
white space and possibly a newline at its end, is the fields joined by
commas. -/
theorem rtrim_cstr_csv_line (l : List (List Char)) (hl : l ≠ [])
    (hclean : ∀ f ∈ l, clean_field f = true) (pad : List Char) (hpad : is_pad pad = true)
    (tail : List Char) (htail : tail = [] ∨ tail = ['\n']) :
    rtrim (cstr (csv_line l pad ++ tail)) = [','].intercalate l := by
  have hws := is_pad_trim pad hpad tail htail
  have hnul : cstr (csv_line l pad ++ tail) = csv_line l pad ++ tail := by
    unfold cstr
    rw [List.takeWhile_eq_self_iff]
    intro c hc
    simp only [csv_line, List.append_assoc, List.mem_append] at hc
    have hne : c ≠ Char.ofNat 0 := by
      rcases hc with hc | hc
      · exact (intercalate_clean l hclean c hc).2
      · intro h0
        have := hws c (List.mem_append.mpr hc)
        rw [h0] at this
        exact absurd this (by decide)
    simpa using hne
  rw [hnul, csv_line, List.append_assoc, rtrim_append_trim_chars _ _ hws]
  obtain ⟨f, hf, hlast⟩ := intercalate_getLast? l hl
    (fun g hg => ((clean_field_iff g).mp (hclean g hg)).1)
  have hcf := (clean_field_iff f).mp (hclean f hf)
  obtain ⟨c, hc1, hc2⟩ := getLast?_of_rtrim f hcf.1 hcf.2.2.2.2
  exact rtrim_of_getLast? _ c (by rw [hlast, hc1]) hc2

/-- A line of clean fields with white space at its end has no newline. -/
theorem csv_line_no_newline (l : List (List Char)) (hclean : ∀ f ∈ l, clean_field f = true)
    (pad : List Char) (hpad : is_pad pad = true) : '\n' ∉ csv_line l pad := by
  intro hc
  simp only [csv_line, List.mem_append] at hc
  rcases hc with hc | hc
  · exact (intercalate_clean l hclean _ hc).1 rfl
  · have := List.all_eq_true.mp hpad _ hc
    revert this
    decide

/-- The tokens of a line of clean fields are its first 64 fields. -/
theorem tokens_intercalate (l : List (List Char)) (hl : l ≠ [])
    (hclean : ∀ f ∈ l, clean_field f = true) :
    tokens 64 ([','].intercalate l) = l.take 64 := by
  rw [tokens_eq_splitOn, List.splitOn_intercalate l ','
    (fun f hf => ((clean_field_iff f).mp (hclean f hf)).2.1) hl]
  have hfil : l.filter (fun f => decide (f ≠ [])) = l := by
    rw [List.filter_eq_self]
    intro f hf
    simpa using ((clean_field_iff f).mp (hclean f hf)).1
  rw [hfil]

/-- A line of at least one clean field is not empty. -/
theorem intercalate_ne_nil (l : List (List Char)) (hl : l ≠ [])
    (hclean : ∀ f ∈ l, clean_field f = true) : [','].intercalate l ≠ [] := by
  intro h0
  have htok := tokens_intercalate l hl hclean
  rw [h0] at htok
  cases l with
  | nil => exact hl rfl
  | cons a l => simp [tokens, strtok] at htok

/-- The rows accepted from the text of data lines of clean fields, each with
at least as many fields as the header has columns, are the rows of all
lines. -/
theorem accepted_rows_csv (strtol : List Char → Int) (strtod : List Char → F) (c : Cols)
    (hc : c.ncols ≤ 64) (final_newline : Bool) (rows : List (List (List Char) × List Char))
    (hrows : ∀ r ∈ rows, r.1 ≠ [] ∧ c.ncols ≤ r.1.length ∧
      (∀ f ∈ r.1, clean_field f = true) ∧ is_pad r.2 = true ∧
      (csv_line r.1 r.2).length + 1 < MAX_LINE) :
    accepted_rows strtol strtod c
        (join_lines final_newline (rows.map (fun l => csv_line l.1 l.2))).length
        (join_lines final_newline (rows.map (fun l => csv_line l.1 l.2)))
      = rows.map (fun r => make_row strtol strtod c (r.1.take 64)) := by
  induction rows with
  | nil => rfl
  | cons r rows ih =>
    obtain ⟨hne, hn, hclean, hpad, hlen⟩ := hrows r (List.mem_cons_self _ _)
    have hrest := ih (fun r2 h2 => hrows r2 (List.mem_cons_of_mem _ h2))
    have htok := tokens_intercalate r.1 hne hclean
    have h1 : ¬ [','].intercalate r.1 = [] := intercalate_ne_nil r.1 hne hclean
    have hno := csv_line_no_newline r.1 hclean r.2 hpad
    have h2 : ¬ c.ncols > (r.1.take 64).length := by
      rw [List.length_take]
      omega
    have hlne : csv_line r.1 r.2 ≠ [] := by
      intro h0
      simp only [csv_line, List.append_eq_nil] at h0
      exact h1 h0.1
    cases rows with
    | nil =>
      cases final_newline with
      | false =>
        simp only [List.map_cons, List.map_nil, join_lines, Bool.false_eq_true, if_false]
        rw [accepted_rows_step strtol strtod c _ _ _ (fgets_last_line _ hlne hno hlen)]
        have e := rtrim_cstr_csv_line r.1 hne hclean r.2 hpad [] (Or.inl rfl)
        rw [List.append_nil] at e
        rw [e, htok, if_neg h1, if_neg h2]
        rfl
      | true =>
        simp only [List.map_cons, List.map_nil, join_lines, if_true]
        rw [show csv_line r.1 r.2 ++ ['\n'] = csv_line r.1 r.2 ++ '\n' :: [] from rfl,
          accepted_rows_step strtol strtod c _ _ _ (fgets_line _ [] hno hlen),
          rtrim_cstr_csv_line r.1 hne hclean r.2 hpad ['\n'] (Or.inr rfl), htok, if_neg h1,
          if_neg h2]
        rfl
    | cons r2 rows =>
      simp only [List.map_cons, join_lines] at hrest ⊢
      rw [accepted_rows_step strtol strtod c _ _ _ (fgets_line _ _ hno hlen),
        rtrim_cstr_csv_line r.1 hne hclean r.2 hpad ['\n'] (Or.inr rfl), htok, if_neg h1,
        if_neg h2, hrest]
      rfl

/-- When a column has the name, the loop of `find_col` returns the offset
index of a column with that name. -/
theorem find_col_from_pos (name : List Char) (cols : List (List Char)) (i : Nat)
    (h : name ∈ cols) :
    ∃ k, find_col_from name cols i = ((i + k : Nat) : Int) ∧ cols[k]? = some name := by
  induction cols generalizing i with
  | nil => simp at h
  | cons c cols ih =>
    by_cases hc : c = name
    · exact ⟨0, by simp [find_col_from, hc], by simp [hc]⟩
    · have h2 : name ∈ cols := by
        rcases List.mem_cons.mp h with h3 | h3
        · exact absurd h3.symm hc
        · exact h3
      obtain ⟨k, hk1, hk2⟩ := ih (i + 1) h2
      refine ⟨k + 1, ?_, by simpa using hk2⟩
      simp only [find_col_from, if_neg hc, hk1]
      congr 1
      omega

/-- When a column has the name, `find_col` returns the index of a column with
that name. -/
theorem find_col_pos (name : List Char) (cols : List (List Char)) (h : name ∈ cols) :
    cols[(find_col cols name).toNat]? = some name := by
  obtain ⟨k, hk1, hk2⟩ := find_col_from_pos name cols 0 h
  unfold find_col
  rw [hk1]
  simpa using hk2

/-- A name that occurs once in a list stands at one position only. -/
theorem count_one_unique (l : List (List Char)) (a : List Char) (h : l.count a = 1)
    (i j : Nat) (hi : l[i]? = some a) (hj : l[j]? = some a) : i = j := by
  induction l generalizing i j with
  | nil => simp at hi
  | cons b l ih =>
    by_cases hb : b = a
    · subst hb
      have h0 : b ∉ l := by
        rw [List.count_cons_self] at h
        exact List.count_eq_zero.mp (by omega)
      have hz : ∀ k, (b :: l)[k]? = some b → k = 0 := by
        intro k hk
        cases k with
        | zero => rfl
        | succ k =>
          rw [List.getElem?_cons_succ] at hk
          exact absurd (List.getElem?_mem hk) h0
      rw [hz i hi, hz j hj]
    · have hcnt : l.count a = 1 := by
        rw [List.count_cons_of_ne (Ne.symm hb)] at h
        exact h
      cases i with
      | zero => simp at hi; exact absurd hi hb
      | succ i =>
        cases j with
        | zero => simp at hj; exact absurd hj hb
        | succ j =>
          rw [List.getElem?_cons_succ] at hi hj
          rw [ih hcnt i j hi hj]

/-- The first positions of a line, read in increasing order, give its first
fields. -/
theorem map_range_getD (r : List (List Char)) (n : Nat) (hn : n ≤ r.length) :
    (List.range n).map (fun i => r.getD i []) = r.take n := by
  apply List.ext_getElem
  · simp [hn]
  · intro i h1 h2
    simp only [List.length_map, List.length_range] at h1
    simp only [List.getElem_map, List.getElem_range, List.getElem_take]
    rw [List.getD_eq_getElem?_getD, List.getElem?_eq_getElem (by omega)]
    rfl

/-- The fields with their first positions rearranged by a permutation of
these positions are a permutation of the fields. -/
theorem permute_cols_perm (σ : List Nat) (n : Nat) (r : List (List Char))
    (hσ : σ.Perm (List.range n)) (hn : n ≤ r.length) : (permute_cols σ r).Perm r := by
  have hlen : σ.length = n := by rw [hσ.length_eq, List.length_range]
  have h1 := hσ.map (fun i => r.getD i [])
  rw [map_range_getD r n hn] at h1
  have h2 := h1.append_right (r.drop n)
  rw [List.take_append_drop] at h2
  simpa only [permute_cols, hlen] using h2

/-- When the header has a column name once, the field of the column found by
that name is the same before and after the columns are rearranged. -/
theorem permute_cols_lookup (σ : List Nat) (hs r : List (List Char)) (name : List Char)
    (hσ : σ.Perm (List.range hs.length)) (hcount : hs.count name = 1)
    (h64 : hs.length ≤ 64) :
    ((permute_cols σ r).take 64).getD (find_col (permute_cols σ hs) name).toNat []
      = (r.take 64).getD (find_col hs name).toNat [] := by
  have hlen : σ.length = hs.length := by rw [hσ.length_eq, List.length_range]
  have hmem : name ∈ hs := List.count_pos_iff.mp (by omega)
  have hperm := permute_cols_perm σ hs.length hs hσ (le_refl _)
  have hmem2 : name ∈ permute_cols σ hs := hperm.mem_iff.mpr hmem
  have h1 := find_col_pos name hs hmem
  have h2 := find_col_pos name (permute_cols σ hs) hmem2
  generalize (find_col hs name).toNat = i at h1 ⊢
  generalize (find_col (permute_cols σ hs) name).toNat = j at h2 ⊢
  have hilt : i < hs.length := by
    by_contra hge
    rw [List.getElem?_eq_none (by omega)] at h1
    simp at h1
  have hjlt : j < σ.length := by
    by_contra hge
    rw [List.getElem?_eq_none (by rw [hperm.length_eq]; omega)] at h2
    simp at h2
  have h3 : (permute_cols σ hs)[j]? = (σ.map (fun i => hs.getD i []))[j]? := by
    unfold permute_cols
    rw [List.getElem?_append_left (by simpa using hjlt)]
  rw [h3] at h2
  simp only [List.getElem?_map, Option.map_eq_some'] at h2
  obtain ⟨p, hp1, hp2⟩ := h2
  have hplt : p < hs.length := List.mem_range.mp (hσ.mem_iff.mp (List.getElem?_mem hp1))
  have hp3 : hs[p]? = some name := by
    rw [List.getD_eq_getElem?_getD, List.getElem?_eq_getElem hplt] at hp2
    rw [List.getElem?_eq_getElem hplt]
    simpa using hp2
  have hpi : p = i := count_one_unique hs name hcount p i hp3 h1
  subst hpi
  have e1 : ((permute_cols σ r).take 64).getD j [] = r.getD p [] := by
    rw [List.getD_eq_getElem?_getD, List.getElem?_take_of_lt (by omega)]
    unfold permute_cols
    rw [List.getElem?_append_left (by simpa using hjlt)]
    simp only [List.getElem?_map, hp1, Option.map_some', Option.getD_some]
  have e2 : (r.take 64).getD p [] = r.getD p [] := by
    rw [List.getD_eq_getElem?_getD, List.getElem?_take_of_lt (by omega),
      List.getD_eq_getElem?_getD]
  rw [e1, e2]

/-- The length of a line does not change when its fields are rearranged. -/
theorem csv_line_length_perm (l l2 : List (List Char)) (pad : List Char) (hl : l ≠ [])
    (hp : l2.Perm l) : (csv_line l2 pad).length = (csv_line l pad).length := by
  have hl2 : l2 ≠ [] := by
    intro h0
    rw [h0] at hp
    exact hl hp.symm.eq_nil
  have h1 := intercalate_length l hl
  have h2 := intercalate_length l2 hl2
  have h3 : (l2.map List.length).sum = (l.map List.length).sum := (hp.map _).sum_eq
  have h4 := hp.length_eq
  simp only [csv_line, List.length_append]
  omega

/-- The part of `read_csv` before the sort on a file given by at most 64 clean
header fields and data lines of clean fields, at least as many as the header
has. -/
theorem read_unsorted_csv (strtol : List Char → Int) (strtod : List Char → F)
    (hs : List (List Char)) (pad0 : List Char)
    (rows : List (List (List Char) × List Char)) (final_newline : Bool) (hne : hs ≠ [])
    (h64 : hs.length ≤ 64) (hclean : ∀ f ∈ hs, clean_field f = true)
    (hpad0 : is_pad pad0 = true) (hlen : (csv_line hs pad0).length + 1 < MAX_LINE)
    (hrows : ∀ r ∈ rows, hs.length ≤ r.1.length ∧ (∀ f ∈ r.1, clean_field f = true) ∧
      is_pad r.2 = true ∧ (csv_line r.1 r.2).length + 1 < MAX_LINE) :
    read_unsorted strtol strtod (some (csv_file (hs, pad0) rows final_newline))
      = if ∀ name ∈ required_names, name ∈ hs then
          (if rows.length ≤ MAX_ROWS then
            (1, rows.map (fun r => make_row strtol strtod
              ⟨hs.length, (find_col hs ['Y', 'e', 'a', 'r']).toNat, (find_col hs ['P']).toNat,
                (find_col hs ['r', '0']).toNat, (find_col hs ['K']).toNat,
                (find_col hs ['B', '0']).toNat⟩ (r.1.take 64)))
          else
            (0, (rows.map (fun r => make_row strtol strtod
              ⟨hs.length, (find_col hs ['Y', 'e', 'a', 'r']).toNat, (find_col hs ['P']).toNat,
                (find_col hs ['r', '0']).toNat, (find_col hs ['K']).toNat,
                (find_col hs ['B', '0']).toNat⟩ (r.1.take 64))).take MAX_ROWS))
        else (0, []) := by
  have hno := csv_line_no_newline hs hclean pad0 hpad0
  have hlne : csv_line hs pad0 ≠ [] := by
    intro h0
    simp only [csv_line, List.append_eq_nil] at h0
    exact intercalate_ne_nil hs hne hclean h0.1
  have hfg : ∃ buf, fgets MAX_LINE (csv_file (hs, pad0) rows final_newline)
        = some (buf, join_lines final_newline (rows.map (fun l => csv_line l.1 l.2))) ∧
      rtrim (cstr buf) = [','].intercalate hs := by
    cases rows with
    | nil =>
      cases final_newline with
      | false =>
        refine ⟨csv_line hs pad0, ?_, ?_⟩
        · simp only [csv_file, List.map_cons, List.map_nil, join_lines, Bool.false_eq_true,
            if_false]
          exact fgets_last_line _ hlne hno hlen
        · have e := rtrim_cstr_csv_line hs hne hclean pad0 hpad0 [] (Or.inl rfl)
          rw [List.append_nil] at e
          exact e
      | true =>
        refine ⟨csv_line hs pad0 ++ ['\n'], ?_, ?_⟩
        · simp only [csv_file, List.map_cons, List.map_nil, join_lines, if_true]
          exact fgets_line _ [] hno hlen
        · exact rtrim_cstr_csv_line hs hne hclean pad0 hpad0 ['\n'] (Or.inr rfl)
    | cons r rows =>
      refine ⟨csv_line hs pad0 ++ ['\n'], ?_, ?_⟩
      · simp only [csv_file, List.map_cons, join_lines]
        exact fgets_line _ _ hno hlen
      · exact rtrim_cstr_csv_line hs hne hclean pad0 hpad0 ['\n'] (Or.inr rfl)
  obtain ⟨buf, hfg1, hfg2⟩ := hfg
  have hcols : header_cols buf = hs := by
    unfold header_cols
    rw [hfg2, tokens_intercalate hs hne hclean, List.take_of_length_le h64]
    conv_rhs => rw [← List.map_id hs]
    apply List.map_congr_left
    intro f hf
    exact ((clean_field_iff f).mp (hclean f hf)).2.2.2.2
  have hacc := accepted_rows_csv strtol strtod (header_positions buf)
    (by simp only [header_positions, hcols]; exact h64) final_newline rows
    (by
      intro r hr
      obtain ⟨h1, h2, h3, h4⟩ := hrows r hr
      refine ⟨?_, ?_, h2, h3, h4⟩
      · intro h0
        rw [h0] at h1
        exact hne (List.length_eq_zero.mp (Nat.le_zero.mp h1))
      · simp only [header_positions, hcols]
        exact h1)
  rw [read_unsorted_eq strtol strtod _ buf _ hfg1, hacc]
  simp only [header_positions, hcols, List.length_map]

/-- C11, as stated, fails: the header `Year,P,P,r0,K,B0` contains the required
columns; exchanging its two `P` columns, in the header and in the data line
alike, changes the table that `read_csv` returns (the stored `P` is 1 before
and 2 after), because `find_col` takes the first column of a name. -/
theorem read_csv_permute_counterexample :
    (∀ name ∈ required_names, name ∈ header_two_P) ∧
    [0, 2, 1, 3, 4, 5].Perm (List.range header_two_P.length) ∧
    (read_csv strtol_int strtod_mark
      (some (csv_file (header_two_P, []) [(row_two_P, [])] true))).1 = 1 ∧
    (read_csv strtol_int strtod_mark
      (some (csv_file (header_two_P, []) [(row_two_P, [])] true))).2.rows.map Row.P = [1] ∧
    (read_csv strtol_int strtod_mark (some (csv_file
      (permute_cols [0, 2, 1, 3, 4, 5] header_two_P, [])
      [(permute_cols [0, 2, 1, 3, 4, 5] row_two_P, [])] true))).1 = 1 ∧
    (read_csv strtol_int strtod_mark (some (csv_file
      (permute_cols [0, 2, 1, 3, 4, 5] header_two_P, [])
      [(permute_cols [0, 2, 1, 3, 4, 5] row_two_P, [])] true))).2.rows.map Row.P = [2] := by
  decide

/-- C11 (amended): column-order independence of `read_csv` when each of the
five required names is the name of exactly one column.  The file is given by
its header fields (at most 64; columns that `read_csv` ignores may repeat a
name) and by data lines with at least as many fields as the header; every line
may end with blanks, tabs or carriage returns (as in a file with CRLF line
ends), the last line with or without a newline; all fields are clean (not
empty, without comma, newline or NUL, not ending in white space) and all lines
fit the line buffer.  For every permutation of the column positions of the
header, applied to the header and to every data line alike, `read_csv` returns
the same code and table as on the unpermuted file. -/
theorem read_csv_permute_cols (strtol : List Char → Int) (strtod : List Char → F)
    (hs : List (List Char)) (pad0 : List Char)
    (rows : List (List (List Char) × List Char)) (final_newline : Bool) (σ : List Nat)
    (hσ : σ.Perm (List.range hs.length))
    (hreq : ∀ name ∈ required_names, hs.count name = 1) (h64 : hs.length ≤ 64)
    (hclean : ∀ f ∈ hs, clean_field f = true) (hpad0 : is_pad pad0 = true)
    (hlen : (csv_line hs pad0).length + 1 < MAX_LINE)
    (hrows : ∀ r ∈ rows, hs.length ≤ r.1.length ∧ (∀ f ∈ r.1, clean_field f = true) ∧
      is_pad r.2 = true ∧ (csv_line r.1 r.2).length + 1 < MAX_LINE) :
    read_csv strtol strtod (some (csv_file (permute_cols σ hs, pad0)
        (rows.map (fun r => (permute_cols σ r.1, r.2))) final_newline))
      = read_csv strtol strtod (some (csv_file (hs, pad0) rows final_newline)) := by
  have hmemreq : ∀ name ∈ required_names, name ∈ hs :=
    fun name hname => List.count_pos_iff.mp (by rw [hreq name hname]; exact Nat.one_pos)
  have hne : hs ≠ [] := List.ne_nil_of_mem (hmemreq ['K'] (by simp [required_names]))
  have hperm := permute_cols_perm σ hs.length hs hσ (le_refl _)
  have hne2 : permute_cols σ hs ≠ [] := by
    intro h0
    rw [h0] at hperm
    exact hne hperm.symm.eq_nil
  have hrows2 : ∀ r ∈ rows.map (fun r => (permute_cols σ r.1, r.2)),
      (permute_cols σ hs).length ≤ r.1.length ∧ (∀ f ∈ r.1, clean_field f = true) ∧
        is_pad r.2 = true ∧ (csv_line r.1 r.2).length + 1 < MAX_LINE := by
    intro r2 hr2
    obtain ⟨r, hr, rfl⟩ := List.mem_map.mp hr2
    obtain ⟨h1, h2, h3, h4⟩ := hrows r hr
    have hpr := permute_cols_perm σ hs.length r.1 hσ h1
    have hrne : r.1 ≠ [] := by
      intro h0
      rw [h0] at h1
      exact hne (List.length_eq_zero.mp (Nat.le_zero.mp h1))
    refine ⟨by rw [hpr.length_eq, hperm.length_eq]; exact h1, ?_, h3, ?_⟩
    · exact fun f hf => h2 f (hpr.mem_iff.mp hf)
    · rw [csv_line_length_perm r.1 _ r.2 hrne hpr]
      exact h4
  have hu1 := read_unsorted_csv strtol strtod hs pad0 rows final_newline hne h64 hclean hpad0
    hlen hrows
  have hu2 := read_unsorted_csv strtol strtod (permute_cols σ hs) pad0
    (rows.map (fun r => (permute_cols σ r.1, r.2))) final_newline
    hne2 (by rw [hperm.length_eq]; exact h64) (fun f hf => hclean f (hperm.mem_iff.mp hf))
    hpad0 (by rw [csv_line_length_perm hs _ pad0 hne hperm]; exact hlen) hrows2
  have hreq2 : ∀ name ∈ required_names, name ∈ permute_cols σ hs :=
    fun name hname => hperm.mem_iff.mpr (hmemreq name hname)
  have hmap : (rows.map (fun r => (permute_cols σ r.1, r.2))).map
        (fun r => make_row strtol strtod
          ⟨(permute_cols σ hs).length, (find_col (permute_cols σ hs) ['Y', 'e', 'a', 'r']).toNat,
            (find_col (permute_cols σ hs) ['P']).toNat,
            (find_col (permute_cols σ hs) ['r', '0']).toNat,
            (find_col (permute_cols σ hs) ['K']).toNat,
            (find_col (permute_cols σ hs) ['B', '0']).toNat⟩ (r.1.take 64))
      = rows.map (fun r => make_row strtol strtod
          ⟨hs.length, (find_col hs ['Y', 'e', 'a', 'r']).toNat, (find_col hs ['P']).toNat,
            (find_col hs ['r', '0']).toNat, (find_col hs ['K']).toNat,
            (find_col hs ['B', '0']).toNat⟩ (r.1.take 64)) := by
    rw [List.map_map]
    apply List.map_congr_left
    intro r _
    simp only [Function.comp, make_row]
    rw [permute_cols_lookup σ hs r.1 _ hσ (hreq _ (by simp [required_names])) h64,
      permute_cols_lookup σ hs r.1 ['P'] hσ (hreq _ (by simp [required_names])) h64,
      permute_cols_lookup σ hs r.1 ['r', '0'] hσ (hreq _ (by simp [required_names])) h64,
      permute_cols_lookup σ hs r.1 ['K'] hσ (hreq _ (by simp [required_names])) h64,
      permute_cols_lookup σ hs r.1 ['B', '0'] hσ (hreq _ (by simp [required_names])) h64]
  rw [if_pos hmemreq] at hu1
  rw [if_pos hreq2, hmap, List.length_map] at hu2
  simp only [read_csv, hu1, hu2]

/-- Instance of the amended C11: a file with CRLF line ends and no newline
after its last line, with two ignored columns named `x` and a data line that
is longer than the header; its seven columns are put in the reverse order. -/
theorem read_csv_permute_cols_witness :
    read_csv strtol_int strtod_mark
        (some (csv_file (permute_cols [6, 5, 4, 3, 2, 1, 0]
            ["x".toList, "Year".toList, "P".toList, "x".toList, "r0".toList, "K".toList,
              "B0".toList], ['\r'])
          ([(["9".toList, "2020".toList, "1".toList, "8".toList, "2".toList, "3".toList,
              "4".toList, "7".toList], ['\r'])].map
            (fun r => (permute_cols [6, 5, 4, 3, 2, 1, 0] r.1, r.2))) false))
      = read_csv strtol_int strtod_mark
        (some (csv_file (["x".toList, "Year".toList, "P".toList, "x".toList, "r0".toList,
            "K".toList, "B0".toList], ['\r'])
          [(["9".toList, "2020".toList, "1".toList, "8".toList, "2".toList, "3".toList,
              "4".toList, "7".toList], ['\r'])] false)) :=
  read_csv_permute_cols strtol_int strtod_mark
    ["x".toList, "Year".toList, "P".toList, "x".toList, "r0".toList, "K".toList, "B0".toList]
    ['\r']
    [(["9".toList, "2020".toList, "1".toList, "8".toList, "2".toList, "3".toList,
      "4".toList, "7".toList], ['\r'])] false [6, 5, 4, 3, 2, 1, 0]
    (by decide) (by decide) (by decide) (by decide) (by decide) (by decide) (by decide)

end columns

end simulate_ndvi

namespace growth_sim

/-! ## The Euler sub-step -/

/-- The sub-step of `update_biomass` written out, with `DT = 1/100`. -/
theorem update_biomass_eq (B P r0 alpha K : ℝ) :
    update_biomass Real.exp B P r0 alpha K
      = B + (1 / 100) * r0 * Real.exp (-alpha * P) * B * (1 - B / K) := by
  simp only [update_biomass, DT, STEPS_PER_YEAR]
  norm_num
  ring

/-- C18: the sub-stepped strategy does not keep the state in `[0,1]`:
`update_biomass` is `B + (1/100) * r0 * exp (-alpha * P) * B * (1 - B / K)`
with no clamp, and at `B = 1`, `K = 2`, `r0 = 1`, `alpha = 0`, `P = 0`, with
`B` in `[0,1]`, the value returned is `1.005`, outside `[0,1]`. -/
theorem update_biomass_not_clamped :
    (∀ B P r0 alpha K : ℝ, update_biomass Real.exp B P r0 alpha K
      = B + (1 / 100) * r0 * Real.exp (-alpha * P) * B * (1 - B / K)) ∧
    (0 : ℝ) ≤ 1 ∧ (1 : ℝ) ≤ 1 ∧
    update_biomass Real.exp 1 0 1 0 2 = 1.005 ∧
    ¬ (update_biomass Real.exp 1 0 1 0 2 ≤ 1) := by
  have h : update_biomass Real.exp 1 0 1 0 2 = 1.005 := by
    rw [update_biomass_eq]
    norm_num
  refine ⟨update_biomass_eq, zero_le_one, le_refl _, h, ?_⟩
  rw [h]
  norm_num

/-- The sub-steps can be peeled off at the end. -/
theorem substeps_succ_last (exp : ℝ → ℝ) (P r0 alpha K : ℝ) (n : Nat) (B : ℝ) :
    substeps exp P r0 alpha K (n + 1) B
      = update_biomass exp (substeps exp P r0 alpha K n B) P r0 alpha K := by
  induction n generalizing B with
  | zero => rfl
  | succ n ih =>
    rw [substeps, ih]
    rfl

/-- The sub-step with `r0 = 0.1`, `alpha = 0`, `P = 0`, `K = 1`, in terms of
the distance `d` of the state from `1/2`. -/
theorem update_biomass_half (d : ℝ) :
    update_biomass Real.exp (1 / 2 + d) 0 0.1 0 1
      = 1 / 2 + (d + 1 / 1000 * (1 / 4 - d ^ 2)) := by
  simp only [update_biomass, DT, STEPS_PER_YEAR]
  norm_num
  ring

/-- Bounds on the state after `n ≤ 100` sub-steps from `1/2`. -/
theorem substeps_bounds (n : Nat) (hn : n ≤ 100) :
    ∃ d : ℝ, substeps Real.exp 0 0.1 0 1 n 0.5 = 1 / 2 + d ∧
      249 / 1000000 * (n : ℝ) ≤ d ∧ d ≤ (n : ℝ) / 4000 ∧
      (n : ℝ) / 4000 - 1 / 16000000000 * ((n : ℝ) * ((n : ℝ) - 1) * (2 * (n : ℝ) - 1) / 6) ≤ d ∧
      d ≤ (n : ℝ) / 4000
        - 62001 / 1000000000000000 * ((n : ℝ) * ((n : ℝ) - 1) * (2 * (n : ℝ) - 1) / 6) := by
  induction n with
  | zero =>
    refine ⟨0, ?_, ?_, ?_, ?_, ?_⟩ <;> norm_num [substeps]
  | succ n ih =>
    obtain ⟨d, hd, h1, h2, h3, h4⟩ := ih (by omega)
    have hx0 : (0 : ℝ) ≤ (n : ℝ) := Nat.cast_nonneg n
    have hx1 : (n : ℝ) ≤ 99 := by
      have : n ≤ 99 := by omega
      exact_mod_cast this
    have hd0 : 0 ≤ d := le_trans (by positivity) h1
    have hsq_up : d ^ 2 ≤ ((n : ℝ) / 4000) ^ 2 := pow_le_pow_left₀ hd0 h2 2
    have hsq_lo : (249 / 1000000 * (n : ℝ)) ^ 2 ≤ d ^ 2 :=
      pow_le_pow_left₀ (by positivity) h1 2
    have hsq_small : d ^ 2 ≤ (1 / 40) ^ 2 :=
      pow_le_pow_left₀ hd0 (by linarith) 2
    refine ⟨d + 1 / 1000 * (1 / 4 - d ^ 2), ?_, ?_, ?_, ?_, ?_⟩
    · rw [substeps_succ_last, hd, update_biomass_half]
    · push_cast
      nlinarith
    · push_cast
      nlinarith [sq_nonneg d]
    · push_cast
      nlinarith
    · push_cast
      nlinarith

/-- Bounds on `exp (-0.1)` from the Taylor polynomial of degree 3. -/
theorem exp_neg_tenth_bounds :
    (90482 / 100000 : ℝ) ≤ Real.exp (-0.1) ∧ Real.exp (-0.1) ≤ 90485 / 100000 := by
  have habs : |(-(1 / 10) : ℝ)| = 1 / 10 := by
    rw [abs_neg, abs_of_pos (by norm_num : (0 : ℝ) < 1 / 10)]
  have h := Real.exp_bound (x := (-(1 / 10) : ℝ)) (by rw [habs]; norm_num) (n := 4)
    (by norm_num)
  have hsum : (∑ m ∈ Finset.range 4, (-(1 / 10) : ℝ) ^ m / (m.factorial : ℝ)) = 5429 / 6000 := by
    simp only [Finset.sum_range_succ, Finset.sum_range_zero, Nat.factorial]
    norm_num
  rw [hsum, habs] at h
  obtain ⟨ha, hb⟩ := abs_le.mp h
  norm_num [Nat.factorial] at ha hb
  rw [show (-0.1 : ℝ) = -(1 / 10) by norm_num]
  constructor <;> linarith

/-- C19: Euler accuracy: 100 sub-steps of `update_biomass` from `B = 0.5` with
`r0 = 0.1`, `alpha = 0`, `P = 0`, `K = 1` give a value within `1e-5` of
`1 / (1 + exp (-0.1))`, which is the value of the analytic
`logistic_step` at `B = 0.5`, `r0 = 0.1`, `P = 0`, `K = 1`. -/
theorem euler_accuracy :
    |simulate_year Real.exp 0.5 0 0.1 0 1 - 1 / (1 + Real.exp (-0.1))| ≤ 1e-5 ∧
    simulate_year Real.exp 0.5 0 0.1 0 1 = substeps Real.exp 0 0.1 0 1 100 0.5 ∧
    simulate_ndvi.logistic_step Real.exp 0.5 0.1 0 1 = 1 / (1 + Real.exp (-0.1)) := by
  refine ⟨?_, rfl, ?_⟩
  · obtain ⟨d, hd, -, -, h3, h4⟩ := substeps_bounds 100 (le_refl _)
    obtain ⟨he1, he2⟩ := exp_neg_tenth_bounds
    have hpos : (0 : ℝ) < 1 + Real.exp (-0.1) := by positivity
    norm_num at h3 h4
    rw [simulate_year, STEPS_PER_YEAR, hd, abs_le]
    constructor
    · rw [neg_le_sub_iff_le_add, div_le_iff₀ hpos]
      norm_num
      nlinarith
    · rw [sub_le_iff_le_add, ← sub_le_iff_le_add', le_div_iff₀ hpos]
      norm_num
      nlinarith
  · have he : 0 < Real.exp (-0.1) := Real.exp_pos _
    have h0 : (0 : ℝ) ≤ 1 / (1 + Real.exp (-0.1)) := by positivity
    have h1 : 1 / (1 + Real.exp (-0.1)) ≤ (1 : ℝ) := by
      rw [div_le_one (by positivity)]
      linarith
    have hm : max (0.5 : ℝ) 1e-12 = 0.5 := by norm_num
    have hc : ((1 : ℝ) / 0.5 - 1) = 1 := by norm_num
    rw [simulate_ndvi.logistic_step_of_gt _ _ _ _ (by norm_num), hm, hc, Real.exp_zero,
      mul_one, one_mul, max_eq_right h0, min_eq_right h1]

end growth_sim

namespace growth_sim_30years

/-! ## Seeding of the regions -/

/-- With the rate `r0 = 0` a sub-step leaves the state as it is. -/
theorem update_biomass_zero_rate (exp : ℝ → ℝ) (B P alpha K : ℝ) :
    update_biomass exp B P 0 alpha K = B := by
  simp [update_biomass]

/-- With the rate `r0 = 0` any number of sub-steps leaves the state as it is. -/
theorem substeps_zero_rate (exp : ℝ → ℝ) (P alpha K : ℝ) (n : Nat) (B : ℝ) :
    substeps exp P 0 alpha K n B = B := by
  induction n generalizing B with
  | zero => rfl
  | succ n ih => rw [substeps, update_biomass_zero_rate, ih]

/-- On an input of one line of a region followed by one line of another
region, the first region is simulated from the `B0` of the second line, with
the `r0`, `alpha` and `K` of the second line. -/
theorem simulate_growth_two_regions (exp : ℝ → ℝ) (a b : Line ℝ) (h : a.region ≠ b.region) :
    simulate_growth exp [a, b]
      = simulate_region exp a.region b.r0 b.alpha b.K b.B0 [a.P] [a.year] ++
        simulate_region exp b.region b.r0 b.alpha b.K b.B0 [b.P] [b.year] := by
  simp [simulate_growth, step, h]

/-- C16 fails on the code: the input has the region `A` with `B0 = 0.5`
followed by the region `B` with `B0 = 0.9` (all rates 0, so the state stays at
its seed); the value written for region `A` is `0.9`, the `B0` of the first
line of region `B`, not region `A`'s own `0.5`. -/
theorem simulate_growth_seed_of_next_region :
    simulate_growth Real.exp
        [⟨['A'], 2020, 0, 0, 1, 0.5, 0, 0⟩, ⟨['B'], 2020, 0, 0, 1, 0.9, 0, 0⟩]
      = [⟨['A'], 2020, 0.9⟩, ⟨['B'], 2020, 0.9⟩] := by
  simp [simulate_growth, step, simulate_region, substeps_zero_rate]

end growth_sim_30years

namespace binary64

/-! ## Rounding to an integer -/

theorem round_even_cases (x : ℚ) : round_even x = ⌊x⌋ ∨ round_even x = ⌊x⌋ + 1 := by
  unfold round_even
  split_ifs <;> simp

/-- Rounding moves a number by at most one half. -/
theorem abs_sub_round_even (x : ℚ) : |x - round_even x| ≤ 1 / 2 := by
  have h1 := Int.floor_le x
  have h2 := Int.lt_floor_add_one x
  unfold round_even
  split_ifs with ha hb hc
  · rw [abs_le]; constructor <;> linarith
  · push_cast; rw [abs_le]; constructor <;> linarith
  · rw [abs_le]; constructor <;> linarith
  · push_cast; rw [abs_le]; constructor <;> linarith

/-- An integer is rounded to itself. -/
theorem round_even_intCast (n : ℤ) : round_even (n : ℚ) = n := by
  unfold round_even
  simp

/-- Rounding does not cross an integer above. -/
theorem round_even_le (x : ℚ) (n : ℤ) (h : x ≤ n) : round_even x ≤ n := by
  have h1 : ⌊x⌋ ≤ n := Int.floor_le_iff.mpr (by linarith)
  rcases lt_or_eq_of_le h1 with h2 | h2
  · rcases round_even_cases x with h3 | h3 <;> omega
  · have hx : x = n := le_antisymm h (by rw [← h2]; exact Int.floor_le x)
    rw [hx, round_even_intCast]

/-- Rounding does not cross an integer below. -/
theorem le_round_even (x : ℚ) (n : ℤ) (h : (n : ℚ) ≤ x) : n ≤ round_even x := by
  have h1 : n ≤ ⌊x⌋ := Int.le_floor.mpr h
  rcases round_even_cases x with h3 | h3 <;> omega

/-! ## The binary exponent -/

theorem binade_spec (q : ℚ) (hq : q ≠ 0) :
    (2 : ℚ) ^ binade q ≤ |q| ∧ |q| < (2 : ℚ) ^ (binade q + 1) := by
  have hpos : 0 < |q| := abs_pos.mpr hq
  have h1 := Int.zpow_log_le_self (b := 2) (by norm_num) hpos
  have h2 := Int.lt_zpow_succ_log_self (b := 2) (by norm_num) |q|
  simp only [Nat.cast_ofNat] at h1 h2
  exact ⟨h1, h2⟩

theorem binade_eq (q : ℚ) (k : ℤ) (h1 : (2 : ℚ) ^ k ≤ |q|) (h2 : |q| < (2 : ℚ) ^ (k + 1)) :
    binade q = k := by
  have hpos : 0 < |q| := lt_of_lt_of_le (by positivity) h1
  have h3 : k ≤ Int.log 2 |q| :=
    (Int.zpow_le_iff_le_log (b := 2) (by norm_num) hpos).mp (by simpa using h1)
  have h4 : Int.log 2 |q| < k + 1 :=
    (Int.lt_zpow_iff_log_lt (b := 2) (by norm_num) hpos).mp (by simpa using h2)
  unfold binade
  omega

theorem binade_abs (q : ℚ) : binade |q| = binade q := by
  unfold binade
  rw [abs_abs]

theorem ulp_exp_abs (q : ℚ) : ulp_exp |q| = ulp_exp q := by
  unfold ulp_exp
  rw [binade_abs]

/-- The binary exponent grows with the magnitude. -/
theorem binade_mono (a b : ℚ) (ha : 0 < a) (hab : a ≤ b) : binade a ≤ binade b := by
  unfold binade
  rw [abs_of_pos ha, abs_of_pos (lt_of_lt_of_le ha hab)]
  exact Int.log_mono_right ha hab

theorem ulp_exp_mono (a b : ℚ) (ha : 0 < a) (hab : a ≤ b) : ulp_exp a ≤ ulp_exp b := by
  have := binade_mono a b ha hab
  unfold ulp_exp
  omega

theorem ulp_exp_ge (q : ℚ) : -1074 ≤ ulp_exp q := by
  unfold ulp_exp
  omega

theorem zpow_two_pos (e : ℤ) : (0 : ℚ) < 2 ^ e := by positivity

/-- A positive magnitude, in units of its last place, is below `2 ^ 53`. -/
theorem scaled_lt (a : ℚ) (ha : 0 < a) : a / 2 ^ ulp_exp a < 2 ^ (53 : ℕ) := by
  have h := (binade_spec a ha.ne').2
  rw [abs_of_pos ha] at h
  rw [div_lt_iff₀ (zpow_two_pos _)]
  have h2 : (2 : ℚ) ^ (binade a + 1) ≤ 2 ^ (53 : ℕ) * 2 ^ ulp_exp a := by
    rw [show ((2 : ℚ) ^ (53 : ℕ)) = (2 : ℚ) ^ (53 : ℤ) by norm_cast, ← zpow_add₀ (by norm_num)]
    apply zpow_le_zpow_right₀ (by norm_num)
    unfold ulp_exp
    omega
  linarith

/-- In the normal range a magnitude, in units of its last place, is at least
`2 ^ 52`. -/
theorem scaled_ge (a : ℚ) (ha : 0 < a) (hn : -1022 ≤ binade a) :
    2 ^ (52 : ℕ) ≤ a / 2 ^ ulp_exp a := by
  have h := (binade_spec a ha.ne').1
  rw [abs_of_pos ha] at h
  rw [le_div_iff₀ (zpow_two_pos _)]
  have h2 : (2 : ℚ) ^ (52 : ℕ) * 2 ^ ulp_exp a = 2 ^ binade a := by
    rw [show ((2 : ℚ) ^ (52 : ℕ)) = (2 : ℚ) ^ (52 : ℤ) by norm_cast, ← zpow_add₀ (by norm_num)]
    congr 1
    unfold ulp_exp
    omega
  linarith

/-! ## Rounding a magnitude -/

theorem binade_lt (v : ℚ) (k : ℤ) (hv : 0 < v) (h : v < 2 ^ k) : binade v < k := by
  unfold binade
  rw [abs_of_pos hv]
  exact (Int.lt_zpow_iff_log_lt (b := 2) (by norm_num) hv).mp (by simpa using h)

theorem le_binade (v : ℚ) (k : ℤ) (hv : 0 < v) (h : (2 : ℚ) ^ k ≤ v) : k ≤ binade v := by
  unfold binade
  rw [abs_of_pos hv]
  exact (Int.zpow_le_iff_le_log (b := 2) (by norm_num) hv).mp (by simpa using h)

theorem ulp_exp_eq (v : ℚ) (e : ℤ) (he : -1074 ≤ e) (hv : 0 < v)
    (h1 : e = -1074 ∨ (2 : ℚ) ^ (52 + e) ≤ v) (h2 : v < 2 ^ (53 + e)) : ulp_exp v = e := by
  have hb := binade_lt v _ hv h2
  unfold ulp_exp
  rcases h1 with h1 | h1
  · omega
  · have := le_binade v _ hv h1
    omega

theorem round_mag_nonneg (a : ℚ) (ha : 0 ≤ a) : 0 ≤ round_mag a := by
  unfold round_mag
  have h : (0 : ℤ) ≤ round_even (a / 2 ^ ulp_exp a) :=
    le_round_even _ 0 (by simpa using div_nonneg ha (zpow_two_pos _).le)
  have h2 : (0 : ℚ) ≤ round_even (a / 2 ^ ulp_exp a) := by exact_mod_cast h
  exact mul_nonneg h2 (zpow_two_pos _).le

/-- A multiple of its unit in the last place is rounded to itself. -/
theorem round_mag_grid (g : ℚ) (hg : on_grid g) : round_mag g = g := by
  obtain ⟨m, hm⟩ := hg
  unfold round_mag
  have h : g / 2 ^ ulp_exp g = m := by
    rw [div_eq_iff (zpow_two_pos _).ne']
    exact hm
  rw [h, round_even_intCast, ← hm]

/-- The distance between a magnitude and its rounding is at most half a unit
in the last place. -/
theorem abs_round_mag_sub (a : ℚ) : |round_mag a - a| ≤ 2 ^ ulp_exp a / 2 := by
  have h := abs_sub_round_even (a / 2 ^ ulp_exp a)
  have hp := zpow_two_pos (ulp_exp a)
  have e1 : round_mag a - a
      = -(a / 2 ^ ulp_exp a - round_even (a / 2 ^ ulp_exp a)) * 2 ^ ulp_exp a := by
    unfold round_mag
    field_simp
    ring
  rw [e1, abs_mul, abs_neg, abs_of_pos hp]
  calc |a / 2 ^ ulp_exp a - round_even (a / 2 ^ ulp_exp a)| * 2 ^ ulp_exp a
      ≤ 1 / 2 * 2 ^ ulp_exp a := mul_le_mul_of_nonneg_right h hp.le
    _ = 2 ^ ulp_exp a / 2 := by ring

/-- Rounding does not cross a grid point above. -/
theorem round_mag_le (a g : ℚ) (ha : 0 < a) (hag : a ≤ g) (hg : on_grid g) :
    round_mag a ≤ g := by
  obtain ⟨mg, hmg⟩ := hg
  have hgpos : 0 < g := lt_of_lt_of_le ha hag
  have he := ulp_exp_mono a g ha hag
  have hp := zpow_two_pos (ulp_exp a)
  rcases lt_or_eq_of_le he with hlt | heq
  · have hm : round_even (a / 2 ^ ulp_exp a) ≤ (2 ^ (53 : ℕ) : ℤ) :=
      round_even_le _ _ (by push_cast; exact (scaled_lt a ha).le)
    have hm2 : (round_even (a / 2 ^ ulp_exp a) : ℚ) ≤ 2 ^ (53 : ℕ) := by exact_mod_cast hm
    have hbg : (2 : ℚ) ^ binade g ≤ g := by
      have := (binade_spec g hgpos.ne').1
      rwa [abs_of_pos hgpos] at this
    have hega := ulp_exp_ge a
    have hle : (2 : ℚ) ^ (53 : ℕ) * 2 ^ ulp_exp a ≤ 2 ^ binade g := by
      rw [show ((2 : ℚ) ^ (53 : ℕ)) = (2 : ℚ) ^ (53 : ℤ) by norm_cast,
        ← zpow_add₀ (by norm_num)]
      apply zpow_le_zpow_right₀ (by norm_num)
      unfold ulp_exp at hlt hega ⊢
      omega
    unfold round_mag
    calc (round_even (a / 2 ^ ulp_exp a) : ℚ) * 2 ^ ulp_exp a
        ≤ 2 ^ (53 : ℕ) * 2 ^ ulp_exp a := mul_le_mul_of_nonneg_right hm2 hp.le
      _ ≤ 2 ^ binade g := hle
      _ ≤ g := hbg
  · have hx : a / 2 ^ ulp_exp a ≤ mg := by
      rw [div_le_iff₀ hp, heq, ← hmg]
      exact hag
    have hm : (round_even (a / 2 ^ ulp_exp a) : ℚ) ≤ mg := by
      exact_mod_cast round_even_le _ _ hx
    unfold round_mag
    calc (round_even (a / 2 ^ ulp_exp a) : ℚ) * 2 ^ ulp_exp a
        ≤ mg * 2 ^ ulp_exp a := mul_le_mul_of_nonneg_right hm hp.le
      _ = g := by rw [heq, ← hmg]

/-- Rounding does not cross a grid point below. -/
theorem le_round_mag (a g : ℚ) (hgpos : 0 < g) (hga : g ≤ a) (hg : on_grid g) :
    g ≤ round_mag a := by
  obtain ⟨mg, hmg⟩ := hg
  have ha : 0 < a := lt_of_lt_of_le hgpos hga
  have he := ulp_exp_mono g a hgpos hga
  have hp := zpow_two_pos (ulp_exp a)
  rcases lt_or_eq_of_le he with hlt | heq
  · have hega := ulp_exp_ge g
    have hn : -1022 ≤ binade a := by
      unfold ulp_exp at hlt hega
      omega
    have hm : (2 ^ (52 : ℕ) : ℤ) ≤ round_even (a / 2 ^ ulp_exp a) :=
      le_round_even _ _ (by push_cast; exact scaled_ge a ha hn)
    have hm2 : (2 : ℚ) ^ (52 : ℕ) ≤ round_even (a / 2 ^ ulp_exp a) := by exact_mod_cast hm
    have hbg : g < (2 : ℚ) ^ (binade g + 1) := by
      have := (binade_spec g hgpos.ne').2
      rwa [abs_of_pos hgpos] at this
    have hle : (2 : ℚ) ^ (binade g + 1) ≤ 2 ^ (52 : ℕ) * 2 ^ ulp_exp a := by
      rw [show ((2 : ℚ) ^ (52 : ℕ)) = (2 : ℚ) ^ (52 : ℤ) by norm_cast,
        ← zpow_add₀ (by norm_num)]
      apply zpow_le_zpow_right₀ (by norm_num)
      unfold ulp_exp at hlt hega ⊢
      omega
    unfold round_mag
    calc g ≤ (2 : ℚ) ^ (binade g + 1) := hbg.le
      _ ≤ 2 ^ (52 : ℕ) * 2 ^ ulp_exp a := hle
      _ ≤ (round_even (a / 2 ^ ulp_exp a) : ℚ) * 2 ^ ulp_exp a :=
        mul_le_mul_of_nonneg_right hm2 hp.le
  · have hx : (mg : ℚ) ≤ a / 2 ^ ulp_exp a := by
      rw [le_div_iff₀ hp, ← heq, ← hmg]
      exact hga
    have hm : (mg : ℚ) ≤ round_even (a / 2 ^ ulp_exp a) := by
      exact_mod_cast le_round_even _ _ hx
    unfold round_mag
    calc g = mg * 2 ^ ulp_exp a := by rw [← heq, ← hmg]
      _ ≤ (round_even (a / 2 ^ ulp_exp a) : ℚ) * 2 ^ ulp_exp a :=
        mul_le_mul_of_nonneg_right hm hp.le

/-- The rounding of a magnitude is a multiple of its own unit in the last
place. -/
theorem round_mag_on_grid (a : ℚ) (ha : 0 < a) : on_grid (round_mag a) := by
  have hp := zpow_two_pos (ulp_exp a)
  have hm0 : (0 : ℤ) ≤ round_even (a / 2 ^ ulp_exp a) :=
    le_round_even _ 0 (by simpa using div_nonneg ha.le hp.le)
  have hm53 : round_even (a / 2 ^ ulp_exp a) ≤ (2 ^ (53 : ℕ) : ℤ) :=
    round_even_le _ _ (by push_cast; exact (scaled_lt a ha).le)
  have hega := ulp_exp_ge a
  rcases eq_or_lt_of_le hm0 with h0 | hpos
  · refine ⟨0, ?_⟩
    unfold round_mag
    rw [← h0]
    simp
  rcases eq_or_lt_of_le hm53 with h53 | hlt53
  · -- the rounding reaches the next power of two
    refine ⟨2 ^ (52 : ℕ), ?_⟩
    have hv : round_mag a = 2 ^ (53 + ulp_exp a) := by
      unfold round_mag
      rw [h53, zpow_add₀ (by norm_num)]
      norm_cast
    have hu : ulp_exp (round_mag a) = ulp_exp a + 1 := by
      apply ulp_exp_eq _ _ (by omega) (by rw [hv]; positivity)
      · right
        rw [hv]
        apply zpow_le_zpow_right₀ (by norm_num)
        omega
      · rw [hv]
        apply zpow_lt_zpow_right₀ (by norm_num)
        omega
    rw [hu, hv, show (((2 ^ (52 : ℕ) : ℤ)) : ℚ) = (2 : ℚ) ^ (52 : ℤ) by norm_num,
      ← zpow_add₀ (by norm_num)]
    congr 1
    omega
  · refine ⟨round_even (a / 2 ^ ulp_exp a), ?_⟩
    have hmq : (0 : ℚ) < round_even (a / 2 ^ ulp_exp a) := by exact_mod_cast hpos
    have hmq2 : (round_even (a / 2 ^ ulp_exp a) : ℚ) < 2 ^ (53 : ℕ) := by exact_mod_cast hlt53
    have hu : ulp_exp (round_mag a) = ulp_exp a := by
      apply ulp_exp_eq _ _ hega (by unfold round_mag; positivity)
      · by_cases hn : -1022 ≤ binade a
        · right
          have hm : (2 ^ (52 : ℕ) : ℤ) ≤ round_even (a / 2 ^ ulp_exp a) :=
            le_round_even _ _ (by push_cast; exact scaled_ge a ha hn)
          have hm2 : (2 : ℚ) ^ (52 : ℕ) ≤ round_even (a / 2 ^ ulp_exp a) := by
            exact_mod_cast hm
          unfold round_mag
          rw [zpow_add₀ (by norm_num)]
          exact mul_le_mul_of_nonneg_right (by exact_mod_cast hm2) hp.le
        · left
          unfold ulp_exp
          omega
      · unfold round_mag
        rw [zpow_add₀ (by norm_num)]
        exact mul_lt_mul_of_pos_right (by exact_mod_cast hmq2) hp
    rw [hu]
    rfl

/-! ## Rounding to a double -/

theorem round64_ne_nan (q : ℚ) : round64 q ≠ Dbl.nan := by
  unfold round64
  split_ifs <;> simp

theorem round64_zero : round64 0 = Dbl.num 0 := by
  simp [round64]

/-- Rounding commutes with the change of sign. -/
theorem round64_neg (q : ℚ) (hq : q ≠ 0) : round64 (-q) = neg (round64 q) := by
  have hnq : -q ≠ 0 := neg_ne_zero.mpr hq
  unfold round64
  rw [if_neg hq, if_neg hnq, abs_neg]
  rcases lt_or_gt_of_ne hq with hneg | hpos
  · have h1 : ¬ 0 < q := not_lt.mpr hneg.le
    have h2 : 0 < -q := neg_pos.mpr hneg
    simp only [h1, h2, if_true, if_false]
    split_ifs with ha hb
    · rfl
    · rfl
    · have hne : -round_mag |q| ≠ 0 := neg_ne_zero.mpr hb
      simp [neg, hne]
  · have h1 : ¬ 0 < -q := by simpa using hpos.le
    simp only [h1, hpos, if_true, if_false]
    split_ifs with ha hb
    · rfl
    · simp [neg]
    · simp [neg, hb]

/-- A finite number that lies on the grid, below `2 ^ 1024`, is a double. -/
theorem round64_of_grid (q : ℚ) (hg : on_grid |q|) (hlt : |q| < 2 ^ 1024) :
    round64 q = Dbl.num q := by
  by_cases hq : q = 0
  · rw [hq, round64_zero]
  · unfold round64
    rw [if_neg hq, round_mag_grid _ hg, if_neg (not_le.mpr hlt), if_neg (abs_ne_zero.mpr hq)]
    rcases lt_or_gt_of_ne hq with hneg | hpos
    · rw [if_neg (not_lt.mpr hneg.le), abs_of_neg hneg, neg_neg]
    · rw [if_pos hpos, abs_of_pos hpos]

/-- A finite double lies on the grid, below `2 ^ 1024`. -/
theorem grid_of_round64 (q v : ℚ) (h : round64 q = Dbl.num v) :
    on_grid |v| ∧ |v| < 2 ^ 1024 := by
  by_cases hq : q = 0
  · rw [hq, round64_zero] at h
    have hv : v = 0 := by injection h with h; exact h.symm
    subst hv
    exact ⟨⟨0, by simp⟩, by simp⟩
  · have hapos : 0 < |q| := abs_pos.mpr hq
    unfold round64 at h
    rw [if_neg hq] at h
    split_ifs at h with ha hb hc hd
    · have hv : v = 0 := by injection h with h; exact h.symm
      subst hv
      exact ⟨⟨0, by simp⟩, by simp⟩
    · have hv : v = round_mag |q| := by injection h with h; exact h.symm
      have hnn := round_mag_nonneg |q| hapos.le
      rw [hv, abs_of_nonneg hnn]
      exact ⟨round_mag_on_grid _ hapos, not_le.mp ha⟩
    · have hv : v = -round_mag |q| := by injection h with h; exact h.symm
      have hnn := round_mag_nonneg |q| hapos.le
      rw [hv, abs_neg, abs_of_nonneg hnn]
      exact ⟨round_mag_on_grid _ hapos, not_le.mp ha⟩

/-- The result of rounding is a double. -/
theorem is_double_round64 (q : ℚ) : is_double (round64 q) := by
  cases h : round64 q with
  | num v =>
    obtain ⟨h1, h2⟩ := grid_of_round64 q v h
    exact round64_of_grid v h1 h2
  | _ => trivial

theorem is_double_neg (x : Dbl) (hx : is_double x) : is_double (neg x) := by
  cases x with
  | num q =>
    by_cases hq : q = 0
    · simp [neg, hq, is_double]
    · simp only [neg, if_neg hq, is_double] at hx ⊢
      rw [round64_neg q hq, hx]
      simp [neg, hq]
  | nzero => simp [neg, is_double, round64_zero]
  | _ => trivial

theorem is_double_zero_of (s : Bool) : is_double (zero_of s) := by
  cases s <;> simp [zero_of, is_double, round64_zero]

theorem is_double_inf_of (s : Bool) : is_double (inf_of s) := by
  cases s <;> simp [inf_of, is_double]

theorem is_double_mul (x y : Dbl) : is_double (mul x y) := by
  unfold mul
  split_ifs
  · trivial
  · trivial
  · exact is_double_inf_of _
  · exact is_double_zero_of _
  · exact is_double_round64 _

theorem is_double_add (x y : Dbl) (hx : is_double x) (hy : is_double y) :
    is_double (add x y) := by
  unfold add
  split_ifs
  · trivial
  · trivial
  · exact hx
  · exact hy
  · exact is_double_zero_of _
  · exact is_double_round64 _

theorem is_double_div (x y : Dbl) : is_double (div x y) := by
  unfold div
  split_ifs
  · trivial
  · trivial
  · exact is_double_inf_of _
  · exact is_double_zero_of _
  · trivial
  · exact is_double_inf_of _
  · exact is_double_zero_of _
  · exact is_double_round64 _

/-- Multiplication of a double by `1.0` is exact. -/
theorem mul_one_exact (x : Dbl) (hx : is_double x) : mul x (Dbl.num 1) = x := by
  cases x with
  | num q =>
    by_cases hq : q = 0
    · subst hq
      simp [mul, is_nan, is_inf, toRat, sign_bit, zero_of]
    · simp only [is_double] at hx
      simp [mul, is_nan, is_inf, toRat, hq, hx]
  | nan => rfl
  | pinf => simp [mul, is_nan, is_inf, is_finite, toRat, sign_bit, inf_of]
  | ninf => simp [mul, is_nan, is_inf, is_finite, toRat, sign_bit, inf_of]
  | nzero => simp [mul, is_nan, is_inf, toRat, sign_bit, zero_of]

/-! ## Evaluation of the rounding at a given number -/

/-- A number within one half of an integer is rounded to that integer. -/
theorem round_even_eq (x : ℚ) (m : ℤ) (h : |x - m| < 1 / 2) : round_even x = m := by
  have h1 := abs_sub_round_even x
  have h3 : |((round_even x - m : ℤ) : ℚ)| < 1 := by
    have e : ((round_even x - m : ℤ) : ℚ) = (x - m) - (x - round_even x) := by
      push_cast; ring
    rw [e]
    calc |x - ↑m - (x - ↑(round_even x))| ≤ |x - ↑m| + |x - ↑(round_even x)| := abs_sub _ _
      _ < 1 := by linarith
  have h4 : |round_even x - m| < 1 := by exact_mod_cast h3
  have := abs_lt.mp h4
  omega

/-- The double nearest to a positive number of the normal range, from the
binary exponent `k` of the number and the nearest multiple `m` of the unit in
the last place. -/
theorem round64_eq (q : ℚ) (k m : ℤ) (hk : -1022 ≤ k) (h1 : (2 : ℚ) ^ k ≤ q)
    (h2 : q < 2 ^ (k + 1)) (hm : |q / 2 ^ (k - 52) - m| < 1 / 2)
    (hlt : (m : ℚ) * 2 ^ (k - 52) < 2 ^ 1024) :
    round64 q = Dbl.num (m * 2 ^ (k - 52)) := by
  have hq : 0 < q := lt_of_lt_of_le (zpow_two_pos k) h1
  have hb : binade q = k := binade_eq q k (by rwa [abs_of_pos hq]) (by rwa [abs_of_pos hq])
  have hu : ulp_exp q = k - 52 := by
    unfold ulp_exp
    rw [hb]
    omega
  have hr : round_mag q = m * 2 ^ (k - 52) := by
    unfold round_mag
    rw [hu, round_even_eq _ m hm]
  have hx : (2 : ℚ) ^ (52 : ℕ) ≤ q / 2 ^ (k - 52) := by
    have := scaled_ge q hq (by rw [hb]; exact hk)
    rwa [hu] at this
  have hmpos : (0 : ℚ) < m := by
    have := (abs_lt.mp hm).2
    have h52 : (1 : ℚ) ≤ 2 ^ (52 : ℕ) := one_le_pow₀ (by norm_num)
    linarith
  have hvpos : (0 : ℚ) < m * 2 ^ (k - 52) := mul_pos hmpos (zpow_two_pos _)
  unfold round64
  rw [if_neg hq.ne', abs_of_pos hq, hr, if_neg (not_le.mpr hlt), if_neg hvpos.ne', if_pos hq]

/-- The constant `eps` is `4951760157141521 * 2 ^ (-92)`. -/
theorem eps_eq : eps = Dbl.num (4951760157141521 / 2 ^ 92) := by
  unfold eps
  rw [round64_eq (1 / 10 ^ 12) (-40) 4951760157141521 (by norm_num) (by norm_num)
    (by norm_num) (by rw [abs_lt]; constructor <;> norm_num) (by norm_num)]
  norm_num

@[simp]
theorem lt_num_num (a b : ℚ) : lt (Dbl.num a) (Dbl.num b) = decide (a < b) := rfl

@[simp]
theorem lt_num_nzero (a : ℚ) : lt (Dbl.num a) Dbl.nzero = decide (a < 0) := rfl

@[simp]
theorem lt_nzero_num (b : ℚ) : lt Dbl.nzero (Dbl.num b) = decide (0 < b) := rfl

@[simp]
theorem lt_nzero_nzero : lt Dbl.nzero Dbl.nzero = false := by simp [lt, toRat]

@[simp]
theorem lt_nan_left (y : Dbl) : lt Dbl.nan y = false := by cases y <;> rfl

@[simp]
theorem lt_nan_right (x : Dbl) : lt x Dbl.nan = false := by cases x <;> rfl

@[simp]
theorem lt_pinf_left (y : Dbl) : lt Dbl.pinf y = false := by cases y <;> rfl

@[simp]
theorem lt_ninf_right (x : Dbl) : lt x Dbl.ninf = false := by cases x <;> rfl

@[simp]
theorem lt_num_pinf (a : ℚ) : lt (Dbl.num a) Dbl.pinf = true := rfl

@[simp]
theorem lt_nzero_pinf : lt Dbl.nzero Dbl.pinf = true := rfl

@[simp]
theorem lt_ninf_num (b : ℚ) : lt Dbl.ninf (Dbl.num b) = true := rfl

@[simp]
theorem lt_ninf_nzero : lt Dbl.ninf Dbl.nzero = true := rfl

@[simp]
theorem lt_ninf_pinf : lt Dbl.ninf Dbl.pinf = true := rfl

@[simp]
theorem le_num_num (a b : ℚ) : le (Dbl.num a) (Dbl.num b) = decide (a ≤ b) := rfl

@[simp]
theorem le_num_nzero (a : ℚ) : le (Dbl.num a) Dbl.nzero = decide (a ≤ 0) := rfl

@[simp]
theorem le_nzero_num (b : ℚ) : le Dbl.nzero (Dbl.num b) = decide (0 ≤ b) := rfl

@[simp]
theorem le_nzero_nzero : le Dbl.nzero Dbl.nzero = true := by simp [le, toRat]

@[simp]
theorem le_nan_left (y : Dbl) : le Dbl.nan y = false := by cases y <;> rfl

@[simp]
theorem le_nan_right (x : Dbl) : le x Dbl.nan = false := by cases x <;> rfl

@[simp]
theorem le_ninf_num (b : ℚ) : le Dbl.ninf (Dbl.num b) = true := rfl

@[simp]
theorem le_ninf_nzero : le Dbl.ninf Dbl.nzero = true := rfl

@[simp]
theorem le_ninf_pinf : le Dbl.ninf Dbl.pinf = true := rfl

@[simp]
theorem le_ninf_ninf : le Dbl.ninf Dbl.ninf = true := rfl

@[simp]
theorem le_pinf_pinf : le Dbl.pinf Dbl.pinf = true := rfl

@[simp]
theorem le_num_pinf (a : ℚ) : le (Dbl.num a) Dbl.pinf = true := rfl

@[simp]
theorem le_nzero_pinf : le Dbl.nzero Dbl.pinf = true := rfl

@[simp]
theorem le_pinf_num (b : ℚ) : le Dbl.pinf (Dbl.num b) = false := rfl

@[simp]
theorem le_pinf_nzero : le Dbl.pinf Dbl.nzero = false := rfl

@[simp]
theorem le_pinf_ninf : le Dbl.pinf Dbl.ninf = false := rfl

@[simp]
theorem le_num_ninf (a : ℚ) : le (Dbl.num a) Dbl.ninf = false := rfl

@[simp]
theorem le_nzero_ninf : le Dbl.nzero Dbl.ninf = false := rfl

/-! ## The library's exponential at the arguments fixed by the standard -/

theorem exp64_overflow (o : ℚ → Dbl) (q : ℚ) (h : 710 ≤ q) : exp64 o (Dbl.num q) = Dbl.pinf := by
  have h0 : q ≠ 0 := by linarith
  simp [exp64, h0, h]

theorem exp64_zero (o : ℚ → Dbl) : exp64 o (Dbl.num 0) = Dbl.num 1 := by
  simp [exp64]

theorem exp64_nzero (o : ℚ → Dbl) : exp64 o Dbl.nzero = Dbl.num 1 := rfl

theorem exp64_nan (o : ℚ → Dbl) : exp64 o Dbl.nan = Dbl.nan := rfl

/-! ## Rounding and the order -/

theorem abs_eq_of_round64 (g : ℚ) (hg : round64 g = Dbl.num g) :
    on_grid |g| ∧ |g| < 2 ^ 1024 :=
  grid_of_round64 g g hg

/-- The values that compare `0 <= x`. -/
theorem nonneg_cases (x : Dbl) (h : le (Dbl.num 0) x = true) :
    x = Dbl.pinf ∨ x = Dbl.nzero ∨ ∃ v, x = Dbl.num v ∧ 0 ≤ v := by
  cases x with
  | num v => exact Or.inr (Or.inr ⟨v, rfl, by simpa using h⟩)
  | nan => simp at h
  | pinf => exact Or.inl rfl
  | ninf => simp at h
  | nzero => exact Or.inr (Or.inl rfl)

/-- The rounding of a number that is not negative is not negative. -/
theorem round64_nonneg (q : ℚ) (hq : 0 ≤ q) : le (Dbl.num 0) (round64 q) = true := by
  rcases eq_or_lt_of_le hq with h0 | hpos
  · rw [← h0, round64_zero]
    simp
  · unfold round64
    rw [if_neg hpos.ne', abs_of_pos hpos]
    simp only [hpos, if_true]
    split_ifs
    · rfl
    · simp
    · simpa using round_mag_nonneg q hpos.le

/-- The rounding of a number that is not positive is not positive. -/
theorem round64_nonpos (q : ℚ) (hq : q ≤ 0) : le (round64 q) (Dbl.num 0) = true := by
  rcases eq_or_lt_of_le hq with h0 | hneg
  · rw [h0, round64_zero]
    simp
  · unfold round64
    rw [if_neg hneg.ne, abs_of_neg hneg]
    simp only [not_lt.mpr hneg.le, if_false]
    split_ifs
    · rfl
    · simp
    · simpa using round_mag_nonneg (-q) (by linarith)

/-- Rounding does not cross a double below. -/
theorem le_round64 (g q : ℚ) (hg : round64 g = Dbl.num g) (h : g ≤ q) :
    le (Dbl.num g) (round64 q) = true := by
  obtain ⟨hgrid, hglt⟩ := abs_eq_of_round64 g hg
  rcases lt_trichotomy q 0 with hneg | h0 | hpos
  · have hgneg : g < 0 := lt_of_le_of_lt h hneg
    have hle : round_mag |q| ≤ |g| :=
      round_mag_le |q| |g| (abs_pos.mpr hneg.ne)
        (by rw [abs_of_neg hneg, abs_of_neg hgneg]; linarith) hgrid
    unfold round64
    rw [if_neg hneg.ne, if_neg (not_le.mpr (lt_of_le_of_lt hle hglt))]
    simp only [not_lt.mpr hneg.le, if_false]
    split_ifs
    · simpa using hgneg.le
    · rw [abs_of_neg hgneg] at hle
      simp only [le_num_num, decide_eq_true_eq]
      linarith
  · rw [h0, round64_zero]
    simpa [h0] using h
  · rcases le_or_lt g 0 with hg0 | hgpos
    · rcases nonneg_cases _ (round64_nonneg q hpos.le) with h1 | h1 | ⟨v, h1, hv⟩
      · rw [h1]; rfl
      · rw [h1]; simpa using hg0
      · rw [h1]
        simp only [le_num_num, decide_eq_true_eq]
        linarith
    · have hle : g ≤ round_mag q := by
        have := le_round_mag q |g| (abs_pos.mpr hgpos.ne') (by rwa [abs_of_pos hgpos]) hgrid
        rwa [abs_of_pos hgpos] at this
      unfold round64
      rw [if_neg hpos.ne', abs_of_pos hpos]
      simp only [hpos, if_true]
      split_ifs with ha hb
      · rfl
      · rw [hb] at hle
        exact absurd hle (not_le.mpr hgpos)
      · simpa using hle

/-- Rounding does not cross a double above. -/
theorem round64_le (g q : ℚ) (hg : round64 g = Dbl.num g) (h : q ≤ g) :
    le (round64 q) (Dbl.num g) = true := by
  obtain ⟨hgrid, hglt⟩ := abs_eq_of_round64 g hg
  rcases lt_trichotomy q 0 with hneg | h0 | hpos
  · rcases le_or_lt 0 g with hg0 | hgneg
    · have hnp := round64_nonpos q hneg.le
      cases hr : round64 q with
      | num v =>
        rw [hr] at hnp
        have hv : v ≤ 0 := by simpa using hnp
        simp only [le_num_num, decide_eq_true_eq]
        linarith
      | nan => rw [hr] at hnp; simp at hnp
      | pinf => rw [hr] at hnp; simp at hnp
      | ninf => rfl
      | nzero => simpa using hg0
    · have hle : |g| ≤ round_mag |q| :=
        le_round_mag |q| |g| (abs_pos.mpr hgneg.ne)
          (by rw [abs_of_neg hneg, abs_of_neg hgneg]; linarith) hgrid
      have hgp : 0 < |g| := abs_pos.mpr hgneg.ne
      unfold round64
      rw [if_neg hneg.ne]
      simp only [not_lt.mpr hneg.le, if_false]
      split_ifs with ha hb
      · rfl
      · rw [hb] at hle
        exact absurd hle (not_le.mpr hgp)
      · rw [abs_of_neg hgneg] at hle
        simp only [le_num_num, decide_eq_true_eq]
        linarith
  · rw [h0, round64_zero]
    simpa [h0] using h
  · have hgpos : 0 < g := lt_of_lt_of_le hpos h
    have hle : round_mag q ≤ g := by
      have := round_mag_le q |g| hpos (by rwa [abs_of_pos hgpos]) hgrid
      rwa [abs_of_pos hgpos] at this
    have hlt : round_mag q < 2 ^ 1024 := by
      rw [abs_of_pos hgpos] at hglt
      exact lt_of_le_of_lt hle hglt
    unfold round64
    rw [if_neg hpos.ne', abs_of_pos hpos, if_neg (not_le.mpr hlt)]
    simp only [hpos, if_true]
    split_ifs
    · simpa using hgpos.le
    · simpa using hle

/-- A number from `2 ^ 1024` on overflows to infinity. -/
theorem round64_overflow (q : ℚ) (h : 2 ^ 1024 ≤ q) : round64 q = Dbl.pinf := by
  have hpos : 0 < q := lt_of_lt_of_le (by positivity) h
  have hgrid : on_grid ((2 : ℚ) ^ (1024 : ℕ)) := by
    refine ⟨2 ^ 52, ?_⟩
    have hu : ulp_exp ((2 : ℚ) ^ (1024 : ℕ)) = 972 :=
      ulp_exp_eq _ 972 (by norm_num) (by positivity) (Or.inr (by norm_num)) (by norm_num)
    rw [hu]
    norm_num
  have := le_round_mag q (2 ^ 1024) (by positivity) h hgrid
  unfold round64
  rw [if_neg hpos.ne', abs_of_pos hpos, if_pos this, if_pos hpos]

/-! ## The rounding error -/

/-- The distance between a number and a finite result of its rounding is at
most half a unit in the last place. -/
theorem round64_err (q : ℚ) (hf : is_finite (round64 q) = true) :
    |toRat (round64 q) - q| ≤ 2 ^ ulp_exp q / 2 := by
  by_cases hq : q = 0
  · subst hq
    rw [round64_zero]
    simp only [toRat, sub_zero, abs_zero]
    positivity
  · have h := abs_round_mag_sub |q|
    rw [ulp_exp_abs] at h
    have hval : toRat (round64 q) = if 0 < q then round_mag |q| else -round_mag |q| := by
      unfold round64 at hf ⊢
      rw [if_neg hq] at hf ⊢
      split_ifs at hf ⊢ <;> simp_all [is_finite, toRat]
    rw [hval]
    rcases lt_or_gt_of_ne hq with hneg | hpos
    · rw [if_neg (not_lt.mpr hneg.le)]
      rw [abs_of_neg hneg] at h ⊢
      have e : -round_mag (-q) - q = -(round_mag (-q) - -q) := by ring
      rw [e, abs_neg]
      exact h
    · rw [if_pos hpos]
      rw [abs_of_pos hpos] at h ⊢
      exact h

/-- In the normal range the rounding error is at most `2 ^ (-53)` times the
number. -/
theorem round64_rel_err (q : ℚ) (hf : is_finite (round64 q) = true)
    (hn : (2 : ℚ) ^ (-1022 : ℤ) ≤ |q|) :
    |toRat (round64 q) - q| ≤ 1 / 2 ^ 53 * |q| := by
  have hpos : 0 < |q| := lt_of_lt_of_le (zpow_two_pos _) hn
  have hq : q ≠ 0 := abs_pos.mp hpos
  have hb : -1022 ≤ binade q := by
    have := le_binade |q| (-1022) hpos hn
    rwa [binade_abs] at this
  have hu : ulp_exp q = binade q - 52 := by
    unfold ulp_exp
    omega
  have h := round64_err q hf
  have hs := (binade_spec q hq).1
  have e : (2 : ℚ) ^ ulp_exp q / 2 = 1 / 2 ^ 53 * 2 ^ binade q := by
    rw [hu, zpow_sub₀ (by norm_num)]
    norm_num
    ring
  rw [e] at h
  calc |toRat (round64 q) - q| ≤ 1 / 2 ^ 53 * 2 ^ binade q := h
    _ ≤ 1 / 2 ^ 53 * |q| := mul_le_mul_of_nonneg_left hs (by positivity)

/-- The rounding error is at most `2 ^ (-53)` times the number, plus
`2 ^ (-1075)` for a number of the subnormal range. -/
theorem round64_abs_err (q : ℚ) (hf : is_finite (round64 q) = true) :
    |toRat (round64 q) - q| ≤ 1 / 2 ^ 53 * |q| + 2 ^ (-1075 : ℤ) := by
  by_cases hn : (2 : ℚ) ^ (-1022 : ℤ) ≤ |q|
  · exact le_trans (round64_rel_err q hf hn) (le_add_of_nonneg_right (zpow_two_pos _).le)
  · by_cases hq : q = 0
    · subst hq
      rw [round64_zero]
      simp only [toRat, sub_zero, abs_zero]
      positivity
    · have h := round64_err q hf
      have hu : ulp_exp q = -1074 := by
        have hb := binade_lt |q| (-1022) (abs_pos.mpr hq) (not_le.mp hn)
        rw [binade_abs] at hb
        unfold ulp_exp
        omega
      have e : (2 : ℚ) ^ ulp_exp q / 2 = 2 ^ (-1075 : ℤ) := by
        rw [hu, show (-1075 : ℤ) = -1074 - 1 by norm_num, zpow_sub₀ (by norm_num)]
        norm_num
      rw [e] at h
      have h0 : (0 : ℚ) ≤ 1 / 2 ^ 53 * |q| := by positivity
      exact le_trans h (le_add_of_nonneg_left h0)

/-- A number below `2 ^ 1024 - 2 ^ 970` does not overflow. -/
theorem round64_ne_pinf (q : ℚ) (h : q < 2 ^ (1024 : ℤ) - 2 ^ (970 : ℤ)) :
    round64 q ≠ Dbl.pinf := by
  intro hinf
  rcases le_or_lt q 0 with hq | hpos
  · have := round64_nonpos q hq
    rw [hinf] at this
    simp at this
  · have h1024 : q < 2 ^ (1024 : ℤ) := by
      have : (0 : ℚ) < 2 ^ (970 : ℤ) := zpow_two_pos _
      linarith
    have hb := binade_lt q 1024 hpos h1024
    have hu : ulp_exp q ≤ 971 := by
      unfold ulp_exp
      omega
    have herr := abs_round_mag_sub q
    have hhalf : (2 : ℚ) ^ ulp_exp q / 2 ≤ 2 ^ (970 : ℤ) := by
      have : (2 : ℚ) ^ ulp_exp q ≤ 2 ^ (971 : ℤ) := zpow_le_zpow_right₀ (by norm_num) hu
      have e : (2 : ℚ) ^ (971 : ℤ) = 2 * 2 ^ (970 : ℤ) := by
        rw [show (971 : ℤ) = 1 + 970 by norm_num, zpow_add₀ (by norm_num)]
        norm_num
      linarith
    have hbig : (2 : ℚ) ^ (1024 : ℤ) ≤ round_mag q := by
      unfold round64 at hinf
      rw [if_neg hpos.ne', abs_of_pos hpos] at hinf
      simp only [hpos, if_true] at hinf
      split_ifs at hinf with ha
      rw [← zpow_natCast] at ha
      exact ha
    have := (abs_le.mp herr).2
    linarith

/-- A finite double is at most `2 ^ 1024 - 2 ^ 971`. -/
theorem double_le_max (x : ℚ) (hx : round64 x = Dbl.num x) :
    |x| ≤ 2 ^ (1024 : ℤ) - 2 ^ (971 : ℤ) := by
  obtain ⟨⟨m, hm⟩, hlt⟩ := abs_eq_of_round64 x hx
  rw [ulp_exp_abs] at hm
  have e1 : (2 : ℚ) ^ (1024 : ℤ) = 2 * 2 ^ (1023 : ℤ) := by
    rw [show (1024 : ℤ) = 1 + 1023 by norm_num, zpow_add₀ (by norm_num)]
    norm_num
  have e2 : (2 : ℚ) ^ (971 : ℤ) ≤ 2 ^ (1023 : ℤ) :=
    zpow_le_zpow_right₀ (by norm_num) (by norm_num)
  rcases lt_or_le |x| (2 ^ (1023 : ℤ)) with hs | hl
  · linarith
  · have hpos : 0 < |x| := lt_of_lt_of_le (zpow_two_pos _) hl
    have hlt' : |x| < 2 ^ (1024 : ℤ) := by
      rw [← zpow_natCast] at hlt
      exact hlt
    have hb1 := le_binade |x| 1023 hpos hl
    have hb2 := binade_lt |x| 1024 hpos hlt'
    rw [binade_abs] at hb1 hb2
    have hu : ulp_exp x = 971 := by
      unfold ulp_exp
      omega
    rw [hu] at hm
    have hp := zpow_two_pos 971
    have hmlt : (m : ℚ) < 2 ^ (53 : ℕ) := by
      have e3 : (2 : ℚ) ^ (1024 : ℤ) = 2 ^ (53 : ℕ) * 2 ^ (971 : ℤ) := by
        rw [show ((2 : ℚ) ^ (53 : ℕ)) = (2 : ℚ) ^ (53 : ℤ) by norm_cast,
          ← zpow_add₀ (by norm_num)]
        norm_num
      rw [hm, e3] at hlt'
      exact lt_of_mul_lt_mul_right hlt' hp.le
    have hmle : m ≤ 2 ^ (53 : ℕ) - 1 := by
      have : m < 2 ^ (53 : ℕ) := by exact_mod_cast hmlt
      omega
    have hmle' : (m : ℚ) ≤ 2 ^ (53 : ℕ) - 1 := by exact_mod_cast hmle
    have e3 : (2 : ℚ) ^ (1024 : ℤ) = 2 ^ (53 : ℕ) * 2 ^ (971 : ℤ) := by
      rw [show ((2 : ℚ) ^ (53 : ℕ)) = (2 : ℚ) ^ (53 : ℤ) by norm_cast,
        ← zpow_add₀ (by norm_num)]
      norm_num
    rw [hm, e3]
    have := mul_le_mul_of_nonneg_right hmle' hp.le
    linarith

/-! ## The operations at special values and at numbers -/

theorem le_eq_false_of_lt (x y : Dbl) (h : lt x y = true) : le y x = false := by
  cases x <;> cases y <;> simp_all

theorem finite_cases (x : Dbl) (h : is_finite x = true) :
    x = Dbl.nzero ∨ ∃ v, x = Dbl.num v := by
  cases x with
  | num v => exact Or.inr ⟨v, rfl⟩
  | nzero => exact Or.inl rfl
  | _ => simp [is_finite] at h

theorem finite_of_le_le (W : Dbl) (a b : ℚ) (h1 : le (Dbl.num a) W = true)
    (h2 : le W (Dbl.num b) = true) : is_finite W = true := by
  cases W with
  | num w => rfl
  | nzero => rfl
  | nan => simp at h1
  | pinf => simp at h2
  | ninf => simp at h1

theorem round64_nonneg_cases (q : ℚ) (hq : 0 ≤ q) :
    round64 q = Dbl.pinf ∨ ∃ v, round64 q = Dbl.num v ∧ 0 ≤ v := by
  rcases eq_or_lt_of_le hq with h0 | hpos
  · exact Or.inr ⟨0, by rw [← h0, round64_zero], le_refl _⟩
  · unfold round64
    rw [if_neg hpos.ne', abs_of_pos hpos]
    simp only [hpos, if_true]
    split_ifs
    · exact Or.inl rfl
    · exact Or.inr ⟨0, rfl, le_refl _⟩
    · exact Or.inr ⟨_, rfl, round_mag_nonneg q hpos.le⟩

/-- A finite rounding of a positive number is a number that is not negative. -/
theorem round64_pos_finite (q : ℚ) (hq : 0 ≤ q) (hf : round64 q ≠ Dbl.pinf) :
    round64 q = Dbl.num (toRat (round64 q)) ∧ is_finite (round64 q) = true ∧
      0 ≤ toRat (round64 q) := by
  rcases round64_nonneg_cases q hq with h | ⟨v, hv, hv0⟩
  · exact absurd h hf
  · rw [hv]
    exact ⟨rfl, rfl, hv0⟩

theorem add_one_eq_nan (y : Dbl) : add (Dbl.num 1) y = Dbl.nan ↔ y = Dbl.nan := by
  cases y <;> simp [add, is_nan, is_inf, toRat, sign_bit, round64_ne_nan]

theorem add_num_eq_nan (x : Dbl) (c : ℚ) : add x (Dbl.num c) = Dbl.nan ↔ x = Dbl.nan := by
  cases x <;> simp [add, is_nan, is_inf, toRat, sign_bit, round64_ne_nan, zero_of]
  all_goals split_ifs <;> simp [round64_ne_nan]

theorem div_num_eq_nan (k : ℚ) (hk : k ≠ 0) (d : Dbl) :
    div (Dbl.num k) d = Dbl.nan ↔ d = Dbl.nan := by
  cases d with
  | num q =>
    by_cases hq : q = 0
    · simp [div, is_nan, is_inf, toRat, hq, hk, inf_of]
      split_ifs <;> simp
    · simp [div, is_nan, is_inf, toRat, hq, hk, round64_ne_nan]
  | nan => simp [div, is_nan]
  | pinf => simp [div, is_nan, is_inf, zero_of]; split_ifs <;> simp
  | ninf => simp [div, is_nan, is_inf, zero_of]; split_ifs <;> simp
  | nzero => simp [div, is_nan, is_inf, toRat, hk, inf_of]; split_ifs <;> simp

theorem mul_zero_left (z : Dbl) (hz : z = Dbl.nzero ∨ z = Dbl.num 0) (y : Dbl)
    (hy : is_finite y = true) :
    mul z y = Dbl.nzero ∨ mul z y = Dbl.num 0 := by
  rcases finite_cases y hy with rfl | ⟨a, rfl⟩ <;> rcases hz with rfl | rfl
  all_goals
    simp only [mul, is_nan, is_inf, toRat, mul_zero, zero_mul, Bool.or_self,
      Bool.false_eq_true, if_false, if_true, zero_of]
    split_ifs <;> simp

theorem is_finite_zero (z : Dbl) (hz : z = Dbl.nzero ∨ z = Dbl.num 0) : is_finite z = true := by
  rcases hz with rfl | rfl <;> rfl

theorem mul_nan_right (x : Dbl) : mul x Dbl.nan = Dbl.nan := by
  cases x <;> simp [mul, is_nan]

theorem add_nan_right (x : Dbl) : add x Dbl.nan = Dbl.nan := by
  cases x <;> simp [add, is_nan]

theorem add_num_pinf (b : ℚ) : add (Dbl.num b) Dbl.pinf = Dbl.pinf := by
  simp [add, is_nan, is_inf]

theorem div_num_num (a b : ℚ) (ha : a ≠ 0) (hb : b ≠ 0) :
    div (Dbl.num a) (Dbl.num b) = round64 (a / b) := by
  simp [div, is_nan, is_inf, toRat, ha, hb]

theorem add_num_num (a b : ℚ) (ha : a ≠ 0) :
    add (Dbl.num a) (Dbl.num b) = round64 (a + b) := by
  simp [add, is_nan, is_inf, toRat, ha]

theorem sub_num_num (a b : ℚ) (ha : a ≠ 0) (hb : b ≠ 0) :
    sub (Dbl.num a) (Dbl.num b) = round64 (a + -b) := by
  simp [sub, add, neg, is_nan, is_inf, toRat, ha, hb]

theorem add_one_finite (W : Dbl) (hW : is_finite W = true) :
    add (Dbl.num 1) W = round64 (1 + toRat W) := by
  rcases finite_cases W hW with rfl | ⟨w, rfl⟩
  · simp [add, is_nan, is_inf, toRat]
  · simp [add, is_nan, is_inf, toRat]

/-! ## Evaluation of the rounding at given numbers -/

/-- The double nearest to a positive number of the normal range, in lowest
terms. -/
theorem round64_eval (q c : ℚ) (k m : ℤ) (hk : -1022 ≤ k) (h1 : (2 : ℚ) ^ k ≤ q)
    (h2 : q < 2 ^ (k + 1)) (hm : |q / 2 ^ (k - 52) - m| < 1 / 2)
    (hlt : (m : ℚ) * 2 ^ (k - 52) < 2 ^ 1024) (hc : (m : ℚ) * 2 ^ (k - 52) = c) :
    round64 q = Dbl.num c := by
  rw [round64_eq q k m hk h1 h2 hm hlt, hc]

/-- The powers of two of the normal range are doubles. -/
theorem round64_two_zpow (k : ℤ) (h1 : -1022 ≤ k) (h2 : k ≤ 1023) :
    round64 (2 ^ k) = Dbl.num (2 ^ k) := by
  have hlt : (2 : ℚ) ^ k < 2 ^ (k + 1) := zpow_lt_zpow_right₀ (by norm_num) (by omega)
  have he : ((2 ^ 52 : ℤ) : ℚ) * 2 ^ (k - 52) = 2 ^ k := by
    rw [show (((2 ^ 52 : ℤ)) : ℚ) = (2 : ℚ) ^ (52 : ℤ) by norm_num, ← zpow_add₀ (by norm_num)]
    congr 1
    omega
  have h := round64_eq (2 ^ k) k (2 ^ 52) h1 (le_refl _) hlt
    (by
      have : (2 : ℚ) ^ k / 2 ^ (k - 52) = ((2 ^ 52 : ℤ) : ℚ) := by
        rw [div_eq_iff (zpow_two_pos _).ne', he]
      rw [this, sub_self, abs_zero]
      norm_num)
    (by
      rw [he]
      calc (2 : ℚ) ^ k ≤ 2 ^ (1023 : ℤ) := zpow_le_zpow_right₀ (by norm_num) h2
        _ < 2 ^ 1024 := by norm_num)
  rw [h, he]

theorem is_double_one : is_double (Dbl.num 1) := by
  have h := round64_eq 1 0 (2 ^ 52) (by norm_num) (by norm_num) (by norm_num) (by norm_num)
    (by norm_num)
  simp only [is_double]
  rw [h]
  norm_num

theorem is_double_two : is_double (Dbl.num 2) := by
  have := round64_two_zpow 1 (by norm_num) (by norm_num)
  simp only [is_double]
  norm_num at this ⊢
  exact this

theorem is_double_sub (x y : Dbl) (hx : is_double x) (hy : is_double y) :
    is_double (sub x y) :=
  is_double_add _ _ hx (is_double_neg _ hy)

/-! ## The analytic step on doubles -/

/-- Above the capacity guard, `logistic_step` is the two final `if`
statements applied to the quotient. -/
theorem logistic_step_of_lt (exp : Dbl → Dbl) (B r0 P K : Dbl) (hK : lt eps K = true) :
    logistic_step exp B r0 P K
      = clamp_ifs (div K (add (Dbl.num 1)
          (mul (sub (div K (if lt B eps then eps else B)) (Dbl.num 1))
            (exp (mul (neg (mul r0 (exp P))) (Dbl.num 1)))))) := by
  unfold logistic_step
  rw [le_eq_false_of_lt _ _ hK]
  rfl

/-- The two final `if` statements let NaN through and put every other value
into `[0, 1]`. -/
theorem clamp_ifs_spec (v : Dbl) :
    (clamp_ifs v = Dbl.nan ↔ v = Dbl.nan) ∧
    (v ≠ Dbl.nan → le (Dbl.num 0) (clamp_ifs v) = true ∧ le (clamp_ifs v) (Dbl.num 1) = true) := by
  cases v with
  | num q =>
    refine ⟨by unfold clamp_ifs; split_ifs <;> simp, fun _ => ?_⟩
    unfold clamp_ifs
    by_cases h0 : q < 0
    · norm_num [h0]
    · by_cases h1 : 1 < q
      · norm_num [h0, h1]
      · norm_num [h0, h1]
        exact ⟨not_lt.mp h0, not_lt.mp h1⟩
  | nan => simp [clamp_ifs]
  | pinf =>
    have e : clamp_ifs Dbl.pinf = Dbl.num 1 := by norm_num [clamp_ifs]
    rw [e]
    simp
  | ninf =>
    have e : clamp_ifs Dbl.ninf = Dbl.num 0 := by norm_num [clamp_ifs]
    rw [e]
    simp
  | nzero =>
    have e : clamp_ifs Dbl.nzero = Dbl.nzero := by norm_num [clamp_ifs]
    rw [e]
    simp

/-- Above the capacity guard with a finite `K`, `logistic_step(B, r0, P, K)`,
computed on doubles, lies in `[0, 1]` unless it is NaN, and it is NaN exactly
when the product `(K / Bsafe - 1) * exp(-r * 1.0)` is NaN (`r = r0 * exp(P)`,
`Bsafe = B < eps ? eps : B`), that is, when an operand of the product is NaN
or the product is `0 * inf`. -/
theorem logistic_step_nan_iff (exp : Dbl → Dbl) (B r0 P K : Dbl)
    (hK : lt eps K = true) (hfin : is_finite K = true) :
    (logistic_step exp B r0 P K = Dbl.nan ↔
      mul (sub (div K (if lt B eps then eps else B)) (Dbl.num 1))
        (exp (mul (neg (mul r0 (exp P))) (Dbl.num 1))) = Dbl.nan) ∧
    (logistic_step exp B r0 P K ≠ Dbl.nan →
      le (Dbl.num 0) (logistic_step exp B r0 P K) = true ∧
      le (logistic_step exp B r0 P K) (Dbl.num 1) = true) := by
  rw [logistic_step_of_lt exp B r0 P K hK]
  obtain ⟨k, rfl, hk⟩ : ∃ k, K = Dbl.num k ∧ k ≠ 0 := by
    cases K with
    | num k =>
      refine ⟨k, rfl, ?_⟩
      intro h0
      rw [h0, eps_eq] at hK
      simp only [lt, toRat, decide_eq_true_eq] at hK
      norm_num at hK
    | nzero =>
      rw [eps_eq] at hK
      simp only [lt, toRat, decide_eq_true_eq] at hK
      norm_num at hK
    | _ => simp [is_finite] at hfin
  constructor
  · rw [(clamp_ifs_spec _).1, div_num_eq_nan k hk, add_one_eq_nan]
  · intro h
    exact (clamp_ifs_spec _).2 (fun h0 => h (by rw [h0]; exact (clamp_ifs_spec _).1.mpr rfl))

/-- C1 fails on the code: the clamp of `logistic_step` misses NaN.  For
`B = 0.5` in `[0, 1]`, `K = 2 > 1e-12`, `r0 = 0` and `P = 1000`, `exp(P)`
overflows to infinity and the rate `r0 * exp(P)` is `0 * inf`, which is NaN;
the two final `if` statements, which the source comments as the clamp of the
NDVI into `[0, 1]`, are both false on NaN, and the step returns NaN, which is
neither at least 0 nor at most 1.  The guard branch of the same function
clamps with `fmin(1.0, fmax(0.0, .))`, which sends NaN to 0 (last conjunct). -/
theorem logistic_step_returns_nan :
    le (Dbl.num 0) (Dbl.num (1 / 2)) = true ∧ le (Dbl.num (1 / 2)) (Dbl.num 1) = true ∧
    lt eps (Dbl.num 2) = true ∧
    logistic_step (exp64 exp_series) (Dbl.num (1 / 2)) (Dbl.num 0) (Dbl.num 1000) (Dbl.num 2)
      = Dbl.nan ∧
    le (Dbl.num 0) (logistic_step (exp64 exp_series) (Dbl.num (1 / 2)) (Dbl.num 0)
      (Dbl.num 1000) (Dbl.num 2)) = false ∧
    le (logistic_step (exp64 exp_series) (Dbl.num (1 / 2)) (Dbl.num 0)
      (Dbl.num 1000) (Dbl.num 2)) (Dbl.num 1) = false ∧
    fmin (Dbl.num 1) (fmax (Dbl.num 0) Dbl.nan) = Dbl.num 0 := by
  have hK : lt eps (Dbl.num 2) = true := by
    rw [eps_eq]
    simp only [lt, toRat, decide_eq_true_eq]
    norm_num
  have hr : mul (Dbl.num 0) (exp64 exp_series (Dbl.num 1000)) = Dbl.nan := by
    rw [exp64_overflow _ _ (by norm_num)]
    simp [mul, is_nan, is_inf, is_finite, toRat]
  have hv : logistic_step (exp64 exp_series) (Dbl.num (1 / 2)) (Dbl.num 0) (Dbl.num 1000)
      (Dbl.num 2) = Dbl.nan := by
    rw [logistic_step_of_lt _ _ _ _ _ hK, hr]
    have h1 : mul (neg Dbl.nan) (Dbl.num 1) = Dbl.nan := by simp [mul, neg, is_nan]
    have h2 : ∀ x, mul x (exp64 exp_series Dbl.nan) = Dbl.nan := by
      intro x
      cases x <;> simp [mul, exp64, is_nan]
    have h3 : add (Dbl.num 1) Dbl.nan = Dbl.nan := by simp [add, is_nan]
    have h4 : div (Dbl.num 2) Dbl.nan = Dbl.nan := by simp [div, is_nan]
    rw [h1, h2, h3, h4]
    simp [clamp_ifs, lt]
  refine ⟨?_, ?_, hK, hv, ?_, ?_, ?_⟩
  · simp only [le, toRat, decide_eq_true_eq]; norm_num
  · simp only [le, toRat, decide_eq_true_eq]; norm_num
  · rw [hv]; rfl
  · rw [hv]; rfl
  · norm_num [fmax, fmin, is_nan]

/-! ## The analytic step at rate zero -/

/-- With `r0 = 0` and a finite `exp(P)`, the factor `exp(-r * 1.0)` is 1. -/
theorem factor_zero_rate (exp : Dbl → Dbl) (P : Dbl) (hexp0 : exp (Dbl.num 0) = Dbl.num 1)
    (hexpn : exp Dbl.nzero = Dbl.num 1) (hP : is_finite (exp P) = true) :
    exp (mul (neg (mul (Dbl.num 0) (exp P))) (Dbl.num 1)) = Dbl.num 1 := by
  have hz := mul_zero_left (Dbl.num 0) (Or.inr rfl) (exp P) hP
  rcases hz with h | h <;> rw [h]
  · have : mul (neg Dbl.nzero) (Dbl.num 1) = Dbl.num 0 := by
      simp [mul, neg, is_nan, is_inf, toRat, sign_bit, zero_of]
    rw [this, hexp0]
  · have : mul (neg (Dbl.num 0)) (Dbl.num 1) = Dbl.nzero := by
      simp [mul, neg, is_nan, is_inf, toRat, sign_bit, zero_of]
    rw [this, hexpn]

/-- With `r0 = 0` and a finite `exp(P)`, above the capacity guard, the step is
the two final `if` statements applied to `K / (1 + (K / Bsafe - 1))`. -/
theorem logistic_step_zero_rate_eq (exp : Dbl → Dbl) (B P K : Dbl)
    (hexp0 : exp (Dbl.num 0) = Dbl.num 1) (hexpn : exp Dbl.nzero = Dbl.num 1)
    (hP : is_finite (exp P) = true) (hK : lt eps K = true) :
    logistic_step exp B (Dbl.num 0) P K
      = clamp_ifs (div K (add (Dbl.num 1)
          (sub (div K (if lt B eps then eps else B)) (Dbl.num 1)))) := by
  rw [logistic_step_of_lt exp B (Dbl.num 0) P K hK, factor_zero_rate exp P hexp0 hexpn hP,
    mul_one_exact _ (is_double_sub _ _ (is_double_div _ _) is_double_one)]

theorem clamp_ifs_num (z : ℚ) (h0 : 0 ≤ z) (h1 : z ≤ 1) : clamp_ifs (Dbl.num z) = Dbl.num z := by
  have a : ¬ z < 0 := not_lt.mpr h0
  have b : ¬ 1 < z := not_lt.mpr h1
  simp [clamp_ifs, a, b]

theorem lt_eps_one : lt eps (Dbl.num 1) = true := by
  rw [eps_eq]; norm_num

theorem exp64_zero_finite (o : ℚ → Dbl) : is_finite (exp64 o (Dbl.num 0)) = true := by
  rw [exp64_zero]; rfl

/-- At `B = 0`, `r0 = 0`, `P = 0`, `K = 1` the step returns `eps`. -/
theorem logistic_step_at_zero :
    logistic_step (exp64 exp_series) (Dbl.num 0) (Dbl.num 0) (Dbl.num 0) (Dbl.num 1)
      = Dbl.num (4951760157141521 / 2 ^ 92) := by
  rw [logistic_step_zero_rate_eq _ _ _ _ (exp64_zero _) (exp64_nzero _) (exp64_zero_finite _)
    lt_eps_one]
  have e0 : (if lt (Dbl.num 0) eps then eps else Dbl.num 0) = eps := by
    rw [eps_eq]; norm_num
  rw [e0, eps_eq]
  have hx : div (Dbl.num 1) (Dbl.num (4951760157141521 / 2 ^ 92))
      = Dbl.num (8192000000000000 / 2 ^ 13) := by
    rw [div_num_num _ _ (by norm_num) (by norm_num)]
    exact round64_eval _ _ 39 8192000000000000 (by norm_num) (by norm_num) (by norm_num)
      (by rw [abs_lt]; constructor <;> norm_num) (by norm_num) (by norm_num)
  have hw : sub (Dbl.num (8192000000000000 / 2 ^ 13)) (Dbl.num 1)
      = Dbl.num (8191999999991808 / 2 ^ 13) := by
    rw [sub_num_num _ _ (by norm_num) (by norm_num)]
    exact round64_eval _ _ 39 8191999999991808 (by norm_num) (by norm_num) (by norm_num)
      (by rw [abs_lt]; constructor <;> norm_num) (by norm_num) (by norm_num)
  have hy : add (Dbl.num 1) (Dbl.num (8191999999991808 / 2 ^ 13))
      = Dbl.num (8192000000000000 / 2 ^ 13) := by
    rw [add_num_num _ _ (by norm_num)]
    exact round64_eval _ _ 39 8192000000000000 (by norm_num) (by norm_num) (by norm_num)
      (by rw [abs_lt]; constructor <;> norm_num) (by norm_num) (by norm_num)
  have hz : div (Dbl.num 1) (Dbl.num (8192000000000000 / 2 ^ 13))
      = Dbl.num (4951760157141521 / 2 ^ 92) := by
    rw [div_num_num _ _ (by norm_num) (by norm_num)]
    exact round64_eval _ _ (-40) 4951760157141521 (by norm_num) (by norm_num) (by norm_num)
      (by rw [abs_lt]; constructor <;> norm_num) (by norm_num) (by norm_num)
  rw [hx, hw, hy, hz, clamp_ifs_num _ (by norm_num) (by norm_num)]

theorem lt_eps_seven_eighths : lt eps (Dbl.num (7 / 8)) = true := by
  rw [eps_eq]; norm_num

/-- At `B = 25/64`, `r0 = 0`, `P = 0`, `K = 7/8` the step returns the double
below `B`. -/
theorem logistic_step_at_ulp :
    logistic_step (exp64 exp_series) (Dbl.num (25 / 64)) (Dbl.num 0) (Dbl.num 0)
      (Dbl.num (7 / 8)) = Dbl.num (7036874417766399 / 2 ^ 54) := by
  rw [logistic_step_zero_rate_eq _ _ _ _ (exp64_zero _) (exp64_nzero _) (exp64_zero_finite _)
    lt_eps_seven_eighths]
  have e0 : (if lt (Dbl.num (25 / 64)) eps then eps else Dbl.num (25 / 64))
      = Dbl.num (25 / 64) := by
    rw [eps_eq]; norm_num
  rw [e0]
  have hx : div (Dbl.num (7 / 8)) (Dbl.num (25 / 64))
      = Dbl.num (5044031582654956 / 2 ^ 51) := by
    rw [div_num_num _ _ (by norm_num) (by norm_num)]
    exact round64_eval _ _ 1 5044031582654956 (by norm_num) (by norm_num) (by norm_num)
      (by rw [abs_lt]; constructor <;> norm_num) (by norm_num) (by norm_num)
  have hw : sub (Dbl.num (5044031582654956 / 2 ^ 51)) (Dbl.num 1)
      = Dbl.num (5584463537939416 / 2 ^ 52) := by
    rw [sub_num_num _ _ (by norm_num) (by norm_num)]
    exact round64_eval _ _ 0 5584463537939416 (by norm_num) (by norm_num) (by norm_num)
      (by rw [abs_lt]; constructor <;> norm_num) (by norm_num) (by norm_num)
  have hy : add (Dbl.num 1) (Dbl.num (5584463537939416 / 2 ^ 52))
      = Dbl.num (5044031582654956 / 2 ^ 51) := by
    rw [add_num_num _ _ (by norm_num)]
    exact round64_eval _ _ 1 5044031582654956 (by norm_num) (by norm_num) (by norm_num)
      (by rw [abs_lt]; constructor <;> norm_num) (by norm_num) (by norm_num)
  have hz : div (Dbl.num (7 / 8)) (Dbl.num (5044031582654956 / 2 ^ 51))
      = Dbl.num (7036874417766399 / 2 ^ 54) := by
    rw [div_num_num _ _ (by norm_num) (by norm_num)]
    exact round64_eval _ _ (-2) 7036874417766399 (by norm_num) (by norm_num) (by norm_num)
      (by rw [abs_lt]; constructor <;> norm_num) (by norm_num) (by norm_num)
  rw [hx, hw, hy, hz, clamp_ifs_num _ (by norm_num) (by norm_num)]

/-- At `B = 0.5`, `r0 = 0`, `P = 1000`, `K = 1` the step is NaN. -/
theorem logistic_step_at_overflowing_exp :
    logistic_step (exp64 exp_series) (Dbl.num (1 / 2)) (Dbl.num 0) (Dbl.num 1000) (Dbl.num 1)
      = Dbl.nan := by
  rw [logistic_step_of_lt _ _ _ _ _ lt_eps_one, exp64_overflow _ _ (by norm_num)]
  have hr : mul (Dbl.num 0) Dbl.pinf = Dbl.nan := by
    simp [mul, is_nan, is_inf, is_finite, toRat]
  have hn : mul (neg Dbl.nan) (Dbl.num 1) = Dbl.nan := by simp [mul, neg, is_nan]
  have hd : div (Dbl.num 1) Dbl.nan = Dbl.nan := by simp [div, is_nan]
  rw [hr, hn, exp64_nan, mul_nan_right, add_nan_right, hd]
  simp [clamp_ifs]

theorem lt_eps_big : lt eps (Dbl.num (2 ^ (1000 : ℤ))) = true := by
  have hbig : (1 : ℚ) ≤ 2 ^ (1000 : ℤ) := one_le_zpow₀ (by norm_num) (by norm_num)
  have hsmall : (4951760157141521 / 2 ^ 92 : ℚ) < 1 := by norm_num
  rw [eps_eq]
  simp only [lt_num_num, decide_eq_true_eq]
  exact lt_of_lt_of_le hsmall hbig

/-- At `B = 2 ^ (-30)`, `r0 = 0`, `P = 0`, `K = 2 ^ 1000` the step returns 0. -/
theorem logistic_step_at_overflowing_quotient :
    logistic_step (exp64 exp_series) (Dbl.num (2 ^ (-30 : ℤ))) (Dbl.num 0) (Dbl.num 0)
      (Dbl.num (2 ^ (1000 : ℤ))) = Dbl.num 0 := by
  rw [logistic_step_zero_rate_eq _ _ _ _ (exp64_zero _) (exp64_nzero _) (exp64_zero_finite _)
    lt_eps_big]
  have hsmall : (4951760157141521 / 2 ^ 92 : ℚ) < 2 ^ (-30 : ℤ) := by
    rw [show (2 : ℚ) ^ (-30 : ℤ) = 1 / 2 ^ 30 by rw [zpow_neg, one_div]; norm_cast]
    norm_num
  have e0 : (if lt (Dbl.num (2 ^ (-30 : ℤ))) eps then eps else Dbl.num (2 ^ (-30 : ℤ)))
      = Dbl.num (2 ^ (-30 : ℤ)) := by
    rw [eps_eq]
    simp only [lt_num_num, decide_eq_true_eq, not_lt.mpr hsmall.le, if_false]
  rw [e0]
  have hq : (2 : ℚ) ^ (1000 : ℤ) / 2 ^ (-30 : ℤ) = 2 ^ (1030 : ℤ) := by
    rw [← zpow_sub₀ (by norm_num)]
    rfl
  have hx : div (Dbl.num (2 ^ (1000 : ℤ))) (Dbl.num (2 ^ (-30 : ℤ))) = Dbl.pinf := by
    have a1 : (2 : ℚ) ^ (1000 : ℤ) ≠ 0 := (zpow_two_pos _).ne'
    have a2 : (2 : ℚ) ^ (-30 : ℤ) ≠ 0 := (zpow_two_pos _).ne'
    simp only [div, is_nan, is_inf, toRat, Bool.or_self, Bool.false_eq_true, if_false, a1, a2,
      hq]
    apply round64_overflow
    rw [← zpow_natCast]
    exact zpow_le_zpow_right₀ (by norm_num) (by norm_num)
  have hw : sub Dbl.pinf (Dbl.num 1) = Dbl.pinf := by
    simp [sub, add, neg, is_nan, is_inf]
  have hy : add (Dbl.num 1) Dbl.pinf = Dbl.pinf := add_num_pinf 1
  have hz : div (Dbl.num (2 ^ (1000 : ℤ))) Dbl.pinf = Dbl.num 0 := by
    have a1 : ¬ (2 : ℚ) ^ (1000 : ℤ) < 0 := not_lt.mpr (zpow_two_pos _).le
    simp only [div, is_nan, is_inf, sign_bit, a1, Bool.or_self, Bool.false_eq_true, if_false,
      if_true, decide_False, Bool.xor_false, zero_of]
  rw [hx, hw, hy, hz, clamp_ifs_num _ (le_refl _) (by norm_num)]

/-! ## The error of the analytic step at rate zero -/

/-- The error of `1 + (x - 1)` after the roundings of `x`, of the difference
and of nothing else. -/
theorem zero_rate_sum_bound (u η X0 x w : ℚ) (hu0 : 0 ≤ u) (hu1 : u ≤ 1) (hη : η ≤ u)
    (hX : 0 < X0) (h1 : |x - X0| ≤ u * X0) (h2 : |w - (x + -1)| ≤ u * |x + -1| + η) :
    X0 - (3 * u * X0 + 2 * u) ≤ 1 + w ∧ 1 + w ≤ X0 + (3 * u * X0 + 2 * u) := by
  have ha : 0 ≤ u * X0 := mul_nonneg hu0 hX.le
  have hb : u * (u * X0) ≤ u * X0 := by
    calc u * (u * X0) ≤ 1 * (u * X0) := mul_le_mul_of_nonneg_right hu1 ha
      _ = u * X0 := one_mul _
  obtain ⟨h1a, h1b⟩ := abs_le.mp h1
  have hx0 : 0 ≤ x := by
    have : u * X0 ≤ X0 := by
      calc u * X0 ≤ 1 * X0 := mul_le_mul_of_nonneg_right hu1 hX.le
        _ = X0 := one_mul _
    linarith
  have habs : |x + -1| ≤ x + 1 := by
    rw [abs_le]
    constructor <;> linarith
  have hux : u * |x + -1| ≤ u * X0 + u * (u * X0) + u := by
    calc u * |x + -1| ≤ u * (x + 1) := mul_le_mul_of_nonneg_left habs hu0
      _ ≤ u * (X0 + u * X0 + 1) := mul_le_mul_of_nonneg_left (by linarith) hu0
      _ = u * X0 + u * (u * X0) + u := by ring
  obtain ⟨h2a, h2b⟩ := abs_le.mp h2
  constructor <;> linarith

/-- The error of the last quotient, from the error `θ` of the denominator. -/
theorem zero_rate_quot_bound (u θ bs X0 y z : ℚ) (hu0 : 0 ≤ u) (hu1 : u ≤ 1 / 8)
    (hθ0 : 0 ≤ θ) (hθ1 : θ ≤ 1 / 8) (hbs : 0 < bs) (hX : 0 < X0)
    (hy1 : X0 * (1 - θ) * (1 - u) ≤ y) (hy2 : y ≤ X0 * (1 + θ) * (1 + u))
    (hz : |z - bs * X0 / y| ≤ u * (bs * X0 / y)) :
    |z - bs| ≤ (2 * θ + 4 * u) * bs := by
  have hypos : 0 < y := by
    have : 0 < X0 * (1 - θ) * (1 - u) := by
      apply mul_pos (mul_pos hX (by linarith)) (by linarith)
    linarith
  obtain ⟨hza, hzb⟩ := abs_le.mp hz
  have hc : bs * X0 / y * y = bs * X0 := div_mul_cancel₀ _ hypos.ne'
  have hcpos : 0 < bs * X0 / y := div_pos (mul_pos hbs hX) hypos
  have hθu : 0 ≤ θ * u := mul_nonneg hθ0 hu0
  -- the two polynomial inequalities
  have P1 : 1 + u ≤ (1 + (2 * θ + 4 * u)) * ((1 - θ) * (1 - u)) := by
    nlinarith [mul_nonneg hθ0 hθ0, mul_nonneg hu0 hu0, mul_nonneg hθu hθ0,
      mul_nonneg hθu hu0]
  have P2 : (1 - (2 * θ + 4 * u)) * ((1 + θ) * (1 + u)) ≤ 1 - u := by
    nlinarith [mul_nonneg hθ0 hθ0, mul_nonneg hu0 hu0, mul_nonneg hθu hθ0,
      mul_nonneg hθu hu0]
  have hup : (1 + u) * (bs * X0 / y) ≤ (1 + (2 * θ + 4 * u)) * bs := by
    rw [← mul_div_assoc, div_le_iff₀ hypos]
    have h3 : (1 + u) * X0 ≤ (1 + (2 * θ + 4 * u)) * y := by
      calc (1 + u) * X0 ≤ (1 + (2 * θ + 4 * u)) * ((1 - θ) * (1 - u)) * X0 :=
            mul_le_mul_of_nonneg_right P1 hX.le
        _ = (1 + (2 * θ + 4 * u)) * (X0 * (1 - θ) * (1 - u)) := by ring
        _ ≤ (1 + (2 * θ + 4 * u)) * y := mul_le_mul_of_nonneg_left hy1 (by linarith)
    calc (1 + u) * (bs * X0) = bs * ((1 + u) * X0) := by ring
      _ ≤ bs * ((1 + (2 * θ + 4 * u)) * y) := mul_le_mul_of_nonneg_left h3 hbs.le
      _ = (1 + (2 * θ + 4 * u)) * bs * y := by ring
  have hlo : (1 - (2 * θ + 4 * u)) * bs ≤ (1 - u) * (bs * X0 / y) := by
    rw [← mul_div_assoc, le_div_iff₀ hypos]
    have h3 : (1 - (2 * θ + 4 * u)) * y ≤ (1 - u) * X0 := by
      calc (1 - (2 * θ + 4 * u)) * y
          ≤ (1 - (2 * θ + 4 * u)) * (X0 * (1 + θ) * (1 + u)) :=
            mul_le_mul_of_nonneg_left hy2 (by linarith)
        _ = (1 - (2 * θ + 4 * u)) * ((1 + θ) * (1 + u)) * X0 := by ring
        _ ≤ (1 - u) * X0 := mul_le_mul_of_nonneg_right P2 hX.le
    calc (1 - (2 * θ + 4 * u)) * bs * y = bs * ((1 - (2 * θ + 4 * u)) * y) := by ring
      _ ≤ bs * ((1 - u) * X0) := mul_le_mul_of_nonneg_left h3 hbs.le
      _ = (1 - u) * (bs * X0) := by ring
  rw [abs_le]
  constructor <;> linarith

/-- C2 (amended): the analytic step at rate zero, on doubles, is stationary
up to the guard and the rounding.  For every `K > 1e-12`, every `B` in
`[0, 1]` and every `P` whose `exp(P)` is finite, if the quotient `K / Bsafe`
(`Bsafe = B < eps ? eps : B`, that is `max(B, eps)`) does not overflow, then
`logistic_step(B, 0, P, K)` is a number `z` with
`|z - max(B, eps)| <= 2^-53 * (10 + 4 * max(B, eps) / K) * max(B, eps)`.
The C library's `exp` enters through `exp(+0) = exp(-0) = 1` only. -/
theorem logistic_step_zero_rate_near (exp : Dbl → Dbl) (B P K : Dbl)
    (hexp0 : exp (Dbl.num 0) = Dbl.num 1) (hexpn : exp Dbl.nzero = Dbl.num 1)
    (hP : is_finite (exp P) = true) (hB0 : le (Dbl.num 0) B = true)
    (hB1 : le B (Dbl.num 1) = true) (hK : lt eps K = true)
    (hov : is_finite (div K (if lt B eps then eps else B)) = true) :
    ∃ z : ℚ, logistic_step exp B (Dbl.num 0) P K = Dbl.num z ∧
      |z - max (toRat B) (toRat eps)|
        ≤ 1 / 2 ^ 53 * (10 + 4 * (max (toRat B) (toRat eps) / toRat K))
          * max (toRat B) (toRat eps) := by
  rw [logistic_step_zero_rate_eq exp B P K hexp0 hexpn hP hK]
  have he1 : (1 : ℚ) / 2 ^ 40 ≤ 4951760157141521 / 2 ^ 92 := by norm_num
  have he2 : (4951760157141521 : ℚ) / 2 ^ 92 ≤ 1 := by norm_num
  -- the guarded state
  obtain ⟨bs, hBs, hbs⟩ : ∃ bs, (if lt B eps then eps else B) = Dbl.num bs ∧
      bs = max (toRat B) (toRat eps) := by
    rw [eps_eq]
    cases B with
    | num b =>
      by_cases hb : b < 4951760157141521 / 2 ^ 92
      · exact ⟨4951760157141521 / 2 ^ 92, by simp [hb], by simp [toRat, max_eq_right hb.le]⟩
      · exact ⟨b, by simp [hb], by simp [toRat, max_eq_left (not_lt.mp hb)]⟩
    | nzero =>
      refine ⟨4951760157141521 / 2 ^ 92, ?_, ?_⟩
      · norm_num
      · simp only [toRat]
        rw [max_eq_right (by norm_num)]
    | nan => simp at hB0
    | pinf => simp at hB1
    | ninf => simp at hB0
  have hbs1 : 4951760157141521 / 2 ^ 92 ≤ bs := by
    rw [hbs, eps_eq]
    exact le_max_right _ _
  have hbs2 : bs ≤ 1 := by
    rw [hbs, eps_eq]
    apply max_le _ he2
    cases B with
    | num b => simpa using hB1
    | _ => simp [toRat]
  have hbspos : 0 < bs := by linarith [show (0 : ℚ) < 1 / 2 ^ 40 by norm_num]
  rw [hBs] at hov ⊢
  rw [← hbs]
  -- the capacity
  obtain ⟨k, rfl, hk⟩ : ∃ k, K = Dbl.num k ∧ 4951760157141521 / 2 ^ 92 < k := by
    rw [eps_eq] at hK
    cases K with
    | num k => exact ⟨k, rfl, by simpa using hK⟩
    | nzero =>
      simp only [lt_num_nzero, decide_eq_true_eq] at hK
      norm_num at hK
    | nan => simp at hK
    | pinf =>
      have hn : ¬ bs < 0 := not_lt.mpr hbspos.le
      simp [div, is_nan, is_inf, inf_of, sign_bit, is_finite, hn] at hov
    | ninf => simp at hK
  have hkpos : 0 < k := by linarith [show (0 : ℚ) < 1 / 2 ^ 40 by norm_num]
  simp only [toRat]
  -- the first quotient
  have hX0 : 0 < k / bs := div_pos hkpos hbspos
  have hXlow : (1 : ℚ) / 2 ^ 40 ≤ k / bs := by
    rw [le_div_iff₀ hbspos]
    calc 1 / 2 ^ 40 * bs ≤ 1 / 2 ^ 40 * 1 := mul_le_mul_of_nonneg_left hbs2 (by norm_num)
      _ ≤ k := by linarith
  have hsmall : (2 : ℚ) ^ (-1022 : ℤ) ≤ 1 / 2 ^ 41 := by
    rw [show (1 : ℚ) / 2 ^ 41 = 2 ^ (-41 : ℤ) by norm_num]
    exact zpow_le_zpow_right₀ (by norm_num) (by norm_num)
  have hdiv : div (Dbl.num k) (Dbl.num bs) = round64 (k / bs) :=
    div_num_num k bs hkpos.ne' hbspos.ne'
  rw [hdiv] at hov ⊢
  have hx1 := round64_rel_err (k / bs) hov
    (by rw [abs_of_pos hX0]; linarith [show (1 : ℚ) / 2 ^ 41 ≤ 1 / 2 ^ 40 by norm_num])
  rw [abs_of_pos hX0] at hx1
  obtain ⟨hxe, -, hx0⟩ := round64_pos_finite (k / bs) hX0.le
    (by intro h; rw [h] at hov; simp [is_finite] at hov)
  generalize hxdef : toRat (round64 (k / bs)) = x at hx1 hxe hx0
  have hxd : round64 x = Dbl.num x := by
    have := is_double_round64 (k / bs)
    rw [hxe] at this
    exact this
  rw [hxe]
  have hxpos : 0 < x := by
    have := (abs_le.mp hx1).1
    have hh : 1 / 2 ^ 53 * (k / bs) ≤ 1 / 2 * (k / bs) :=
      mul_le_mul_of_nonneg_right (by norm_num) hX0.le
    linarith
  -- the difference
  have hsub : sub (Dbl.num x) (Dbl.num 1) = round64 (x + -1) :=
    sub_num_num x 1 hxpos.ne' (by norm_num)
  have hWle : le (round64 (x + -1)) (Dbl.num x) = true :=
    round64_le x (x + -1) hxd (by linarith)
  have hWge : le (Dbl.num (-1)) (round64 (x + -1)) = true := by
    have hm1 : round64 (-1) = Dbl.num (-1) := by
      have := is_double_neg _ is_double_one
      simpa [neg, is_double] using this
    exact le_round64 (-1) (x + -1) hm1 (by linarith)
  have hWf : is_finite (round64 (x + -1)) = true := finite_of_le_le _ _ _ hWge hWle
  have hw1 := round64_abs_err (x + -1) hWf
  rw [hsub, add_one_finite _ hWf]
  have hwx : toRat (round64 (x + -1)) ≤ x := by
    rcases finite_cases _ hWf with h | ⟨w, h⟩
    · rw [h]
      exact hxpos.le
    · rw [h] at hWle ⊢
      simpa using hWle
  generalize hwdef : toRat (round64 (x + -1)) = w at hw1 hwx
  -- the sum
  have hη : (2 : ℚ) ^ (-1075 : ℤ) ≤ 1 / 2 ^ 53 := by
    rw [show (1 : ℚ) / 2 ^ 53 = 2 ^ (-53 : ℤ) by norm_num]
    exact zpow_le_zpow_right₀ (by norm_num) (by norm_num)
  obtain ⟨hs1, hs2⟩ := zero_rate_sum_bound (1 / 2 ^ 53) (2 ^ (-1075 : ℤ)) (k / bs) x w
    (by norm_num) (by norm_num) hη hX0 hx1 hw1
  -- the relative error of the sum
  have hρ : bs / k ≤ 2 ^ 40 := by
    rw [div_le_iff₀ hkpos]
    calc bs ≤ 1 := hbs2
      _ = 2 ^ 40 * (1 / 2 ^ 40) := by norm_num
      _ ≤ 2 ^ 40 * k := mul_le_mul_of_nonneg_left (by linarith) (by norm_num)
  have hρ0 : 0 < bs / k := div_pos hbspos hkpos
  have hρX : bs / k * (k / bs) = 1 := by
    field_simp
  obtain ⟨θ, hθdef⟩ : ∃ θ : ℚ, θ = 3 * (1 / 2 ^ 53) + 2 * (1 / 2 ^ 53) * (bs / k) := ⟨_, rfl⟩
  have hθX : k / bs * θ = 3 * (1 / 2 ^ 53) * (k / bs) + 2 * (1 / 2 ^ 53) := by
    rw [hθdef]
    calc k / bs * (3 * (1 / 2 ^ 53) + 2 * (1 / 2 ^ 53) * (bs / k))
        = 3 * (1 / 2 ^ 53) * (k / bs) + 2 * (1 / 2 ^ 53) * (bs / k * (k / bs)) := by ring
      _ = 3 * (1 / 2 ^ 53) * (k / bs) + 2 * (1 / 2 ^ 53) := by rw [hρX, mul_one]
  have hθ0 : 0 ≤ θ := by
    rw [hθdef]
    positivity
  have hθ1 : θ ≤ 1 / 8 := by
    rw [hθdef]
    have : 2 * (1 / 2 ^ 53) * (bs / k) ≤ 2 * (1 / 2 ^ 53) * 2 ^ 40 :=
      mul_le_mul_of_nonneg_left hρ (by norm_num)
    have e : (2 : ℚ) * (1 / 2 ^ 53) * 2 ^ 40 = 1 / 2 ^ 12 := by norm_num
    linarith [show (3 : ℚ) * (1 / 2 ^ 53) + 1 / 2 ^ 12 ≤ 1 / 8 by norm_num]
  have hs1' : k / bs * (1 - θ) ≤ 1 + w := by
    have : k / bs * (1 - θ) = k / bs - k / bs * θ := by ring
    rw [this, hθX]
    exact hs1
  have hs2' : 1 + w ≤ k / bs * (1 + θ) := by
    have : k / bs * (1 + θ) = k / bs + k / bs * θ := by ring
    rw [this, hθX]
    exact hs2
  have hslow : (1 : ℚ) / 2 ^ 41 ≤ 1 + w := by
    have : k / bs * (7 / 8) ≤ k / bs * (1 - θ) :=
      mul_le_mul_of_nonneg_left (by linarith only [hθ1]) hX0.le
    linarith only [this, hs1', hXlow]
  have hspos : 0 < 1 + w := lt_of_lt_of_le (by norm_num) hslow
  have hYne : round64 (1 + w) ≠ Dbl.pinf := by
    apply round64_ne_pinf
    have hmax := double_le_max x hxd
    rw [abs_of_pos hxpos] at hmax
    have e : (2 : ℚ) ^ (971 : ℤ) = 2 * 2 ^ (970 : ℤ) := by
      rw [show (971 : ℤ) = 1 + 970 by norm_num, zpow_add₀ (by norm_num)]
      norm_num
    have h1 : (1 : ℚ) < 2 ^ (970 : ℤ) := by
      have : (2 : ℚ) ^ (1 : ℤ) ≤ 2 ^ (970 : ℤ) :=
        zpow_le_zpow_right₀ (by norm_num) (by norm_num)
      norm_num at this
      linarith only [this]
    linarith only [hmax, e, h1, hwx]
  obtain ⟨hye, hyf, hy0⟩ := round64_pos_finite (1 + w) hspos.le hYne
  have hy1 := round64_rel_err (1 + w) hyf (by rw [abs_of_pos hspos]; exact le_trans hsmall hslow)
  rw [abs_of_pos hspos] at hy1
  generalize hydef : toRat (round64 (1 + w)) = y at hy1 hye hy0
  rw [hye]
  obtain ⟨hy1a, hy1b⟩ := abs_le.mp hy1
  have hyl : k / bs * (1 - θ) * (1 - 1 / 2 ^ 53) ≤ y := by
    have : k / bs * (1 - θ) * (1 - 1 / 2 ^ 53) ≤ (1 + w) * (1 - 1 / 2 ^ 53) :=
      mul_le_mul_of_nonneg_right hs1' (by norm_num)
    linarith only [this, hy1a]
  have hyu : y ≤ k / bs * (1 + θ) * (1 + 1 / 2 ^ 53) := by
    have : (1 + w) * (1 + 1 / 2 ^ 53) ≤ k / bs * (1 + θ) * (1 + 1 / 2 ^ 53) :=
      mul_le_mul_of_nonneg_right hs2' (by norm_num)
    linarith only [this, hy1b]
  have hypos : 0 < y := by
    have : 0 < k / bs * (1 - θ) * (1 - 1 / 2 ^ 53) :=
      mul_pos (mul_pos hX0 (by linarith only [hθ1])) (by norm_num)
    linarith only [this, hyl]
  -- the last quotient
  have hkeq : k = bs * (k / bs) := by field_simp
  have hq0 : 0 < k / y := div_pos hkpos hypos
  have hqu : k / y ≤ 2 := by
    rw [div_le_iff₀ hypos]
    have h1 : k / bs * (3 / 4) ≤ k / bs * (1 - θ) * (1 - 1 / 2 ^ 53) := by
      have : (3 : ℚ) / 4 ≤ (1 - θ) * (1 - 1 / 2 ^ 53) := by
        have h78 : (7 : ℚ) / 8 ≤ 1 - θ := by linarith only [hθ1]
        calc (3 : ℚ) / 4 ≤ 7 / 8 * (1 - 1 / 2 ^ 53) := by norm_num
          _ ≤ (1 - θ) * (1 - 1 / 2 ^ 53) := mul_le_mul_of_nonneg_right h78 (by norm_num)
      calc k / bs * (3 / 4) ≤ k / bs * ((1 - θ) * (1 - 1 / 2 ^ 53)) :=
            mul_le_mul_of_nonneg_left this hX0.le
        _ = k / bs * (1 - θ) * (1 - 1 / 2 ^ 53) := by ring
    have h2 : k ≤ k / bs := by
      rw [le_div_iff₀ hbspos]
      calc k * bs ≤ k * 1 := mul_le_mul_of_nonneg_left hbs2 hkpos.le
        _ = k := mul_one k
    linarith only [h1, h2, hyl, hX0]
  have hql : (1 : ℚ) / 2 ^ 41 ≤ k / y := by
    rw [le_div_iff₀ hypos]
    have h1 : y ≤ k / bs * 2 := by
      have : (1 + θ) * (1 + 1 / 2 ^ 53) ≤ 2 := by
        have h98 : 1 + θ ≤ 9 / 8 := by linarith only [hθ1]
        calc (1 + θ) * (1 + 1 / 2 ^ 53) ≤ 9 / 8 * (1 + 1 / 2 ^ 53) :=
              mul_le_mul_of_nonneg_right h98 (by norm_num)
          _ ≤ 2 := by norm_num
      calc y ≤ k / bs * (1 + θ) * (1 + 1 / 2 ^ 53) := hyu
        _ = k / bs * ((1 + θ) * (1 + 1 / 2 ^ 53)) := by ring
        _ ≤ k / bs * 2 := mul_le_mul_of_nonneg_left this hX0.le
    have h2 : 1 / 2 ^ 41 * (k / bs * 2) ≤ k := by
      have : 1 / 2 ^ 40 * (k / bs) ≤ bs * (k / bs) :=
        mul_le_mul_of_nonneg_right (le_trans he1 hbs1) hX0.le
      rw [← hkeq] at this
      linarith only [this]
    calc 1 / 2 ^ 41 * y ≤ 1 / 2 ^ 41 * (k / bs * 2) :=
          mul_le_mul_of_nonneg_left h1 (by norm_num)
      _ ≤ k := h2
  have hdiv2 : div (Dbl.num k) (Dbl.num y) = round64 (k / y) :=
    div_num_num k y hkpos.ne' hypos.ne'
  rw [hdiv2]
  have hZle : le (round64 (k / y)) (Dbl.num 2) = true := round64_le 2 (k / y) is_double_two hqu
  have hZne : round64 (k / y) ≠ Dbl.pinf := by
    intro h
    rw [h] at hZle
    simp at hZle
  obtain ⟨hze, hzf, hz0⟩ := round64_pos_finite (k / y) hq0.le hZne
  have hz1 := round64_rel_err (k / y) hzf (by rw [abs_of_pos hq0]; exact le_trans hsmall hql)
  rw [abs_of_pos hq0] at hz1
  generalize hzdef : toRat (round64 (k / y)) = z at hz1 hze hz0
  rw [hze]
  have hz1' : |z - bs * (k / bs) / y| ≤ 1 / 2 ^ 53 * (bs * (k / bs) / y) := by
    rw [← hkeq]
    exact hz1
  have hfin := zero_rate_quot_bound (1 / 2 ^ 53) θ bs (k / bs) y z (by norm_num) (by norm_num)
    hθ0 hθ1 hbspos hX0 hyl hyu hz1'
  have hΔ : (2 * θ + 4 * (1 / 2 ^ 53)) * bs = 1 / 2 ^ 53 * (10 + 4 * (bs / k)) * bs := by
    rw [hθdef]
    ring
  rw [hΔ] at hfin
  -- the final clamp
  by_cases hz1c : z ≤ 1
  · exact ⟨z, clamp_ifs_num z hz0 hz1c, hfin⟩
  · refine ⟨1, ?_, ?_⟩
    · have a : ¬ z < 0 := not_lt.mpr hz0
      simp [clamp_ifs, a, not_le.mp hz1c]
    · obtain ⟨-, hb⟩ := abs_le.mp hfin
      rw [abs_le]
      have hz1' : 1 < z := not_le.mp hz1c
      have hpos : 0 ≤ 1 / 2 ^ 53 * (10 + 4 * (bs / k)) * bs := by positivity
      constructor
      · linarith only [hpos, hbs2]
      · linarith only [hb, hz1']

/-- C2, as stated, fails, in four ways.  At `B = 0`, `K = 1` the guard
replaces `B` by `eps` and the step returns `eps`, not 0.  At `B = 25/64`,
`K = 7/8`, both above `eps`, the roundings of the operations give
`7036874417766399 * 2 ^ (-54)`, the double just below `B`.  At `P = 1000`
(`B = 0.5`, `K = 1`) the rate is `0 * inf` and the step is NaN.  At
`B = 2 ^ (-30)`, `K = 2 ^ 1000` the quotient `K / Bsafe` overflows and the
step returns 0. -/
theorem logistic_step_zero_rate_counterexample :
    lt eps (Dbl.num 1) = true ∧
    logistic_step (exp64 exp_series) (Dbl.num 0) (Dbl.num 0) (Dbl.num 0) (Dbl.num 1)
      = Dbl.num (4951760157141521 / 2 ^ 92) ∧
    eq (Dbl.num (4951760157141521 / 2 ^ 92)) (Dbl.num 0) = false ∧
    lt eps (Dbl.num (7 / 8)) = true ∧
    logistic_step (exp64 exp_series) (Dbl.num (25 / 64)) (Dbl.num 0) (Dbl.num 0)
      (Dbl.num (7 / 8)) = Dbl.num (7036874417766399 / 2 ^ 54) ∧
    eq (Dbl.num (7036874417766399 / 2 ^ 54)) (Dbl.num (25 / 64)) = false ∧
    logistic_step (exp64 exp_series) (Dbl.num (1 / 2)) (Dbl.num 0) (Dbl.num 1000) (Dbl.num 1)
      = Dbl.nan ∧
    lt eps (Dbl.num (2 ^ (1000 : ℤ))) = true ∧
    le (Dbl.num 0) (Dbl.num (2 ^ (-30 : ℤ))) = true ∧
    le (Dbl.num (2 ^ (-30 : ℤ))) (Dbl.num 1) = true ∧
    logistic_step (exp64 exp_series) (Dbl.num (2 ^ (-30 : ℤ))) (Dbl.num 0) (Dbl.num 0)
      (Dbl.num (2 ^ (1000 : ℤ))) = Dbl.num 0 ∧
    eq (Dbl.num 0) (Dbl.num (2 ^ (-30 : ℤ))) = false := by
  have hp : (0 : ℚ) < 2 ^ (-30 : ℤ) := zpow_two_pos _
  refine ⟨lt_eps_one, logistic_step_at_zero, ?_, lt_eps_seven_eighths, logistic_step_at_ulp,
    ?_, logistic_step_at_overflowing_exp, lt_eps_big, ?_, ?_,
    logistic_step_at_overflowing_quotient, ?_⟩
  · norm_num [eq]
  · norm_num [eq]
  · simpa using hp.le
  · simp only [le_num_num, decide_eq_true_eq]
    exact zpow_le_one_of_nonpos₀ (by norm_num) (by norm_num)
  · simp only [eq, le_num_num, Bool.and_eq_false_imp, decide_eq_true_eq,
      decide_eq_false_iff_not, not_le]
    exact fun _ => hp

/-- Instance of the amended C2 at `B = 0.5`, `P = 0`, `K = 1`. -/
theorem logistic_step_zero_rate_near_witness :
    exp64 exp_series (Dbl.num 0) = Dbl.num 1 ∧ exp64 exp_series Dbl.nzero = Dbl.num 1 ∧
    is_finite (exp64 exp_series (Dbl.num 0)) = true ∧
    le (Dbl.num 0) (Dbl.num (1 / 2)) = true ∧ le (Dbl.num (1 / 2)) (Dbl.num 1) = true ∧
    lt eps (Dbl.num 1) = true ∧
    is_finite (div (Dbl.num 1) (if lt (Dbl.num (1 / 2)) eps then eps else Dbl.num (1 / 2)))
      = true ∧
    ∃ z : ℚ, logistic_step (exp64 exp_series) (Dbl.num (1 / 2)) (Dbl.num 0) (Dbl.num 0)
        (Dbl.num 1) = Dbl.num z ∧
      |z - max (toRat (Dbl.num (1 / 2))) (toRat eps)|
        ≤ 1 / 2 ^ 53 * (10 + 4 * (max (toRat (Dbl.num (1 / 2))) (toRat eps)
            / toRat (Dbl.num 1)))
          * max (toRat (Dbl.num (1 / 2))) (toRat eps) :=
  have hov : is_finite (div (Dbl.num 1)
      (if lt (Dbl.num (1 / 2)) eps then eps else Dbl.num (1 / 2))) = true := by
    have e0 : (if lt (Dbl.num (1 / 2)) eps then eps else Dbl.num (1 / 2))
        = Dbl.num (1 / 2) := by
      rw [eps_eq]; norm_num
    have e1 : round64 (1 / (1 / 2)) = Dbl.num 2 := by
      rw [show (1 : ℚ) / (1 / 2) = 2 by norm_num]
      exact is_double_two
    rw [e0, div_num_num 1 (1 / 2) (by norm_num) (by norm_num), e1]
    rfl
  ⟨exp64_zero _, exp64_nzero _, exp64_zero_finite _, by norm_num, by norm_num, lt_eps_one, hov,
    logistic_step_zero_rate_near (exp64 exp_series) (Dbl.num (1 / 2)) (Dbl.num 0) (Dbl.num 1)
      (exp64_zero _) (exp64_nzero _) (exp64_zero_finite _) (by norm_num) (by norm_num)
      lt_eps_one hov⟩

/-! ## The closed form of the analytic step on doubles -/

theorem is_nan_eps : is_nan eps = false := by
  rw [eps_eq]
  rfl

/-- For a `B` that is not NaN, the guard `B < eps ? eps : B` is `fmax(B, eps)`. -/
theorem bsafe_eq_fmax (B : Dbl) (hB : is_nan B = false) :
    (if lt B eps then eps else B) = fmax B eps := by
  unfold fmax
  rw [hB, is_nan_eps]
  simp

/-- Above the capacity guard and for a `B` that is not NaN, `logistic_step` is
the two final `if` statements applied to the closed form. -/
theorem logistic_step_eq_clamp_ifs (exp : Dbl → Dbl) (B r0 P K : Dbl) (hK : lt eps K = true)
    (hB : is_nan B = false) :
    logistic_step exp B r0 P K = clamp_ifs (logistic_closed_form exp B r0 P K) := by
  rw [logistic_step_of_lt exp B r0 P K hK, bsafe_eq_fmax B hB,
    mul_one_exact _ (is_double_neg _ (is_double_mul _ _))]
  rfl

/-- The two final `if` statements agree with `fmin(1.0, fmax(0.0, x))` on
every value but NaN, which they let through. -/
theorem clamp_ifs_clamp01 (v : Dbl) (hv : v ≠ Dbl.nan) :
    eq (clamp_ifs v) (clamp01 v) = true := by
  cases v with
  | num q =>
    unfold clamp_ifs clamp01 fmax fmin eq
    by_cases h0 : q < 0
    · have h0' : ¬ 0 < q := not_lt.mpr h0.le
      norm_num [h0, h0', is_nan]
    · by_cases h1 : 1 < q
      · have hq : 0 < q := by linarith
        have h1' : ¬ q < 1 := not_lt.mpr h1.le
        norm_num [h0, h1, hq, h1', is_nan]
      · by_cases hq : 0 < q
        · by_cases h2 : q < 1
          · norm_num [h0, h1, hq, h2, is_nan]
          · have hq1 : q = 1 := le_antisymm (not_lt.mp h1) (not_lt.mp h2)
            subst hq1
            norm_num [is_nan]
        · have hq0 : q = 0 := le_antisymm (not_lt.mp hq) (not_lt.mp h0)
          subst hq0
          norm_num [is_nan]
  | nan => exact absurd rfl hv
  | pinf => norm_num [clamp_ifs, clamp01, fmax, fmin, eq, is_nan]
  | ninf => norm_num [clamp_ifs, clamp01, fmax, fmin, eq, is_nan]
  | nzero => norm_num [clamp_ifs, clamp01, fmax, fmin, eq, is_nan]

/-- Above the capacity guard and for a `B` that is not NaN, let
`v = K / (1 + (K / max(B, 1e-12) - 1) * exp(-(r0 * exp(P))))`, computed on
doubles in this order, the maximum by `fmax`, with no clamp of the rate or of
`K`.  When `v` is NaN, `logistic_step(B, r0, P, K)` is NaN; otherwise it
equals (`==`) the clamp `fmin(1.0, fmax(0.0, v))` of `v`. -/
theorem logistic_step_closed_form_of_ne_nan (exp : Dbl → Dbl) (B r0 P K : Dbl)
    (hK : lt eps K = true) (hB : is_nan B = false) :
    (logistic_closed_form exp B r0 P K = Dbl.nan → logistic_step exp B r0 P K = Dbl.nan) ∧
    (logistic_closed_form exp B r0 P K ≠ Dbl.nan →
      eq (logistic_step exp B r0 P K) (clamp01 (logistic_closed_form exp B r0 P K)) = true) := by
  rw [logistic_step_eq_clamp_ifs exp B r0 P K hK hB]
  exact ⟨fun h => (clamp_ifs_spec _).1.mpr h, clamp_ifs_clamp01 _⟩

/-- C3 fails on the code, by the defect of C1: the two final `if` statements
do not clamp NaN.  At `B = 0.5`, `r0 = 0`, `P = 1000`, `K = 0.5` the rate is
`0 * inf`, the closed form is NaN, and `logistic_step` returns NaN, where the
clamp `fmin(1.0, fmax(0.0, .))` of the closed form is 0; NaN equals (`==`)
neither this nor any other value. -/
theorem logistic_step_closed_form_nan :
    lt eps (Dbl.num (1 / 2)) = true ∧
    logistic_closed_form (exp64 exp_series) (Dbl.num (1 / 2)) (Dbl.num 0)
      (Dbl.num 1000) (Dbl.num (1 / 2)) = Dbl.nan ∧
    logistic_step (exp64 exp_series) (Dbl.num (1 / 2)) (Dbl.num 0) (Dbl.num 1000)
      (Dbl.num (1 / 2)) = Dbl.nan ∧
    clamp01 (logistic_closed_form (exp64 exp_series) (Dbl.num (1 / 2)) (Dbl.num 0)
      (Dbl.num 1000) (Dbl.num (1 / 2))) = Dbl.num 0 ∧
    eq (logistic_step (exp64 exp_series) (Dbl.num (1 / 2)) (Dbl.num 0) (Dbl.num 1000)
        (Dbl.num (1 / 2)))
      (clamp01 (logistic_closed_form (exp64 exp_series) (Dbl.num (1 / 2)) (Dbl.num 0)
        (Dbl.num 1000) (Dbl.num (1 / 2)))) = false ∧
    (∀ y, eq (logistic_step (exp64 exp_series) (Dbl.num (1 / 2)) (Dbl.num 0) (Dbl.num 1000)
      (Dbl.num (1 / 2))) y = false) := by
  have hK : lt eps (Dbl.num (1 / 2)) = true := by
    rw [eps_eq]
    norm_num
  have hr : mul (Dbl.num 0) (exp64 exp_series (Dbl.num 1000)) = Dbl.nan := by
    rw [exp64_overflow _ _ (by norm_num)]
    simp [mul, is_nan, is_inf, is_finite, toRat]
  have hmul : ∀ x, mul x Dbl.nan = Dbl.nan := by
    intro x
    cases x <;> simp [mul, is_nan]
  have hadd : add (Dbl.num 1) Dbl.nan = Dbl.nan := by simp [add, is_nan]
  have hdiv : ∀ k, div (Dbl.num k) Dbl.nan = Dbl.nan := by
    intro k
    simp [div, is_nan]
  have hc : logistic_closed_form (exp64 exp_series) (Dbl.num (1 / 2)) (Dbl.num 0)
      (Dbl.num 1000) (Dbl.num (1 / 2)) = Dbl.nan := by
    unfold logistic_closed_form
    rw [hr]
    simp only [neg, exp64_nan, hmul, hadd, hdiv]
  have hs : logistic_step (exp64 exp_series) (Dbl.num (1 / 2)) (Dbl.num 0) (Dbl.num 1000)
      (Dbl.num (1 / 2)) = Dbl.nan := by
    rw [logistic_step_eq_clamp_ifs (exp64 exp_series) (Dbl.num (1 / 2)) (Dbl.num 0)
      (Dbl.num 1000) (Dbl.num (1 / 2)) hK rfl, hc]
    simp [clamp_ifs]
  have h0 : clamp01 (logistic_closed_form (exp64 exp_series) (Dbl.num (1 / 2)) (Dbl.num 0)
      (Dbl.num 1000) (Dbl.num (1 / 2))) = Dbl.num 0 := by
    rw [hc]
    norm_num [clamp01, fmax, fmin, is_nan]
  refine ⟨hK, hc, hs, h0, ?_, ?_⟩
  · rw [hs, h0]
    rfl
  · intro y
    rw [hs]
    cases y <;> rfl

/-- The guard `B < eps ? eps : B` keeps a NaN state, where `fmax(B, 1e-12)` is
`1e-12`: at `B = NaN`, `r0 = 0`, `P = 0`, `K = 1` the step is NaN and the
closed form is a number. -/
theorem logistic_step_nan_state :
    lt eps (Dbl.num 1) = true ∧
    logistic_step (exp64 exp_series) Dbl.nan (Dbl.num 0) (Dbl.num 0) (Dbl.num 1) = Dbl.nan ∧
    logistic_closed_form (exp64 exp_series) Dbl.nan (Dbl.num 0) (Dbl.num 0) (Dbl.num 1)
      ≠ Dbl.nan := by
  have hK1 : lt eps (Dbl.num 1) = true := by
    rw [eps_eq]
    norm_num
  have hadd : add (Dbl.num 1) Dbl.nan = Dbl.nan := by simp [add, is_nan]
  have hdiv : ∀ k, div (Dbl.num k) Dbl.nan = Dbl.nan := by
    intro k
    simp [div, is_nan]
  have hr0 : mul (Dbl.num 0) (exp64 exp_series (Dbl.num 0)) = Dbl.num 0 := by
    rw [exp64_zero]
    simp [mul, is_nan, is_inf, toRat, sign_bit, zero_of]
  refine ⟨hK1, ?_, ?_⟩
  · rw [logistic_step_of_lt _ _ _ _ _ hK1]
    have e1 : (if lt Dbl.nan eps then eps else Dbl.nan) = Dbl.nan := by simp
    have e2 : div (Dbl.num 1) Dbl.nan = Dbl.nan := hdiv 1
    have e3 : sub Dbl.nan (Dbl.num 1) = Dbl.nan := by simp [sub, add, is_nan]
    have e4 : ∀ y, mul Dbl.nan y = Dbl.nan := by
      intro y
      simp [mul, is_nan]
    rw [e1, e2, e3, e4, hadd, e2]
    simp [clamp_ifs]
  · unfold logistic_closed_form
    rw [hr0]
    have e1 : neg (Dbl.num 0) = Dbl.nzero := by simp [neg]
    have e2 : fmax Dbl.nan eps = eps := by simp [fmax, is_nan]
    rw [e1, exp64_nzero, e2,
      mul_one_exact _ (is_double_sub _ _ (is_double_div _ _) is_double_one),
      Ne, div_num_eq_nan 1 (by norm_num), add_one_eq_nan]
    unfold sub
    have e3 : neg (Dbl.num 1) = Dbl.num (-1) := by simp [neg]
    rw [e3, add_num_eq_nan, eps_eq, div_num_eq_nan 1 (by norm_num)]
    simp

/-! ## The Euler sub-step on doubles -/

end binary64
